import Mathlib

/-!
# The `:let` / `:unlet` engine of vifm (`src/engine/variables.c`)

A shallow embedding of the environment-variable registry, the statement
parser and the operation dispatcher, followed by theorems about them.

Conventions of the embedding

* A C string is a `List Char`; the terminating NUL is the end of the list.
* The static array `vars` with its length `nvars` is a `List Slot`.  A slot
  whose `name` pointer is `NULL` is `none`: `free_record` nulls the three
  string pointers together, and every reader tests `name` before it looks at
  anything else in the slot, so nothing of a freed slot is observable.
* The integer flags `from_parent` and `removed` are `Bool`.
* Allocation (`realloc`, `strdup`) always succeeds; the out-of-memory
  branches are not part of the model.  `assert`s are not modelled.
* Functions that mutate the globals take the state and return the new one.
-/

namespace Vifm

/-- A NUL-terminated C string. -/
abbrev CStr := List Char

def VAR_NAME_MAX : Nat := 64

/-- Types of supported variables. -/
inductive VariableType where
  | VT_ENVVAR
  | VT_ANY_OPTION
  | VT_GLOBAL_OPTION
  | VT_LOCAL_OPTION
  deriving DecidableEq, Repr

/-- Supported operations. -/
inductive VariableOperation where
  | VO_ASSIGN
  | VO_APPEND
  | VO_ADD
  | VO_SUB
  deriving DecidableEq, Repr

export VariableType (VT_ENVVAR VT_ANY_OPTION VT_GLOBAL_OPTION VT_LOCAL_OPTION)
export VariableOperation (VO_ASSIGN VO_APPEND VO_ADD VO_SUB)

/-- An occupied element of `vars` (`envvar_t` with a non-NULL name). -/
structure envvar_t where
  name : CStr
  val : CStr
  initial : CStr
  from_parent : Bool
  removed : Bool
  deriving DecidableEq, Repr

/-- One element of `vars`: `none` is a slot whose name is `NULL`. -/
abbrev Slot := Option envvar_t

def ENV_VAR_NAME_FIRST_CHAR : List Char :=
  "abcdefghijklmnopqrstuvwxyzABCDEFGHIJKLMNOPQRSTUVWXYZ_".toList

def ENV_VAR_NAME_CHARS : List Char :=
  "abcdefghijklmnopqrstuvwxyzABCDEFGHIJKLMNOPQRSTUVWXYZ0123456789_".toList

/-! ## Library and platform helpers used by the unit -/

/-- The C library `strcmp`, up to the sign of its result. -/
def strcmp (a b : CStr) : Int :=
  if a = b then 0 else if a < b then -1 else 1

/-- The C library `strcasecmp` in the C locale, up to the sign of its result. -/
def strcasecmp (a b : CStr) : Int :=
  strcmp (a.map Char.toLower) (b.map Char.toLower)

/-- Modelled from the spec: `stroscmp` of `utils/str.h`, the platform's name
comparison: case-sensitive on POSIX-like systems (`case_sensitive = true`),
case-insensitive on the others. -/
def stroscmp (case_sensitive : Bool) (a b : CStr) : Int :=
  if case_sensitive then strcmp a b else strcasecmp a b

/-- Modelled from the spec: `strnoscmp` of `utils/str.h`, the platform's
comparison of at most `n` leading characters. -/
def strnoscmp (case_sensitive : Bool) (a b : CStr) (n : Nat) : Int :=
  stroscmp case_sensitive (a.take n) (b.take n)

/-- The C library `isspace` in the C locale. -/
def isspace (c : Char) : Bool :=
  c = ' ' || c = '\t' || c = '\n' || c = Char.ofNat 11 || c = Char.ofNat 12 || c = '\r'

/-- Modelled from the spec: `skip_whitespace` of `utils/str.h`, which returns
the first position that does not hold a whitespace character. -/
def skip_whitespace : CStr → CStr
  | [] => []
  | c :: rest => if isspace c then skip_whitespace rest else c :: rest

/-- Skips consecutive non-whitespace characters. -/
def skip_non_whitespace : CStr → CStr
  | [] => []
  | c :: rest => if !isspace c then skip_non_whitespace rest else c :: rest

/-- Modelled from the spec: `char_is_one_of` of `utils/str.h`; the character
is one read from the input, so it is never the NUL. -/
def char_is_one_of (list : List Char) (c : Char) : Bool :=
  list.contains c

/-! ## The OS environment -/

/-- The process environment `environ`: every entry `NAME=VALUE` is kept split
at its first `=`. -/
abbrev Environ := List (CStr × CStr)

/-- Modelled from the spec: `get(name)` of the OS environment, the value of
the first entry of that name. -/
def env_get : Environ → CStr → Option CStr
  | [], _ => none
  | (n, v) :: rest, name => if n = name then some v else env_get rest name

/-- Modelled from the spec: `set(name, value)` of the OS environment
(`env_set` of `utils/env.h`): the entry of that name gets the value, a new
entry is added when there is none. -/
def env_set : Environ → CStr → CStr → Environ
  | [], name, val => [(name, val)]
  | (n, v) :: rest, name, val =>
    if n = name then (n, val) :: rest else (n, v) :: env_set rest name val

/-- Modelled from the spec: `unset(name)` of the OS environment
(`env_remove` of `utils/env.h`): no entry of that name is left. -/
def env_remove (env : Environ) (name : CStr) : Environ :=
  env.filter (fun e => decide (e.1 ≠ name))

/-! ## The option store and the expression evaluator (external) -/

/-- Scopes of the option store. -/
inductive OPT_SCOPE where
  | OPT_GLOBAL
  | OPT_LOCAL
  deriving DecidableEq, Repr

/-- Modelled from the spec: the value kind of an option descriptor; every
kind that is neither boolean nor string is `OPT_OTHER`. -/
inductive OPT_TYPE where
  | OPT_BOOL
  | OPT_STR
  | OPT_OTHER
  deriving DecidableEq, Repr

export OPT_SCOPE (OPT_GLOBAL OPT_LOCAL)
export OPT_TYPE (OPT_BOOL OPT_STR OPT_OTHER)

/-- Modelled from the spec: an option descriptor of `private/options.h`: the
definition of one name in one scope, with its value kind. -/
structure opt_t where
  name : CStr
  scope : OPT_SCOPE
  type : OPT_TYPE
  deriving DecidableEq, Repr

/-- What a mutation primitive of the option store gives back: its return
code, the new store and the lines it wrote to the error stream. -/
structure OptResult (σ : Type) where
  code : Int
  store : σ
  lines : List CStr

/-- Errors of the expression evaluator. -/
inductive ParsingErrors where
  | PE_NO_ERROR
  | PE_INVALID_EXPRESSION
  | PE_INVALID_SUBEXPRESSION
  | PE_MISSING_QUOTE
  | PE_INTERNAL
  deriving DecidableEq, Repr

export ParsingErrors (PE_NO_ERROR PE_INVALID_EXPRESSION PE_INVALID_SUBEXPRESSION
  PE_MISSING_QUOTE PE_INTERNAL)

/-- The outcome of `parse`: the error code, the value already turned into a
string by `var_to_string`, and `get_last_position()` (`none` is `NULL`). -/
structure ParseOutcome where
  error : ParsingErrors
  value : CStr
  last_position : Option CStr

/-- The collaborators of the unit that live in other files: the platform's
case rule, the option store of `private/options.h` over its own state `σ`,
and the expression evaluator of `parsing.h`, which may look at the option
store and reads variables through the accessor it was given by
`init_parser`. -/
structure Externals (σ : Type) where
  case_sensitive : Bool
  OPT_NAME_FIRST_CHAR : List Char
  OPT_NAME_CHARS : List Char
  find_option : σ → CStr → OPT_SCOPE → Option opt_t
  set_set : σ → opt_t → CStr → OptResult σ
  set_add : σ → opt_t → CStr → OptResult σ
  set_remove : σ → opt_t → CStr → OptResult σ
  parse : σ → (CStr → CStr) → CStr → ParseOutcome

/-- The globals the unit works on: the registry `vars`, the process
environment, the error stream `vle_err` and the option store. -/
structure State (σ : Type) where
  vars : List Slot
  environ : Environ
  vle_err : List CStr
  opts : σ

/-! ## The registry -/

/-- The search loop of `find_record`: the first occupied slot whose name the
platform rule takes for `name`, as its index and its contents. -/
def find_record_from (cs : Bool) (name : CStr) : List Slot → Nat → Option (Nat × envvar_t)
  | [], _ => none
  | none :: rest, i => find_record_from cs name rest (i + 1)
  | some r :: rest, i =>
    if stroscmp cs r.name name = 0 then some (i, r)
    else find_record_from cs name rest (i + 1)

/-- Searches for existent variable. -/
def find_record (cs : Bool) (vars : List Slot) (name : CStr) : Option (Nat × envvar_t) :=
  find_record_from cs name vars 0

def local_getenv (cs : Bool) (vars : List Slot) (envname : CStr) : CStr :=
  match find_record cs vars envname with
  | none => []
  | some (_, record) => if record.removed then [] else record.val

/-- The search loop of `get_record`: `Sum.inl i` when slot `i` holds `name`
(compared with `strcmp`), otherwise `Sum.inr p` with `p` the empty slot the
loop saw last, if it saw one. -/
def get_record_loop (name : CStr) : List Slot → Nat → Option Nat → Nat ⊕ Option Nat
  | [], _, p => Sum.inr p
  | none :: rest, i, _ => get_record_loop name rest (i + 1) (some i)
  | some r :: rest, i, p =>
    if strcmp r.name name = 0 then Sum.inl i
    else get_record_loop name rest (i + 1) p

/-- The record `get_record` initialises in a new slot. -/
def new_record (name : CStr) : envvar_t :=
  { name := name, val := [], initial := [], from_parent := false, removed := false }

/-- Searches for variable and creates new record if it did not exist: the
registry afterwards and the index of the record. -/
def get_record (vars : List Slot) (name : CStr) : List Slot × Nat :=
  match get_record_loop name vars 0 none with
  | Sum.inl i => (vars, i)
  | Sum.inr (some p) => (vars.set p (some (new_record name)), p)
  | Sum.inr none => (vars ++ [some (new_record name)], vars.length)

/-- Applies `f` to the record of slot `i` (a write through a record
pointer). -/
def update_record (f : envvar_t → envvar_t) : List Slot → Nat → List Slot
  | [], _ => []
  | s :: rest, 0 => s.map f :: rest
  | s :: rest, i + 1 => s :: update_record f rest i

/-- Frees the record of slot `i`: its name becomes `NULL`. -/
def free_record (vars : List Slot) (i : Nat) : List Slot :=
  vars.set i none

def set_envvar {σ : Type} (w : State σ) (name val : CStr) : State σ :=
  let (vars, i) := get_record w.vars name
  { w with
    vars := update_record (fun r => { r with val := val }) vars i
    environ := env_set w.environ name val }

def append_envvar {σ : Type} (cs : Bool) (w : State σ) (name val : CStr) : State σ :=
  match find_record cs w.vars name with
  | none => set_envvar w name val
  | some (i, record) =>
    { w with
      vars := update_record (fun r => { r with val := r.val ++ val }) w.vars i
      environ := env_set w.environ name (record.val ++ val) }

/-- One entry `NAME=VALUE` of the inherited environment becomes a record;
the name is cut to the `VAR_NAME_MAX` characters the buffer holds. -/
def init_var (vars : List Slot) (env : CStr × CStr) : List Slot :=
  let name := env.1.take VAR_NAME_MAX
  let (vars1, i) := get_record vars name
  update_record (fun r => { r with from_parent := true, initial := env.2, val := env.2 })
    vars1 i

/-- The body of the loop of `clear_variables` for slot `i`. -/
def clear_step {σ : Type} (w : State σ) (i : Nat) : State σ :=
  match w.vars[i]? with
  | some (some r) =>
    let w1 := if r.from_parent then set_envvar w r.name r.initial
              else { w with environ := env_remove w.environ r.name }
    { w1 with vars := free_record w1.vars i }
  | _ => w

/-- The loop of `clear_variables`, `for(i = ...; i < nvars; ++i)`; `fuel`
bounds the number of iterations. -/
def clear_loop {σ : Type} : Nat → Nat → State σ → State σ
  | 0, _, w => w
  | fuel + 1, i, w =>
    if i < w.vars.length then clear_loop fuel (i + 1) (clear_step w i) else w

/-- Restores the inherited environment and empties the registry.  The loop
gets one unit of fuel per slot: `set_envvar` is called with the name of the
occupied slot at hand, so `get_record` finds a slot and `nvars` does not
grow. -/
def clear_variables {σ : Type} (w : State σ) : State σ :=
  let w1 := clear_loop w.vars.length 0 w
  { w1 with vars := [] }

def init_variables {σ : Type} (w : State σ) : State σ :=
  let w1 := if w.vars.length > 0 then clear_variables w else w
  { w1 with vars := w1.environ.foldl init_var w1.vars }

/-! ## The statement parser -/

/-- The `do ... while` loop of `parse_name`: `n` is `buf_len` before the
decrement, `c` the character under `*in`, `rest` what follows it. -/
def parse_name_do (other : List Char) : Nat → Char → CStr → CStr → CStr × CStr
  | 0, c, rest, buf => (rest, buf ++ [c])
  | n + 1, c, rest, buf =>
    match rest with
    | [] => (rest, buf ++ [c])
    | d :: rest1 =>
      if n > 1 ∧ char_is_one_of other d = true then parse_name_do other n d rest1 (buf ++ [c])
      else (rest, buf ++ [c])

/-- Parses name of the form `first { other }`.  `none` is the non-zero
return; on success the new input position and the buffer. -/
def parse_name (first other : List Char) (buf_len : Nat) (inp : CStr) : Option (CStr × CStr) :=
  match inp with
  | [] => none
  | c :: rest =>
    if buf_len = 0 ∨ char_is_one_of first c = false then none
    else some (parse_name_do other buf_len c rest [])

/-- The result of `extract_name`: `ok` is the zero return with the new input
position, the variable type and the name; `fail` is the return of -1 with
the input position and the line written to the error stream. -/
inductive NameResult where
  | ok (rest : CStr) (type : VariableType) (buf : CStr)
  | fail (rest : CStr) (line : CStr)
  deriving DecidableEq, Repr

/-- The common tail of `extract_name` after `parse_name`. -/
def extract_name_finish (rest : CStr) (type : VariableType) : Option (CStr × CStr) → NameResult
  | none => NameResult.fail rest "Incorrect variable name".toList
  | some (rest1, buf) =>
    if buf = [] then NameResult.fail rest1 "Unsupported variable name: empty name".toList
    else NameResult.ok rest1 type buf

/-- Extracts name from the string. -/
def extract_name {σ : Type} (X : Externals σ) (inp : CStr) (buf_len : Nat) : NameResult :=
  match inp with
  | '$' :: rest =>
    extract_name_finish rest VT_ENVVAR
      (parse_name ENV_VAR_NAME_FIRST_CHAR ENV_VAR_NAME_CHARS buf_len rest)
  | '&' :: rest =>
    match rest with
    | 'l' :: ':' :: rest1 =>
      extract_name_finish rest1 VT_LOCAL_OPTION
        (parse_name X.OPT_NAME_FIRST_CHAR X.OPT_NAME_CHARS buf_len rest1)
    | 'g' :: ':' :: rest1 =>
      extract_name_finish rest1 VT_GLOBAL_OPTION
        (parse_name X.OPT_NAME_FIRST_CHAR X.OPT_NAME_CHARS buf_len rest1)
    | _ =>
      extract_name_finish rest VT_ANY_OPTION
        (parse_name X.OPT_NAME_FIRST_CHAR X.OPT_NAME_CHARS buf_len rest)
  | _ => NameResult.fail inp "Incorrect variable type".toList

/-- The result of `extract_op`: `ok` is the zero return with the new input
position and the operation; `fail` is the return of 1 with the input
position and the line written to the error stream. -/
inductive OpResult where
  | ok (rest : CStr) (vo : VariableOperation)
  | fail (rest : CStr) (line : CStr)
  deriving DecidableEq, Repr

/-- The second half of `extract_op`: checks for the equal sign and skips
it. -/
def extract_op_eq (inp : CStr) (vo : VariableOperation) : OpResult :=
  match inp with
  | '=' :: rest => OpResult.ok rest vo
  | _ => OpResult.fail inp ("Incorrect :let statement: '=' expected at ".toList ++ inp)

/-- Extracts operation from the string. -/
def extract_op (inp : CStr) : OpResult :=
  match inp with
  | '.' :: rest => extract_op_eq rest VO_APPEND
  | '+' :: rest => extract_op_eq rest VO_ADD
  | '-' :: rest => extract_op_eq rest VO_SUB
  | _ => extract_op_eq inp VO_ASSIGN

/-- The line `report_parsing_error` appends to the error stream, if any. -/
def report_parsing_error (error : ParsingErrors) (last_position : Option CStr) : List CStr :=
  match error with
  | PE_NO_ERROR => []
  | PE_INVALID_EXPRESSION => ["Invalid expression: ".toList ++ last_position.getD []]
  | PE_INVALID_SUBEXPRESSION => ["Invalid subexpression: ".toList ++ last_position.getD []]
  | PE_MISSING_QUOTE =>
    ["Invalid :let expression (missing quote): ".toList ++ last_position.getD []]
  | PE_INTERNAL => ["Internal error".toList]

/-! ## The operation dispatcher -/

/-- Validates operation on a specific variable type. -/
def is_valid_op {σ : Type} (X : Externals σ) (opts : σ) (name : CStr) (vt : VariableType)
    (vo : VariableOperation) : Bool :=
  if vt = VT_ENVVAR then decide (vo = VO_ASSIGN ∨ vo = VO_APPEND)
  else
    match X.find_option opts name OPT_GLOBAL with
    | none => true
    | some opt =>
      if opt.type = OPT_BOOL then false
      else if opt.type = OPT_STR then decide (vo = VO_ASSIGN ∨ vo = VO_APPEND)
      else decide (vo = VO_ASSIGN ∨ vo = VO_ADD ∨ vo = VO_SUB)

/-- The `switch` of `perform_opt_op`: the primitive of the option store that
serves the operation. -/
def opt_primitive {σ : Type} (X : Externals σ) (vo : VariableOperation) :
    σ → opt_t → CStr → OptResult σ :=
  match vo with
  | VO_ASSIGN => X.set_set
  | VO_ADD => X.set_add
  | VO_APPEND => X.set_add
  | VO_SUB => X.set_remove

/-- The line `perform_opt_op` writes when the option is not defined in the
scope. -/
def unknown_option_line (scope : OPT_SCOPE) (name : CStr) : CStr :=
  "Unknown ".toList ++ (if scope = OPT_LOCAL then "local".toList else "global".toList)
    ++ " option name: ".toList ++ name

/-- Performs operation on an option. -/
def perform_opt_op {σ : Type} (X : Externals σ) (w : State σ) (name : CStr) (vt : VariableType)
    (vo : VariableOperation) (value : CStr) : Int × State σ :=
  let scope := if vt = VT_ANY_OPTION ∨ vt = VT_LOCAL_OPTION then OPT_LOCAL else OPT_GLOBAL
  match X.find_option w.opts name scope with
  | none =>
    if vt = VT_ANY_OPTION then (0, w)
    else (1, { w with vle_err := w.vle_err ++ [unknown_option_line scope name] })
  | some opt =>
    let r := opt_primitive X vo w.opts opt value
    (if r.code ≠ 0 then 1 else 0, { w with opts := r.store, vle_err := w.vle_err ++ r.lines })

/-- Performs operation on a value. -/
def perform_op {σ : Type} (X : Externals σ) (w : State σ) (name : CStr) (vt : VariableType)
    (vo : VariableOperation) (value : CStr) : Int × State σ :=
  if vt = VT_ENVVAR then
    if vo = VO_APPEND then (0, append_envvar X.case_sensitive w name value)
    else (0, set_envvar w name value)
  else
    let r1 := if vt = VT_ANY_OPTION ∨ vt = VT_LOCAL_OPTION then perform_opt_op X w name vt vo value
              else (0, w)
    if r1.1 ≠ 0 then (1, r1.2)
    else if vt = VT_ANY_OPTION ∨ vt = VT_GLOBAL_OPTION then
      let r2 := perform_opt_op X r1.2 name VT_GLOBAL_OPTION vo value
      if r2.1 ≠ 0 then (1, r2.2) else (0, r2.2)
    else (0, r1.2)

/-- Appends lines to the error stream. -/
def err {σ : Type} (w : State σ) (lines : List CStr) : State σ :=
  { w with vle_err := w.vle_err ++ lines }

def let_variables {σ : Type} (X : Externals σ) (w : State σ) (cmd : CStr) : Int × State σ :=
  match extract_name X cmd (VAR_NAME_MAX + 1) with
  | NameResult.fail _ line => (1, err w [line])
  | NameResult.ok cmd1 type name =>
    match extract_op (skip_whitespace cmd1) with
    | OpResult.fail _ line => (-1, err w [line])
    | OpResult.ok cmd2 op =>
      let res := X.parse w.opts (local_getenv X.case_sensitive w.vars) (skip_whitespace cmd2)
      if res.error ≠ PE_NO_ERROR then
        (-1, err w (report_parsing_error res.error res.last_position))
      else if res.last_position ≠ none ∧ res.last_position ≠ some [] then
        (-1, err w ["Incorrect :let statement: trailing characters".toList])
      else if is_valid_op X w.opts name type op = false then
        (-1, err w ["Wrong variable type for this operation".toList])
      else perform_op X w name type op res.value

/-! ## The unset statement -/

/-- The loop of `unlet_variables` that copies the name: characters of the
alphabet, while the buffer has room. -/
def copy_name : CStr → CStr → CStr × CStr
  | [], name => ([], name)
  | c :: rest, name =>
    if char_is_one_of ENV_VAR_NAME_CHARS c = true ∧ name.length < VAR_NAME_MAX then
      copy_name rest (name ++ [c])
    else (c :: rest, name)

/-- The test `*cmd != 0 && !isspace(*cmd)` after the name is copied. -/
def trailing_chars : CStr → Bool
  | [] => false
  | c :: _ => !isspace c

/-- What one turn of the loop of `unlet_variables` does after the name is
copied and the whitespace after it skipped: the number of errors it adds and
the new state. -/
def unlet_one {σ : Type} (X : Externals σ) (w : State σ) (name : CStr) : Int × State σ :=
  if name = [] then (1, err w ["Unsupported variable name: empty name".toList])
  else
    match find_record X.case_sensitive w.vars name with
    | none => (1, err w ["No such variable: ".toList ++ name])
    | some (i, record) =>
      if record.removed then (1, err w ["No such variable: ".toList ++ name])
      else
        let vars := if record.from_parent
                    then update_record (fun r => { r with removed := true }) w.vars i
                    else free_record w.vars i
        (0, { w with vars := vars, environ := env_remove w.environ name })

/-- The `while(*cmd != 0)` loop of `unlet_variables`; `fuel` bounds the
number of turns. -/
def unlet_loop {σ : Type} (X : Externals σ) : Nat → CStr → State σ → Int → Int × State σ
  | 0, _, w, error => (error, w)
  | fuel + 1, cmd, w, error =>
    match cmd with
    | [] => (error, w)
    | c :: rest =>
      let envvar := decide (c = '$')
      let r := copy_name (if envvar then rest else cmd) []
      let cmd1 := r.1
      let name := r.2
      if trailing_chars cmd1 = true then
        (error + 1, err w ["Trailing characters".toList])
      else
        let cmd2 := skip_whitespace cmd1
        if envvar = false then
          unlet_loop X fuel (skip_non_whitespace cmd2)
            (err w ["Unsupported variable type: ".toList ++ name]) (error + 1)
        else
          let r1 := unlet_one X w name
          unlet_loop X fuel cmd2 r1.2 (error + r1.1)

/-- Every turn of the loop either leaves it or moves `cmd` forward, so one
unit of fuel per character lets the loop run to its end. -/
def unlet_variables {σ : Type} (X : Externals σ) (w : State σ) (cmd : CStr) : Int × State σ :=
  unlet_loop X (cmd.length + 1) cmd w 0

/-! ## Completion -/

/-- What `complete_variables` hands to the completion sink: `*start`, the
candidates added before the group is finished, and the last match. -/
structure Completion where
  start : CStr
  added : List CStr
  finished : Bool
  last : Option CStr
  deriving DecidableEq, Repr

/-- The loop of `complete_variables` over the registry. -/
def complete_matches (cs : Bool) (pre : CStr) : List Slot → List CStr
  | [] => []
  | none :: rest => complete_matches cs pre rest
  | some r :: rest =>
    if r.removed then complete_matches cs pre rest
    else if strnoscmp cs r.name pre pre.length = 0 then r.name :: complete_matches cs pre rest
    else complete_matches cs pre rest

def complete_variables (cs : Bool) (vars : List Slot) (cmd : CStr) : Completion :=
  match cmd with
  | '$' :: rest =>
    { start := rest, added := complete_matches cs rest vars, finished := true,
      last := some rest }
  | _ => { start := cmd, added := [cmd], finished := false, last := none }

/-! ## Running the engine -/

/-- The state of a process that starts with the given environment, before
`init_variables` runs. -/
def start {σ : Type} (environ : Environ) (opts : σ) : State σ :=
  { vars := [], environ := environ, vle_err := [], opts := opts }

/-- A statement given to the engine. -/
inductive Stmt where
  | let_stmt (cmd : CStr)
  | unlet_stmt (cmd : CStr)
  deriving DecidableEq, Repr

/-- Executes one statement, whatever its result. -/
def exec {σ : Type} (X : Externals σ) (w : State σ) : Stmt → State σ
  | Stmt.let_stmt cmd => (let_variables X w cmd).2
  | Stmt.unlet_stmt cmd => (unlet_variables X w cmd).2

/-- Executes a sequence of statements. -/
def run {σ : Type} (X : Externals σ) (w : State σ) (stmts : List Stmt) : State σ :=
  stmts.foldl (exec X) w

/-- The record of slot `j`, if the slot exists and is occupied. -/
def slot_at (vars : List Slot) (j : Nat) : Option envvar_t :=
  match vars[j]? with
  | some s => s
  | none => none

/-! ## A sample set of collaborators -/

/-- The definitions of the sample option store: `b` is boolean, `n` is
numeric and `s` is a string, each in both scopes; `g` is a string option of
the global scope only and `l` a string option of the local scope only. -/
def sample_find_option (name : CStr) (scope : OPT_SCOPE) : Option opt_t :=
  if name = "b".toList then some ⟨name, scope, OPT_BOOL⟩
  else if name = "n".toList then some ⟨name, scope, OPT_OTHER⟩
  else if name = "s".toList then some ⟨name, scope, OPT_STR⟩
  else if name = "g".toList ∧ scope = OPT_GLOBAL then some ⟨name, scope, OPT_STR⟩
  else if name = "l".toList ∧ scope = OPT_LOCAL then some ⟨name, scope, OPT_STR⟩
  else none

/-- A primitive of the sample option store: it refuses the empty text and
otherwise records the call. -/
def sample_primitive (tag : Char) (s : List (Char × opt_t × CStr)) (opt : opt_t) (value : CStr) :
    OptResult (List (Char × opt_t × CStr)) :=
  if value = [] then ⟨1, s, ["Invalid argument".toList]⟩
  else ⟨0, s ++ [(tag, opt, value)], []⟩

/-- A concrete set of collaborators for the examples: a case-sensitive
platform, the sample option store, whose state is the list of the calls made
so far, and an evaluator that takes the whole text for the value. -/
def sample : Externals (List (Char × opt_t × CStr)) where
  case_sensitive := true
  OPT_NAME_FIRST_CHAR := "abcdefghijklmnopqrstuvwxyz".toList
  OPT_NAME_CHARS := "abcdefghijklmnopqrstuvwxyz".toList
  find_option := fun _ name scope => sample_find_option name scope
  set_set := sample_primitive '='
  set_add := sample_primitive '+'
  set_remove := sample_primitive '-'
  parse := fun _ _ text => ⟨PE_NO_ERROR, text, some []⟩

/-- The sample collaborators on a platform that ignores case in names. -/
def sample_nocase : Externals (List (Char × opt_t × CStr)) :=
  { sample with case_sensitive := false }

/-- A registry with a tombstoned inherited record and a live one. -/
def sample_vars : List Slot :=
  [some ⟨"PATH".toList, "/bin".toList, "/bin".toList, true, true⟩,
   some ⟨"HOME".toList, "/root".toList, "/root".toList, true, false⟩]

/-- The link between the registry, the OS environment and the startup
environment `env0` that every statement keeps: names of occupied slots are
pairwise different; an inherited record carries the startup value of its
name as `initial`, any other record has a name the startup environment did
not have; a name without a record is in neither environment. -/
def Coherent (env0 : Environ) (vars : List Slot) (environ : Environ) : Prop :=
  (∀ i j r r1, slot_at vars i = some r → slot_at vars j = some r1 → r.name = r1.name → i = j) ∧
  (∀ i r, slot_at vars i = some r →
    env_get env0 r.name = if r.from_parent then some r.initial else none) ∧
  (∀ n, (∀ i r, slot_at vars i = some r → r.name ≠ n) →
    env_get environ n = none ∧ env_get env0 n = none)

/-- The names of the occupied slots are pairwise different (compared
character by character). -/
def names_unique (vars : List Slot) : Prop :=
  ∀ i j r r1, slot_at vars i = some r → slot_at vars j = some r1 → r.name = r1.name → i = j

/-- Every record with `removed` set has `from_parent` set. -/
def tombstones_inherited (vars : List Slot) : Prop :=
  ∀ i r, slot_at vars i = some r → r.removed = true → r.from_parent = true

/-- The two invariants of the registry that do not depend on the
platform. -/
def registry_ok (vars : List Slot) : Prop :=
  names_unique vars ∧ tombstones_inherited vars

/-- A step of the life of the engine after bootstrap: a statement, or
teardown. -/
inductive Action where
  | statement (s : Stmt)
  | teardown
  deriving DecidableEq, Repr

/-- Performs one action. -/
def act {σ : Type} (X : Externals σ) (w : State σ) : Action → State σ
  | Action.statement s => exec X w s
  | Action.teardown => clear_variables w

/-- Performs a sequence of actions. -/
def run_actions {σ : Type} (X : Externals σ) (w : State σ) (actions : List Action) : State σ :=
  actions.foldl (act X) w

/-- The candidates `complete_variables` hands over, in order: the matches of
the group and then the last match. -/
def candidates (c : Completion) : List CStr :=
  c.added ++ c.last.toList

/-- The platform's test that `name` starts with `pre`, as
`complete_variables` makes it. -/
def starts_like (cs : Bool) (pre : CStr) (r : envvar_t) : Bool :=
  decide (strnoscmp cs r.name pre pre.length = 0)

/-- The text of an unlet statement made of `$NAME` tokens: every token is
given as its name and the whitespace that follows it. -/
def render_tokens : List (CStr × CStr) → CStr
  | [] => []
  | t :: rest => '$' :: t.1 ++ t.2 ++ render_tokens rest

/-- The tokens of a statement `$NAME ... $NAME`: every name is made of at
most `VAR_NAME_MAX` name characters (none at all for a lone `$`), what
follows it is whitespace, and there is some between two tokens. -/
def tokens_ok : List (CStr × CStr) → Bool
  | [] => true
  | t :: rest =>
    t.1.all (char_is_one_of ENV_VAR_NAME_CHARS) && decide (t.1.length ≤ VAR_NAME_MAX) &&
    t.2.all isspace && (rest.isEmpty || !t.2.isEmpty) && tokens_ok rest

/-- The turns of the loop of `unlet_variables` on the names of a statement
of well-formed tokens: `unlet_one` on every name in order, the error count
going up by its result. -/
def unlet_each {σ : Type} (X : Externals σ) : List CStr → State σ → Int → Int × State σ
  | [], w, error => (error, w)
  | name :: rest, w, error =>
    unlet_each X rest (unlet_one X w name).2 (error + (unlet_one X w name).1)

/-- The words of the spec on one token of an unlet statement: the token is
an error when its name is empty or names no record, or a tombstone. -/
def token_fails (cs : Bool) (vars : List Slot) (name : CStr) : Bool :=
  decide (name = []) ||
    match find_record cs vars name with
    | none => true
    | some (_, r) => r.removed

/-- The words of the spec on the tokens of an unlet statement, left to
right: a token that is an error is counted and changes nothing; any other
token tombstones its record when the record is inherited and erases it
otherwise, and removes the OS environment entry.  The result is the list of
the tokens counted, the registry and the OS environment. -/
def unlet_tokens_spec (cs : Bool) : List CStr → List Slot → Environ →
    List CStr × List Slot × Environ
  | [], vars, env => ([], vars, env)
  | name :: rest, vars, env =>
    if token_fails cs vars name = true then
      (name :: (unlet_tokens_spec cs rest vars env).1, (unlet_tokens_spec cs rest vars env).2)
    else
      match find_record cs vars name with
      | none => ([], vars, env)
      | some (i, r) =>
        unlet_tokens_spec cs rest
          (if r.from_parent then update_record (fun r => { r with removed := true }) vars i
           else vars.set i none)
          (env_remove env name)

/-- The OS environment mirrors the registry: every occupied slot that is
not a tombstone has an entry of its name with its value. -/
def Mirrored (vars : List Slot) (environ : Environ) : Prop :=
  ∀ i r, slot_at vars i = some r → r.removed = false → env_get environ r.name = some r.val

/-! # Lemmas and theorems -/

/-! ## Comparison of names -/

theorem strcmp_eq_zero (a b : CStr) : strcmp a b = 0 ↔ a = b := by
  unfold strcmp
  by_cases h : a = b
  · simp [h]
  · simp only [h, if_false, iff_false]
    split <;> decide

theorem stroscmp_true (a b : CStr) : stroscmp true a b = 0 ↔ a = b := by
  simp [stroscmp, strcmp_eq_zero]

theorem stroscmp_self (cs : Bool) (a : CStr) : stroscmp cs a a = 0 := by
  cases cs <;> simp [stroscmp, strcasecmp, strcmp]

/-! ## The OS environment -/

theorem env_get_set_same (e : Environ) (n v : CStr) : env_get (env_set e n v) n = some v := by
  induction e with
  | nil => simp [env_set, env_get]
  | cons hd tl ih =>
    obtain ⟨m, u⟩ := hd
    by_cases h : m = n
    · simp [env_set, env_get, h]
    · simp [env_set, env_get, h, ih]

theorem env_get_set_other (e : Environ) (n v m : CStr) (h : m ≠ n) :
    env_get (env_set e n v) m = env_get e m := by
  induction e with
  | nil => simp [env_set, env_get, Ne.symm h]
  | cons hd tl ih =>
    obtain ⟨k, u⟩ := hd
    by_cases hk : k = n
    · subst hk
      simp [env_set, env_get, Ne.symm h]
    · by_cases hm : k = m
      · subst hm
        simp [env_set, env_get, hk]
      · simp [env_set, env_get, hk, hm, ih]

theorem env_get_remove_same (e : Environ) (n : CStr) : env_get (env_remove e n) n = none := by
  induction e with
  | nil => simp [env_remove, env_get]
  | cons hd tl ih =>
    obtain ⟨k, u⟩ := hd
    by_cases hk : k = n
    · simpa [env_remove, List.filter_cons, hk] using ih
    · simpa [env_remove, List.filter_cons, hk, env_get] using ih

theorem env_get_remove_other (e : Environ) (n m : CStr) (h : m ≠ n) :
    env_get (env_remove e n) m = env_get e m := by
  induction e with
  | nil => simp [env_remove, env_get]
  | cons hd tl ih =>
    obtain ⟨k, u⟩ := hd
    by_cases hk : k = n
    · subst hk
      simpa [env_remove, List.filter_cons, env_get, Ne.symm h] using ih
    · by_cases hm : k = m
      · subst hm
        simp [env_remove, List.filter_cons, hk, env_get]
      · simpa [env_remove, List.filter_cons, hk, env_get, hm] using ih

/-! ## Slots -/

@[simp] theorem slot_at_nil (j : Nat) : slot_at [] j = none := by
  simp [slot_at]

@[simp] theorem slot_at_cons_zero (s : Slot) (vars : List Slot) : slot_at (s :: vars) 0 = s := by
  simp [slot_at]

@[simp] theorem slot_at_cons_succ (s : Slot) (vars : List Slot) (j : Nat) :
    slot_at (s :: vars) (j + 1) = slot_at vars j := by
  simp [slot_at]

theorem slot_at_of_length_le (vars : List Slot) (j : Nat) (h : vars.length ≤ j) :
    slot_at vars j = none := by
  induction vars generalizing j with
  | nil => simp
  | cons s rest ih =>
    cases j with
    | zero => simp at h
    | succ j => simpa using ih j (by simpa using h)

theorem slot_at_set_none (vars : List Slot) (i j : Nat) :
    slot_at (vars.set i none) j = if j = i then none else slot_at vars j := by
  induction vars generalizing i j with
  | nil => simp
  | cons s rest ih =>
    cases i with
    | zero =>
      cases j with
      | zero => simp
      | succ j => simp
    | succ i =>
      cases j with
      | zero => simp
      | succ j => simpa using ih i j

theorem slot_at_set_some (vars : List Slot) (i j : Nat) (r : envvar_t) (hi : i < vars.length) :
    slot_at (vars.set i (some r)) j = if j = i then some r else slot_at vars j := by
  induction vars generalizing i j with
  | nil => simp at hi
  | cons s rest ih =>
    cases i with
    | zero =>
      cases j with
      | zero => simp
      | succ j => simp
    | succ i =>
      cases j with
      | zero => simp
      | succ j => simpa using ih i j (by simpa using hi)

theorem slot_at_append_single (vars : List Slot) (s : Slot) (j : Nat) :
    slot_at (vars ++ [s]) j = if j = vars.length then s else slot_at vars j := by
  induction vars generalizing j with
  | nil =>
    cases j with
    | zero => simp
    | succ j => simp
  | cons t rest ih =>
    cases j with
    | zero => simp
    | succ j => simpa using ih j

theorem slot_at_update_record (f : envvar_t → envvar_t) (vars : List Slot) (i j : Nat) :
    slot_at (update_record f vars i) j =
      if j = i then (slot_at vars i).map f else slot_at vars j := by
  induction vars generalizing i j with
  | nil => simp [update_record]
  | cons s rest ih =>
    cases i with
    | zero =>
      cases j with
      | zero => simp [update_record]
      | succ j => simp [update_record]
    | succ i =>
      cases j with
      | zero => simp [update_record]
      | succ j => simpa [update_record] using ih i j

theorem length_update_record (f : envvar_t → envvar_t) (vars : List Slot) (i : Nat) :
    (update_record f vars i).length = vars.length := by
  induction vars generalizing i with
  | nil => simp [update_record]
  | cons s rest ih =>
    cases i with
    | zero => simp [update_record]
    | succ i => simp [update_record, ih]

/-- Two registries of one length with the same record in every slot are
equal. -/
theorem eq_of_slot_at (a b : List Slot) (hl : a.length = b.length)
    (h : ∀ j, slot_at a j = slot_at b j) : a = b := by
  induction a generalizing b with
  | nil =>
    cases b with
    | nil => rfl
    | cons _ _ => simp at hl
  | cons s rest ih =>
    cases b with
    | nil => simp at hl
    | cons t rest2 =>
      have h0 := h 0
      simp at h0
      subst h0
      congr 1
      exact ih rest2 (by simpa using hl) (fun j => by simpa using h (j + 1))

/-! ## `find_record` -/

theorem find_record_from_shift (cs : Bool) (name : CStr) (vars : List Slot) (k : Nat) :
    find_record_from cs name vars k =
      (find_record_from cs name vars 0).map (fun p => (p.1 + k, p.2)) := by
  induction vars generalizing k with
  | nil => simp [find_record_from]
  | cons s rest ih =>
    cases s with
    | none =>
      simp only [find_record_from]
      rw [ih (k + 1), ih (0 + 1)]
      simp [Option.map_map, Function.comp_def, Nat.add_assoc, Nat.add_comm 1 k]
    | some r =>
      simp only [find_record_from]
      split
      · simp
      · rw [ih (k + 1), ih (0 + 1)]
        simp [Option.map_map, Function.comp_def, Nat.add_assoc, Nat.add_comm 1 k]

theorem find_record_nil (cs : Bool) (name : CStr) : find_record cs [] name = none := rfl

theorem find_record_cons_none (cs : Bool) (name : CStr) (rest : List Slot) :
    find_record cs (none :: rest) name =
      (find_record cs rest name).map (fun p => (p.1 + 1, p.2)) := by
  simp only [find_record, find_record_from]
  rw [find_record_from_shift]

theorem find_record_cons_some (cs : Bool) (name : CStr) (r : envvar_t) (rest : List Slot) :
    find_record cs (some r :: rest) name =
      if stroscmp cs r.name name = 0 then some (0, r)
      else (find_record cs rest name).map (fun p => (p.1 + 1, p.2)) := by
  simp only [find_record, find_record_from]
  split
  · rfl
  · rw [find_record_from_shift]

/-- What `find_record` returns is the first occupied slot that matches. -/
theorem find_record_some_iff (cs : Bool) (vars : List Slot) (name : CStr) (i : Nat)
    (r : envvar_t) :
    find_record cs vars name = some (i, r) ↔
      slot_at vars i = some r ∧ stroscmp cs r.name name = 0 ∧
      ∀ j r1, j < i → slot_at vars j = some r1 → stroscmp cs r1.name name ≠ 0 := by
  induction vars generalizing i with
  | nil => simp [find_record_nil]
  | cons s rest ih =>
    cases s with
    | none =>
      rw [find_record_cons_none]
      cases i with
      | zero => simp
      | succ i =>
        simp only [Option.map_eq_some', Prod.mk.injEq, Prod.exists, Nat.add_right_cancel_iff,
          slot_at_cons_succ]
        constructor
        · rintro ⟨a, b, hab, rfl, rfl⟩
          obtain ⟨h1, h2, h3⟩ := (ih a).1 hab
          refine ⟨h1, h2, ?_⟩
          intro j r1 hj hs
          cases j with
          | zero => simp at hs
          | succ j => exact h3 j r1 (by omega) (by simpa using hs)
        · rintro ⟨h1, h2, h3⟩
          refine ⟨i, r, (ih i).2 ⟨h1, h2, ?_⟩, rfl, rfl⟩
          intro j r1 hj hs
          exact h3 (j + 1) r1 (by omega) (by simpa using hs)
    | some r0 =>
      rw [find_record_cons_some]
      by_cases hm : stroscmp cs r0.name name = 0
      · simp only [hm, if_true, Option.some.injEq, Prod.mk.injEq]
        constructor
        · rintro ⟨rfl, rfl⟩
          exact ⟨by simp, hm, by intro j r1 hj; omega⟩
        · rintro ⟨h1, h2, h3⟩
          cases i with
          | zero => exact ⟨rfl, by simpa using h1⟩
          | succ i => exact absurd hm (h3 0 r0 (by omega) (by simp))
      · simp only [hm, if_false]
        cases i with
        | zero =>
          simp only [Option.map_eq_some', Prod.mk.injEq, Prod.exists, slot_at_cons_zero]
          constructor
          · rintro ⟨a, b, _, h, _⟩
            omega
          · rintro ⟨h1, h2, _⟩
            cases h1
            exact absurd h2 hm
        | succ i =>
          simp only [Option.map_eq_some', Prod.mk.injEq, Prod.exists, Nat.add_right_cancel_iff,
            slot_at_cons_succ]
          constructor
          · rintro ⟨a, b, hab, rfl, rfl⟩
            obtain ⟨h1, h2, h3⟩ := (ih a).1 hab
            refine ⟨h1, h2, ?_⟩
            intro j r1 hj hs
            cases j with
            | zero =>
              simp at hs
              subst hs
              exact hm
            | succ j => exact h3 j r1 (by omega) (by simpa using hs)
          · rintro ⟨h1, h2, h3⟩
            refine ⟨i, r, (ih i).2 ⟨h1, h2, ?_⟩, rfl, rfl⟩
            intro j r1 hj hs
            exact h3 (j + 1) r1 (by omega) (by simpa using hs)

/-- The result of `find_record` is `NULL` exactly when no occupied slot matches. -/
theorem find_record_none_iff (cs : Bool) (vars : List Slot) (name : CStr) :
    find_record cs vars name = none ↔
      ∀ j r1, slot_at vars j = some r1 → stroscmp cs r1.name name ≠ 0 := by
  induction vars with
  | nil => simp [find_record_nil]
  | cons s rest ih =>
    cases s with
    | none =>
      rw [find_record_cons_none, Option.map_eq_none', ih]
      constructor
      · intro h j r1 hs
        cases j with
        | zero => simp at hs
        | succ j => exact h j r1 (by simpa using hs)
      · intro h j r1 hs
        exact h (j + 1) r1 (by simpa using hs)
    | some r0 =>
      rw [find_record_cons_some]
      by_cases hm : stroscmp cs r0.name name = 0
      · simp only [hm, if_true]
        constructor
        · intro h
          cases h
        · intro h
          exact absurd hm (h 0 r0 (by simp))
      · simp only [hm, if_false, Option.map_eq_none', ih]
        constructor
        · intro h j r1 hs
          cases j with
          | zero =>
            simp at hs
            subst hs
            exact hm
          | succ j => exact h j r1 (by simpa using hs)
        · intro h j r1 hs
          exact h (j + 1) r1 (by simpa using hs)

/-! ## `get_record` -/

theorem get_record_loop_found (name : CStr) (vars : List Slot) (i : Nat) (r : envvar_t)
    (k : Nat) (p : Option Nat) (h : find_record true vars name = some (i, r)) :
    get_record_loop name vars k p = Sum.inl (i + k) := by
  induction vars generalizing i k p with
  | nil => simp [find_record_nil] at h
  | cons s rest ih =>
    cases s with
    | none =>
      rw [find_record_cons_none] at h
      simp only [Option.map_eq_some', Prod.mk.injEq, Prod.exists] at h
      obtain ⟨a, b, hab, rfl, rfl⟩ := h
      simp only [get_record_loop]
      rw [ih a (k + 1) (some k) hab]
      congr 1
      omega
    | some r0 =>
      rw [find_record_cons_some] at h
      by_cases hm : stroscmp true r0.name name = 0
      · simp only [hm, if_true, Option.some.injEq, Prod.mk.injEq] at h
        obtain ⟨rfl, rfl⟩ := h
        have hs : strcmp r0.name name = 0 := by simpa [stroscmp] using hm
        simp [get_record_loop, hs]
      · simp only [hm, if_false, Option.map_eq_some', Prod.mk.injEq, Prod.exists] at h
        obtain ⟨a, b, hab, rfl, rfl⟩ := h
        have hs : ¬ strcmp r0.name name = 0 := by simpa [stroscmp] using hm
        simp only [get_record_loop, hs, if_false]
        rw [ih a (k + 1) p hab]
        congr 1
        omega

theorem get_record_loop_not_found (name : CStr) (vars : List Slot) (k : Nat) (p : Option Nat)
    (h : find_record true vars name = none) :
    ∃ q, get_record_loop name vars k p = Sum.inr q ∧
      (q = p ∨ ∃ j, q = some (j + k) ∧ j < vars.length ∧ slot_at vars j = none) := by
  induction vars generalizing k p with
  | nil => exact ⟨p, rfl, Or.inl rfl⟩
  | cons s rest ih =>
    cases s with
    | none =>
      rw [find_record_cons_none, Option.map_eq_none'] at h
      obtain ⟨q, hq, hcase⟩ := ih (k + 1) (some k) h
      refine ⟨q, by simpa [get_record_loop] using hq, Or.inr ?_⟩
      rcases hcase with rfl | ⟨j, rfl, hj, hs⟩
      · exact ⟨0, by simp, by simp, by simp⟩
      · exact ⟨j + 1, by congr 1; omega, by simpa using hj, by simpa using hs⟩
    | some r0 =>
      rw [find_record_cons_some] at h
      by_cases hm : stroscmp true r0.name name = 0
      · simp [hm] at h
      · simp only [hm, if_false, Option.map_eq_none'] at h
        have hs : ¬ strcmp r0.name name = 0 := by simpa [stroscmp] using hm
        obtain ⟨q, hq, hcase⟩ := ih (k + 1) p h
        refine ⟨q, by simpa [get_record_loop, hs] using hq, ?_⟩
        rcases hcase with rfl | ⟨j, rfl, hj, hs1⟩
        · exact Or.inl rfl
        · exact Or.inr ⟨j + 1, by congr 1; omega, by simpa using hj, by simpa using hs1⟩

/-- When a slot holds the name, `get_record` returns it and leaves the
registry as it is. -/
theorem get_record_found (vars : List Slot) (name : CStr) (i : Nat) (r : envvar_t)
    (h : find_record true vars name = some (i, r)) : get_record vars name = (vars, i) := by
  unfold get_record
  rw [get_record_loop_found name vars i r 0 none h]
  rfl

/-- When no slot holds the name, `get_record` puts a new record into a slot
that was empty (or is new) and leaves the other slots as they are. -/
theorem get_record_new (vars : List Slot) (name : CStr)
    (h : find_record true vars name = none) :
    slot_at vars (get_record vars name).2 = none ∧
    slot_at (get_record vars name).1 (get_record vars name).2 = some (new_record name) ∧
    ∀ j, j ≠ (get_record vars name).2 →
      slot_at (get_record vars name).1 j = slot_at vars j := by
  obtain ⟨q, hq, hcase⟩ := get_record_loop_not_found name vars 0 none h
  unfold get_record
  rw [hq]
  rcases hcase with rfl | ⟨j, rfl, hj, hs⟩
  · refine ⟨slot_at_of_length_le vars _ (Nat.le_refl _), ?_, ?_⟩
    · simp [slot_at_append_single]
    · intro j hj
      simp only at hj
      simp [slot_at_append_single, hj]
  · refine ⟨by simpa using hs, ?_, ?_⟩
    · simp [slot_at_set_some _ _ _ _ hj]
    · intro j1 hj1
      simp only [Nat.add_zero] at hj1
      simp [slot_at_set_some _ _ _ _ hj, hj1]

theorem set_envvar_environ {σ : Type} (w : State σ) (name val : CStr) :
    (set_envvar w name val).environ = env_set w.environ name val := by
  simp [set_envvar]

theorem set_envvar_vars {σ : Type} (w : State σ) (name val : CStr) :
    (set_envvar w name val).vars =
      update_record (fun r => { r with val := val }) (get_record w.vars name).1
        (get_record w.vars name).2 := by
  simp [set_envvar]

theorem set_envvar_opts {σ : Type} (w : State σ) (name val : CStr) :
    (set_envvar w name val).opts = w.opts ∧ (set_envvar w name val).vle_err = w.vle_err := by
  simp [set_envvar]

/-- The registry after `set_envvar` when a slot already holds the name. -/
theorem set_envvar_found {σ : Type} (w : State σ) (name val : CStr) (i : Nat) (r : envvar_t)
    (h : find_record true w.vars name = some (i, r)) (j : Nat) :
    slot_at (set_envvar w name val).vars j =
      if j = i then some { r with val := val } else slot_at w.vars j := by
  rw [set_envvar_vars, get_record_found w.vars name i r h, slot_at_update_record]
  have hs := ((find_record_some_iff true w.vars name i r).1 h).1
  simp [hs]

/-- The registry after `set_envvar` when no slot holds the name. -/
theorem set_envvar_new {σ : Type} (w : State σ) (name val : CStr)
    (h : find_record true w.vars name = none) :
    ∃ p, slot_at w.vars p = none ∧ ∀ j, slot_at (set_envvar w name val).vars j =
      if j = p then some { new_record name with val := val } else slot_at w.vars j := by
  obtain ⟨h1, h2, h3⟩ := get_record_new w.vars name h
  refine ⟨(get_record w.vars name).2, h1, ?_⟩
  intro j
  rw [set_envvar_vars, slot_at_update_record]
  by_cases hj : j = (get_record w.vars name).2
  · simp [hj, h2]
  · simp [hj, h3 j hj]

theorem find_record_true_none_of_none (cs : Bool) (vars : List Slot) (name : CStr)
    (h : find_record cs vars name = none) : find_record true vars name = none := by
  rw [find_record_none_iff] at h ⊢
  intro j r1 hs hm
  rw [stroscmp_true] at hm
  exact h j r1 hs (by rw [hm]; exact stroscmp_self cs name)

/-- C5: `local_getenv` is a total function of the registry and the name
(it has no other result and no effect): it returns the empty string when no
occupied slot carries the name, and otherwise what the first occupied slot
of that name holds, the empty string for a tombstone and the value for a
live record; when only one slot carries the name, that slot decides. -/
theorem local_getenv_total_spec (cs : Bool) (vars : List Slot) (name : CStr) :
    ((∀ j r, slot_at vars j = some r → stroscmp cs r.name name ≠ 0) →
      local_getenv cs vars name = []) ∧
    (∀ i r, slot_at vars i = some r → stroscmp cs r.name name = 0 →
      (∀ j r1, j < i → slot_at vars j = some r1 → stroscmp cs r1.name name ≠ 0) →
      local_getenv cs vars name = if r.removed then [] else r.val) ∧
    (∀ i r, slot_at vars i = some r → stroscmp cs r.name name = 0 →
      (∀ j r1, slot_at vars j = some r1 → stroscmp cs r1.name name = 0 → j = i) →
      local_getenv cs vars name = if r.removed then [] else r.val) := by
  have key : ∀ i r, slot_at vars i = some r → stroscmp cs r.name name = 0 →
      (∀ j r1, j < i → slot_at vars j = some r1 → stroscmp cs r1.name name ≠ 0) →
      local_getenv cs vars name = if r.removed then [] else r.val := by
    intro i r hs hm hfirst
    have hf := (find_record_some_iff cs vars name i r).2 ⟨hs, hm, hfirst⟩
    simp [local_getenv, hf]
  refine ⟨?_, key, ?_⟩
  · intro h
    have hf := (find_record_none_iff cs vars name).2 h
    simp [local_getenv, hf]
  · intro i r hs hm huniq
    refine key i r hs hm ?_
    intro j r1 hj hs1 hm1
    have := huniq j r1 hs1 hm1
    omega

theorem local_getenv_total_spec_witness :
    local_getenv true sample_vars "UNSET".toList = [] ∧
    local_getenv true sample_vars "HOME".toList = "/root".toList ∧
    local_getenv true sample_vars "PATH".toList = [] :=
  ⟨(local_getenv_total_spec true sample_vars "UNSET".toList).1 (by
      intro j r h
      match j, h with
      | 0, h => cases h; decide
      | 1, h => cases h; decide
      | j + 2, h => simp [sample_vars] at h),
   (local_getenv_total_spec true sample_vars "HOME".toList).2.1 1
      ⟨"HOME".toList, "/root".toList, "/root".toList, true, false⟩ rfl (by decide) (by
      intro j r1 hj h
      match j, h with
      | 0, h => cases h; decide),
   (local_getenv_total_spec true sample_vars "PATH".toList).2.1 0
      ⟨"PATH".toList, "/bin".toList, "/bin".toList, true, true⟩ rfl (by decide) (by
      intro j r1 hj h
      omega)⟩

theorem is_valid_op_bool {σ : Type} (X : Externals σ) (opts : σ) (name : CStr) (opt : opt_t)
    (hg : X.find_option opts name OPT_GLOBAL = some opt) (hb : opt.type = OPT_BOOL)
    (vt : VariableType) (vo : VariableOperation) (hvt : vt ≠ VT_ENVVAR) :
    is_valid_op X opts name vt vo = false := by
  simp [is_valid_op, hvt, hg, hb]

/-- C6: when the global-scope definition of an option name is boolean,
`is_valid_op` is false for every operator and every option kind, and a
`:let` statement on that name returns -1 and changes nothing but the error
stream: no primitive of the option store is called. -/
theorem bool_option_rejects_every_op {σ : Type} (X : Externals σ) (w : State σ) (name : CStr)
    (opt : opt_t) (hg : X.find_option w.opts name OPT_GLOBAL = some opt)
    (hb : opt.type = OPT_BOOL) :
    (∀ vt vo, vt ≠ VT_ENVVAR → is_valid_op X w.opts name vt vo = false) ∧
    (∀ cmd rest vt, extract_name X cmd (VAR_NAME_MAX + 1) = NameResult.ok rest vt name →
      vt ≠ VT_ENVVAR →
      (let_variables X w cmd).1 = -1 ∧ ∃ lines, (let_variables X w cmd).2 = err w lines) := by
  refine ⟨fun vt vo hvt => is_valid_op_bool X w.opts name opt hg hb vt vo hvt, ?_⟩
  intro cmd rest vt hn hvt
  have hv : ∀ vo, is_valid_op X w.opts name vt vo = false :=
    fun vo => is_valid_op_bool X w.opts name opt hg hb vt vo hvt
  unfold let_variables
  rw [hn]
  dsimp only
  split
  · exact ⟨rfl, _, rfl⟩
  · split
    · exact ⟨rfl, _, rfl⟩
    · split
      · exact ⟨rfl, _, rfl⟩
      · rw [if_pos (hv _)]
        exact ⟨rfl, _, rfl⟩

theorem bool_option_rejects_every_op_witness :
    sample.find_option [] "b".toList OPT_GLOBAL = some ⟨"b".toList, OPT_GLOBAL, OPT_BOOL⟩ ∧
    is_valid_op sample [] "b".toList VT_GLOBAL_OPTION VO_ASSIGN = false ∧
    (let_variables sample (start [] []) "&b = 1".toList).1 = -1 :=
  ⟨by decide,
   (bool_option_rejects_every_op sample (start [] []) "b".toList ⟨"b".toList, OPT_GLOBAL, OPT_BOOL⟩
      (by decide) rfl).1 VT_GLOBAL_OPTION VO_ASSIGN (by decide),
   ((bool_option_rejects_every_op sample (start [] []) "b".toList ⟨"b".toList, OPT_GLOBAL, OPT_BOOL⟩
      (by decide) rfl).2 "&b = 1".toList " = 1".toList VT_ANY_OPTION (by decide) (by decide)).1⟩

/-- C7: for an option name with a global-scope definition and any option
kind, a string option admits exactly `=` and `.=`, and an option that is
neither boolean nor string admits exactly `=`, `+=` and `-=`. -/
theorem option_type_decides_valid_ops {σ : Type} (X : Externals σ) (opts : σ) (name : CStr)
    (opt : opt_t) (vt : VariableType) (vo : VariableOperation)
    (hg : X.find_option opts name OPT_GLOBAL = some opt) (hvt : vt ≠ VT_ENVVAR) :
    (opt.type = OPT_STR →
      (is_valid_op X opts name vt vo = true ↔ vo = VO_ASSIGN ∨ vo = VO_APPEND)) ∧
    (opt.type ≠ OPT_BOOL → opt.type ≠ OPT_STR →
      (is_valid_op X opts name vt vo = true ↔ vo = VO_ASSIGN ∨ vo = VO_ADD ∨ vo = VO_SUB)) := by
  constructor
  · intro hs
    simp [is_valid_op, hvt, hg, hs]
  · intro hb hs
    simp [is_valid_op, hvt, hg, hs, hb]

theorem option_type_decides_valid_ops_witness :
    (is_valid_op sample [] "s".toList VT_LOCAL_OPTION VO_ADD = true ↔
      VO_ADD = VO_ASSIGN ∨ VO_ADD = VO_APPEND) ∧
    (is_valid_op sample [] "n".toList VT_ANY_OPTION VO_SUB = true ↔
      VO_SUB = VO_ASSIGN ∨ VO_SUB = VO_ADD ∨ VO_SUB = VO_SUB) :=
  ⟨(option_type_decides_valid_ops sample [] "s".toList ⟨"s".toList, OPT_GLOBAL, OPT_STR⟩
      VT_LOCAL_OPTION VO_ADD (by decide) (by decide)).1 rfl,
   (option_type_decides_valid_ops sample [] "n".toList ⟨"n".toList, OPT_GLOBAL, OPT_OTHER⟩
      VT_ANY_OPTION VO_SUB (by decide) (by decide)).2 (by decide) (by decide)⟩

/-- C9, as stated, fails: the name `l` has no global-scope definition, its
local operation fails, and `perform_op` returns 1 without reporting the
unknown global option. -/
theorem any_option_local_failure_reports_no_unknown_global :
    sample.find_option [] "l".toList OPT_GLOBAL = none ∧
    (perform_op sample (start [] []) "l".toList VT_ANY_OPTION VO_ASSIGN []).1 = 1 ∧
    unknown_option_line OPT_GLOBAL "l".toList ∉
      (perform_op sample (start [] []) "l".toList VT_ANY_OPTION VO_ASSIGN []).2.vle_err := by
  decide

/-- C9, amended: for an option name with no global-scope definition an
`AnyOption` operation always returns 1; the unknown-global-option line is
what it reports when there is no local definition or the local operation
succeeded, and when the local operation fails the global scope is not
consulted. -/
theorem any_option_without_global_fails {σ : Type} (X : Externals σ) (w : State σ) (name : CStr)
    (vo : VariableOperation) (value : CStr)
    (hg : ∀ s, X.find_option s name OPT_GLOBAL = none) :
    (perform_op X w name VT_ANY_OPTION vo value).1 = 1 ∧
    (X.find_option w.opts name OPT_LOCAL = none →
      (perform_op X w name VT_ANY_OPTION vo value).2 =
        err w [unknown_option_line OPT_GLOBAL name]) ∧
    (∀ lopt, X.find_option w.opts name OPT_LOCAL = some lopt →
      (opt_primitive X vo w.opts lopt value).code = 0 →
      (perform_op X w name VT_ANY_OPTION vo value).2 =
        { w with
          opts := (opt_primitive X vo w.opts lopt value).store
          vle_err := w.vle_err ++ (opt_primitive X vo w.opts lopt value).lines
            ++ [unknown_option_line OPT_GLOBAL name] }) ∧
    (∀ lopt, X.find_option w.opts name OPT_LOCAL = some lopt →
      (opt_primitive X vo w.opts lopt value).code ≠ 0 →
      (perform_op X w name VT_ANY_OPTION vo value).2 =
        { w with
          opts := (opt_primitive X vo w.opts lopt value).store
          vle_err := w.vle_err ++ (opt_primitive X vo w.opts lopt value).lines }) := by
  refine ⟨?_, ?_, ?_, ?_⟩
  · cases hl : X.find_option w.opts name OPT_LOCAL with
    | none => simp [perform_op, perform_opt_op, hl, hg]
    | some lopt =>
      by_cases hc : (opt_primitive X vo w.opts lopt value).code = 0
      · simp [perform_op, perform_opt_op, hl, hg, hc]
      · simp [perform_op, perform_opt_op, hl, hg, hc]
  · intro hl
    simp [perform_op, perform_opt_op, hl, hg, err]
  · intro lopt hl hc
    simp [perform_op, perform_opt_op, hl, hg, hc]
  · intro lopt hl hc
    simp [perform_op, perform_opt_op, hl, hg, hc]

theorem any_option_without_global_fails_witness :
    (∀ s, sample.find_option s "l".toList OPT_GLOBAL = none) ∧
    (perform_op sample (start [] []) "l".toList VT_ANY_OPTION VO_ASSIGN "x".toList).1 = 1 :=
  ⟨fun _ => rfl,
   (any_option_without_global_fails sample (start [] []) "l".toList VO_ASSIGN "x".toList
      (fun _ => rfl)).1⟩

/-- C10: for an option name with a global-scope definition and no
local-scope one, an `AnyOption` operation whose primitive succeeds returns 0
and its whole effect is one application of the primitive to the global
definition. -/
theorem any_option_global_only {σ : Type} (X : Externals σ) (w : State σ) (name : CStr)
    (vo : VariableOperation) (value : CStr) (gopt : opt_t)
    (hl : X.find_option w.opts name OPT_LOCAL = none)
    (hg : X.find_option w.opts name OPT_GLOBAL = some gopt)
    (hok : (opt_primitive X vo w.opts gopt value).code = 0) :
    perform_op X w name VT_ANY_OPTION vo value =
      (0, { w with
            opts := (opt_primitive X vo w.opts gopt value).store
            vle_err := w.vle_err ++ (opt_primitive X vo w.opts gopt value).lines }) := by
  simp [perform_op, perform_opt_op, hl, hg, hok]

theorem any_option_global_only_witness :
    sample.find_option [] "g".toList OPT_LOCAL = none ∧
    perform_op sample (start [] []) "g".toList VT_ANY_OPTION VO_ASSIGN "x".toList =
      (0, { vars := [], environ := [], vle_err := [],
            opts := [('=', ⟨"g".toList, OPT_GLOBAL, OPT_STR⟩, "x".toList)] }) :=
  ⟨rfl,
   any_option_global_only sample (start [] []) "g".toList VO_ASSIGN "x".toList
     ⟨"g".toList, OPT_GLOBAL, OPT_STR⟩ rfl rfl rfl⟩

theorem find_record_congr_at (cs : Bool) (vars vars1 : List Slot) (name : CStr) (i : Nat)
    (r r1 : envvar_t) (h : find_record cs vars name = some (i, r))
    (hs : slot_at vars1 i = some r1) (hn : r1.name = r.name)
    (ho : ∀ j, j ≠ i → slot_at vars1 j = slot_at vars j) :
    find_record cs vars1 name = some (i, r1) := by
  obtain ⟨_, h2, h3⟩ := (find_record_some_iff cs vars name i r).1 h
  refine (find_record_some_iff cs vars1 name i r1).2 ⟨hs, by rw [hn]; exact h2, ?_⟩
  intro j r2 hj hs2
  rw [ho j (by omega)] at hs2
  exact h3 j r2 hj hs2

theorem find_record_new_at (cs : Bool) (vars vars1 : List Slot) (name : CStr) (p : Nat)
    (r1 : envvar_t) (h : find_record cs vars name = none)
    (hs : slot_at vars1 p = some r1) (hn : stroscmp cs r1.name name = 0)
    (ho : ∀ j, j ≠ p → slot_at vars1 j = slot_at vars j) :
    find_record cs vars1 name = some (p, r1) := by
  rw [find_record_none_iff] at h
  refine (find_record_some_iff cs vars1 name p r1).2 ⟨hs, hn, ?_⟩
  intro j r2 hj hs2
  rw [ho j (by omega)] at hs2
  exact h j r2 hs2

theorem append_envvar_found {σ : Type} (cs : Bool) (w : State σ) (name b : CStr) (i : Nat)
    (r : envvar_t) (h : find_record cs w.vars name = some (i, r)) :
    append_envvar cs w name b =
      { w with
        vars := update_record (fun r => { r with val := r.val ++ b }) w.vars i
        environ := env_set w.environ name (r.val ++ b) } := by
  simp [append_envvar, h]

theorem append_envvar_not_found {σ : Type} (cs : Bool) (w : State σ) (name b : CStr)
    (h : find_record cs w.vars name = none) :
    append_envvar cs w name b = set_envvar w name b := by
  simp [append_envvar, h]

/-- C4: `.=` on a name that has no record does what `=` does; on a name
that has one, the value of the record and the OS environment entry of the
name become the old value followed by the new text, and no other slot
changes.  In particular `=` with `a` followed by `.=` with `b` reads back as
`a ++ b`, both for a name that had no record and, on a case-sensitive
platform, for a name whose record was not tombstoned. -/
theorem append_envvar_spec {σ : Type} (X : Externals σ) (w : State σ) (name b : CStr) :
    (find_record X.case_sensitive w.vars name = none →
      perform_op X w name VT_ENVVAR VO_APPEND b = perform_op X w name VT_ENVVAR VO_ASSIGN b) ∧
    (∀ i r, find_record X.case_sensitive w.vars name = some (i, r) →
      (perform_op X w name VT_ENVVAR VO_APPEND b).1 = 0 ∧
      (∀ j, slot_at (perform_op X w name VT_ENVVAR VO_APPEND b).2.vars j =
        if j = i then some { r with val := r.val ++ b } else slot_at w.vars j) ∧
      env_get (perform_op X w name VT_ENVVAR VO_APPEND b).2.environ name = some (r.val ++ b)) ∧
    (∀ a, find_record X.case_sensitive w.vars name = none →
      local_getenv X.case_sensitive
        (perform_op X (perform_op X w name VT_ENVVAR VO_ASSIGN a).2 name VT_ENVVAR VO_APPEND b).2.vars
        name = a ++ b) ∧
    (∀ a i r, X.case_sensitive = true → find_record true w.vars name = some (i, r) →
      r.removed = false →
      local_getenv true
        (perform_op X (perform_op X w name VT_ENVVAR VO_ASSIGN a).2 name VT_ENVVAR VO_APPEND b).2.vars
        name = a ++ b) := by
  refine ⟨?_, ?_, ?_, ?_⟩
  · intro h
    simp [perform_op, append_envvar_not_found _ _ _ _ h]
  · intro i r h
    have hs := ((find_record_some_iff _ w.vars name i r).1 h).1
    simp only [perform_op, if_true, append_envvar_found _ _ _ _ i r h]
    refine ⟨trivial, ?_, env_get_set_same _ _ _⟩
    intro j
    rw [slot_at_update_record]
    simp [hs]
  · intro a h
    have ht := find_record_true_none_of_none _ _ _ h
    obtain ⟨p, hp, hslots⟩ := set_envvar_new w name a ht
    have hf : find_record X.case_sensitive (set_envvar w name a).vars name =
        some (p, { new_record name with val := a }) := by
      refine find_record_new_at _ w.vars _ name p _ h ?_ (stroscmp_self _ _) ?_
      · simp [hslots p]
      · intro j hj
        simp [hslots j, hj]
    have hs := ((find_record_some_iff _ _ name p _).1 hf).1
    simp only [perform_op, if_true]
    simp only [show (VO_ASSIGN = VO_APPEND) = False by simp, if_false]
    rw [append_envvar_found _ _ _ _ p _ hf]
    have hf2 : find_record X.case_sensitive
        (update_record (fun r => { r with val := r.val ++ b }) (set_envvar w name a).vars p) name =
        some (p, { new_record name with val := a ++ b }) := by
      refine find_record_congr_at _ _ _ name p _ _ hf ?_ rfl ?_
      · rw [slot_at_update_record]
        simp [hs]
      · intro j hj
        rw [slot_at_update_record]
        simp [hj]
    simp [local_getenv, hf2, new_record]
  · intro a i r hcs h hr
    have hs0 := ((find_record_some_iff _ _ name i r).1 h).1
    have hf : find_record true (set_envvar w name a).vars name = some (i, { r with val := a }) := by
      refine find_record_congr_at _ w.vars _ name i r _ h ?_ rfl ?_
      · simp [set_envvar_found w name a i r h]
      · intro j hj
        simp [set_envvar_found w name a i r h, hj]
    have hs := ((find_record_some_iff _ _ name i _).1 hf).1
    simp only [perform_op, if_true]
    simp only [show (VO_ASSIGN = VO_APPEND) = False by simp, if_false]
    rw [hcs, append_envvar_found _ _ _ _ i _ hf]
    have hf2 : find_record true
        (update_record (fun r => { r with val := r.val ++ b }) (set_envvar w name a).vars i) name =
        some (i, { r with val := a ++ b }) := by
      refine find_record_congr_at _ _ _ name i _ _ hf ?_ rfl ?_
      · rw [slot_at_update_record]
        simp [hs]
      · intro j hj
        rw [slot_at_update_record]
        simp [hj]
    simp [local_getenv, hf2, hr]

theorem append_envvar_spec_witness :
    find_record true (start [] ([] : List (Char × opt_t × CStr))).vars "FOO".toList = none ∧
    local_getenv true
      (let_variables sample (let_variables sample (start [] []) "$FOO = a".toList).2
        "$FOO .= b".toList).2.vars "FOO".toList = "ab".toList :=
  ⟨rfl, (append_envvar_spec sample (start [] []) "FOO".toList "b".toList).2.2.1 "a".toList rfl⟩

/-- What `set_envvar` followed by a read gives on a case-sensitive
platform: the OS environment always holds the new value; the read accessor
returns it unless the record found for the name is a tombstone, which
`set_envvar` leaves a tombstone. -/
theorem set_envvar_read {σ : Type} (w : State σ) (name v : CStr) :
    env_get (set_envvar w name v).environ name = some v ∧
    (find_record true w.vars name = none →
      local_getenv true (set_envvar w name v).vars name = v) ∧
    (∀ i r, find_record true w.vars name = some (i, r) →
      local_getenv true (set_envvar w name v).vars name = if r.removed then [] else v) := by
  refine ⟨by rw [set_envvar_environ]; exact env_get_set_same _ _ _, ?_, ?_⟩
  · intro h
    obtain ⟨p, hp, hslots⟩ := set_envvar_new w name v h
    have hf : find_record true (set_envvar w name v).vars name =
        some (p, { new_record name with val := v }) := by
      refine find_record_new_at _ w.vars _ name p _ h ?_ (stroscmp_self _ _) ?_
      · simp [hslots p]
      · intro j hj
        simp [hslots j, hj]
    simp [local_getenv, hf, new_record]
  · intro i r h
    have hf : find_record true (set_envvar w name v).vars name = some (i, { r with val := v }) := by
      refine find_record_congr_at _ w.vars _ name i r _ h ?_ rfl ?_
      · simp [set_envvar_found w name v i r h]
      · intro j hj
        simp [set_envvar_found w name v i r h, hj]
    simp [local_getenv, hf]

/-- C1, the failing input: `PATH` is inherited, `unlet $PATH` tombstones its
record, and the `let $PATH = x` that follows returns 0 and sets the OS
environment entry to `x`, yet `local_getenv` still returns the empty
string, because `set_envvar` does not clear `removed`. -/
theorem let_after_unlet_reads_empty :
    (let_variables sample
      (unlet_variables sample (init_variables (start [("PATH".toList, "/bin".toList)] []))
        "$PATH".toList).2 "$PATH = x".toList).1 = 0 ∧
    env_get (let_variables sample
      (unlet_variables sample (init_variables (start [("PATH".toList, "/bin".toList)] []))
        "$PATH".toList).2 "$PATH = x".toList).2.environ "PATH".toList = some "x".toList ∧
    local_getenv true (let_variables sample
      (unlet_variables sample (init_variables (start [("PATH".toList, "/bin".toList)] []))
        "$PATH".toList).2 "$PATH = x".toList).2.vars "PATH".toList = [] := by
  decide

/-! ## `unlet_variables` on one name -/

theorem copy_name_all (name acc : CStr)
    (h : ∀ c ∈ name, char_is_one_of ENV_VAR_NAME_CHARS c = true)
    (hl : acc.length + name.length ≤ VAR_NAME_MAX) : copy_name name acc = ([], acc ++ name) := by
  induction name generalizing acc with
  | nil => simp [copy_name]
  | cons c rest ih =>
    have hc : char_is_one_of ENV_VAR_NAME_CHARS c = true := h c (List.mem_cons_self _ _)
    have hlt : acc.length < VAR_NAME_MAX := by
      simp only [List.length_cons] at hl
      omega
    simp only [copy_name, hc, hlt, and_self, if_true]
    rw [ih (acc ++ [c]) (fun d hd => h d (List.mem_cons_of_mem _ hd))
      (by simp only [List.length_append, List.length_cons, List.length_nil] at hl ⊢; omega)]
    simp

/-- A statement that is one well-formed `$NAME` takes one turn of the loop
of `unlet_variables`. -/
theorem unlet_variables_single {σ : Type} (X : Externals σ) (w : State σ) (name : CStr)
    (hchars : ∀ c ∈ name, char_is_one_of ENV_VAR_NAME_CHARS c = true)
    (hlen : name.length ≤ VAR_NAME_MAX) :
    unlet_variables X w ('$' :: name) = (0 + (unlet_one X w name).1, (unlet_one X w name).2) := by
  unfold unlet_variables
  simp only [List.length_cons]
  rw [unlet_loop]
  simp only [decide_True, if_true]
  rw [copy_name_all name [] hchars (by simpa using hlen)]
  simp [trailing_chars, skip_whitespace, unlet_loop]

/-- C3, as stated, fails: the inherited name `MY-VAR` has a live record that
is not tombstoned, and `unlet $MY-VAR` returns 1 and removes nothing. -/
theorem unlet_rejects_name_outside_alphabet :
    find_record true (init_variables (start [("MY-VAR".toList, "1".toList)]
        ([] : List (Char × opt_t × CStr)))).vars "MY-VAR".toList =
      some (0, ⟨"MY-VAR".toList, "1".toList, "1".toList, true, false⟩) ∧
    (unlet_variables sample (init_variables (start [("MY-VAR".toList, "1".toList)] []))
      "$MY-VAR".toList).1 = 1 ∧
    local_getenv true (unlet_variables sample
      (init_variables (start [("MY-VAR".toList, "1".toList)] []))
      "$MY-VAR".toList).2.vars "MY-VAR".toList = "1".toList ∧
    env_get (unlet_variables sample (init_variables (start [("MY-VAR".toList, "1".toList)] []))
      "$MY-VAR".toList).2.environ "MY-VAR".toList = some "1".toList := by
  decide

/-- C3, amended: for a name of 1 to 64 letters, digits and underscores whose
record is live, not tombstoned and the only one of that name, `unlet $NAME`
returns 0; afterwards `local_getenv` returns the empty string and the OS
environment has no entry for the name; an inherited record stays in its
slot with `removed` set and nothing else changed, any other record is
erased (its slot becomes empty); no other slot, and nothing else of the
state, changes. -/
theorem unlet_live_record {σ : Type} (X : Externals σ) (w : State σ) (name : CStr) (i : Nat)
    (r : envvar_t) (hne : name ≠ [])
    (hchars : ∀ c ∈ name, char_is_one_of ENV_VAR_NAME_CHARS c = true)
    (hlen : name.length ≤ VAR_NAME_MAX)
    (hf : find_record X.case_sensitive w.vars name = some (i, r)) (hr : r.removed = false)
    (hu : ∀ j r1, j ≠ i → slot_at w.vars j = some r1 →
      stroscmp X.case_sensitive r1.name name ≠ 0) :
    (unlet_variables X w ('$' :: name)).1 = 0 ∧
    local_getenv X.case_sensitive (unlet_variables X w ('$' :: name)).2.vars name = [] ∧
    env_get (unlet_variables X w ('$' :: name)).2.environ name = none ∧
    (unlet_variables X w ('$' :: name)).2.vars.length = w.vars.length ∧
    (∀ j, slot_at (unlet_variables X w ('$' :: name)).2.vars j =
      if j = i then (if r.from_parent then some { r with removed := true } else none)
      else slot_at w.vars j) ∧
    (unlet_variables X w ('$' :: name)).2.vle_err = w.vle_err ∧
    (unlet_variables X w ('$' :: name)).2.opts = w.opts := by
  obtain ⟨hs, hm, _⟩ := (find_record_some_iff _ w.vars name i r).1 hf
  rw [unlet_variables_single X w name hchars hlen]
  have hone : unlet_one X w name =
      (0, { w with
            vars := if r.from_parent
                    then update_record (fun r => { r with removed := true }) w.vars i
                    else free_record w.vars i
            environ := env_remove w.environ name }) := by
    simp [unlet_one, hne, hf, hr]
  rw [hone]
  have hslots : ∀ j, slot_at (if r.from_parent
        then update_record (fun r => { r with removed := true }) w.vars i
        else free_record w.vars i) j =
      if j = i then (if r.from_parent then some { r with removed := true } else none)
      else slot_at w.vars j := by
    intro j
    by_cases hp : r.from_parent = true
    · rw [if_pos hp, if_pos hp, slot_at_update_record]
      simp [hs]
    · rw [if_neg hp, if_neg hp, free_record, slot_at_set_none]
  refine ⟨by simp, ?_, env_get_remove_same _ _, ?_, hslots, rfl, rfl⟩
  · by_cases hp : r.from_parent = true
    · have hf2 : find_record X.case_sensitive
          (update_record (fun r => { r with removed := true }) w.vars i) name =
          some (i, { r with removed := true }) := by
        refine find_record_congr_at _ w.vars _ name i r _ hf ?_ rfl ?_
        · rw [slot_at_update_record]
          simp [hs]
        · intro j hj
          rw [slot_at_update_record]
          simp [hj]
      simp [local_getenv, hp, hf2]
    · have hf2 : find_record X.case_sensitive (free_record w.vars i) name = none := by
        rw [find_record_none_iff]
        intro j r1 hs1
        rw [free_record, slot_at_set_none] at hs1
        by_cases hj : j = i
        · simp [hj] at hs1
        · simp only [hj, if_false] at hs1
          exact hu j r1 hj hs1
      simp [local_getenv, hp, hf2]
  · by_cases hp : r.from_parent = true
    · simp [hp, length_update_record]
    · simp [hp, free_record]

theorem unlet_live_record_witness :
    (unlet_variables sample (init_variables (start [("PATH".toList, "/bin".toList)] []))
      "$PATH".toList).1 = 0 ∧
    local_getenv true (unlet_variables sample
      (init_variables (start [("PATH".toList, "/bin".toList)] []))
      "$PATH".toList).2.vars "PATH".toList = [] :=
  have h := unlet_live_record sample (init_variables (start [("PATH".toList, "/bin".toList)] []))
    "PATH".toList 0 ⟨"PATH".toList, "/bin".toList, "/bin".toList, true, false⟩
    (by decide) (by decide) (by decide) (by decide) rfl
    (by
      intro j r1 hj h
      match j, h with
      | 0, _ => exact absurd rfl hj
      | j + 1, h => simp [init_variables, start, init_var, get_record, get_record_loop,
          update_record, slot_at] at h)
  ⟨h.1, h.2.1⟩

theorem find_record_true_of_slot (vars : List Slot) (i : Nat) (r : envvar_t)
    (hu : ∀ i j r r1, slot_at vars i = some r → slot_at vars j = some r1 →
      r.name = r1.name → i = j)
    (hs : slot_at vars i = some r) : find_record true vars r.name = some (i, r) := by
  refine (find_record_some_iff true vars r.name i r).2 ⟨hs, stroscmp_self _ _, ?_⟩
  intro j r1 hj hs1 hm
  rw [stroscmp_true] at hm
  have := hu j i r1 r hs1 hs hm
  omega

/-- A registry that differs from a coherent one in one slot, where a record
kept its name, origin and `initial`, is coherent with any environment that
has an entry for that name and agrees elsewhere. -/
theorem Coherent.update (env0 : Environ) (vars vars1 : List Slot) (environ environ1 : Environ)
    (h : Coherent env0 vars environ) (i : Nat) (r r1 : envvar_t)
    (hs : slot_at vars i = some r) (hs1 : slot_at vars1 i = some r1)
    (hn : r1.name = r.name) (hp : r1.from_parent = r.from_parent) (hi : r1.initial = r.initial)
    (ho : ∀ j, j ≠ i → slot_at vars1 j = slot_at vars j)
    (he : ∀ n, n ≠ r.name → env_get environ1 n = env_get environ n) :
    Coherent env0 vars1 environ1 := by
  obtain ⟨hu, hini, hno⟩ := h
  have hback : ∀ j r2, slot_at vars1 j = some r2 →
      ∃ r3, slot_at vars j = some r3 ∧ r3.name = r2.name ∧ r3.from_parent = r2.from_parent ∧
        r3.initial = r2.initial := by
    intro j r2 h2
    by_cases hj : j = i
    · subst hj
      rw [hs1] at h2
      cases h2
      exact ⟨r, hs, hn.symm, hp.symm, hi.symm⟩
    · rw [ho j hj] at h2
      exact ⟨r2, h2, rfl, rfl, rfl⟩
  refine ⟨?_, ?_, ?_⟩
  · intro a b ra rb ha hb hab
    obtain ⟨ra1, ha1, hna, _, _⟩ := hback a ra ha
    obtain ⟨rb1, hb1, hnb, _, _⟩ := hback b rb hb
    exact hu a b ra1 rb1 ha1 hb1 (by rw [hna, hnb, hab])
  · intro j r2 h2
    obtain ⟨r3, h3, hn3, hp3, hi3⟩ := hback j r2 h2
    have := hini j r3 h3
    rw [hn3, hp3, hi3] at this
    exact this
  · intro n hnone
    have hnone0 : ∀ j r2, slot_at vars j = some r2 → r2.name ≠ n := by
      intro j r2 h2
      by_cases hj : j = i
      · subst hj
        rw [hs] at h2
        cases h2
        rw [← hn]
        exact hnone j r1 hs1
      · exact hnone j r2 (by rw [ho j hj]; exact h2)
    have hne : n ≠ r.name := fun hc => hnone0 i r hs hc.symm
    rw [he n hne]
    exact hno n hnone0

/-- A coherent registry stays coherent when an empty slot receives a record
that is not inherited, under a name the startup environment did not have,
and the environment changes at most at that name. -/
theorem Coherent.insert (env0 : Environ) (vars vars1 : List Slot) (environ environ1 : Environ)
    (h : Coherent env0 vars environ) (p : Nat) (r1 : envvar_t)
    (hnew : ∀ j r, slot_at vars j = some r → r.name ≠ r1.name) (hp0 : slot_at vars p = none)
    (hs1 : slot_at vars1 p = some r1) (hp : r1.from_parent = false)
    (ho : ∀ j, j ≠ p → slot_at vars1 j = slot_at vars j)
    (he : ∀ n, n ≠ r1.name → env_get environ1 n = env_get environ n) :
    Coherent env0 vars1 environ1 := by
  obtain ⟨hu, hini, hno⟩ := h
  refine ⟨?_, ?_, ?_⟩
  · intro a b ra rb ha hb hab
    by_cases hap : a = p
    · by_cases hbp : b = p
      · rw [hap, hbp]
      · subst hap
        rw [hs1] at ha
        cases ha
        rw [ho b hbp] at hb
        exact absurd hab.symm (hnew b rb hb)
    · by_cases hbp : b = p
      · subst hbp
        rw [hs1] at hb
        cases hb
        rw [ho a hap] at ha
        exact absurd hab (hnew a ra ha)
      · rw [ho a hap] at ha
        rw [ho b hbp] at hb
        exact hu a b ra rb ha hb hab
  · intro j r2 h2
    by_cases hj : j = p
    · subst hj
      rw [hs1] at h2
      cases h2
      simp only [hp, Bool.false_eq_true, if_false]
      exact (hno _ hnew).2
    · rw [ho j hj] at h2
      exact hini j r2 h2
  · intro n hnone
    have hne : n ≠ r1.name := fun hc => hnone p r1 hs1 hc.symm
    have hnone0 : ∀ j r2, slot_at vars j = some r2 → r2.name ≠ n := by
      intro j r2 h2
      by_cases hj : j = p
      · subst hj
        rw [hp0] at h2
        cases h2
      · exact hnone j r2 (by rw [ho j hj]; exact h2)
    rw [he n hne]
    exact hno n hnone0

/-- A coherent registry stays coherent when a record that is not inherited
is erased and its name leaves the environment. -/
theorem Coherent.erase (env0 : Environ) (vars vars1 : List Slot) (environ environ1 : Environ)
    (h : Coherent env0 vars environ) (i : Nat) (r : envvar_t)
    (hs : slot_at vars i = some r) (hp : r.from_parent = false)
    (hs1 : slot_at vars1 i = none)
    (ho : ∀ j, j ≠ i → slot_at vars1 j = slot_at vars j)
    (he1 : env_get environ1 r.name = none)
    (he : ∀ n, n ≠ r.name → env_get environ1 n = env_get environ n) :
    Coherent env0 vars1 environ1 := by
  obtain ⟨hu, hini, hno⟩ := h
  have hback : ∀ j r2, slot_at vars1 j = some r2 → slot_at vars j = some r2 := by
    intro j r2 h2
    by_cases hj : j = i
    · subst hj
      rw [hs1] at h2
      cases h2
    · rw [ho j hj] at h2
      exact h2
  refine ⟨?_, ?_, ?_⟩
  · intro a b ra rb ha hb hab
    exact hu a b ra rb (hback a ra ha) (hback b rb hb) hab
  · intro j r2 h2
    exact hini j r2 (hback j r2 h2)
  · intro n hnone
    by_cases hn : n = r.name
    · subst hn
      have := hini i r hs
      simp only [hp, Bool.false_eq_true, if_false] at this
      exact ⟨he1, this⟩
    · rw [he n hn]
      refine hno n ?_
      intro j r2 h2
      by_cases hj : j = i
      · subst hj
        rw [hs] at h2
        cases h2
        exact fun hc => hn hc.symm
      · exact hnone j r2 (by rw [ho j hj]; exact h2)

theorem set_envvar_coherent {σ : Type} (env0 : Environ) (w : State σ) (name val : CStr)
    (h : Coherent env0 w.vars w.environ) :
    Coherent env0 (set_envvar w name val).vars (set_envvar w name val).environ := by
  rw [set_envvar_environ]
  cases hf : find_record true w.vars name with
  | none =>
    obtain ⟨p, hp, hslots⟩ := set_envvar_new w name val hf
    rw [find_record_none_iff] at hf
    refine Coherent.insert env0 w.vars _ w.environ _ h p { new_record name with val := val }
      ?_ hp ?_ rfl ?_ ?_
    · intro j r hs hc
      exact hf j r hs (by rw [hc]; exact stroscmp_self _ _)
    · simp [hslots p]
    · intro j hj
      simp [hslots j, hj]
    · intro n hn
      exact env_get_set_other _ _ _ _ hn
  | some p =>
    obtain ⟨i, r⟩ := p
    obtain ⟨hs, hm, _⟩ := (find_record_some_iff true w.vars name i r).1 hf
    rw [stroscmp_true] at hm
    refine Coherent.update env0 w.vars _ w.environ _ h i r { r with val := val } hs ?_ rfl rfl rfl
      ?_ ?_
    · simp [set_envvar_found w name val i r hf]
    · intro j hj
      simp [set_envvar_found w name val i r hf, hj]
    · intro n hn
      exact env_get_set_other _ _ _ _ (by rw [← hm]; exact hn)

theorem append_envvar_coherent {σ : Type} (env0 : Environ) (w : State σ) (name val : CStr)
    (h : Coherent env0 w.vars w.environ) :
    Coherent env0 (append_envvar true w name val).vars (append_envvar true w name val).environ := by
  cases hf : find_record true w.vars name with
  | none =>
    rw [append_envvar_not_found _ _ _ _ hf]
    exact set_envvar_coherent env0 w name val h
  | some p =>
    obtain ⟨i, r⟩ := p
    obtain ⟨hs, hm, _⟩ := (find_record_some_iff true w.vars name i r).1 hf
    rw [stroscmp_true] at hm
    rw [append_envvar_found _ _ _ _ i r hf]
    refine Coherent.update env0 w.vars _ w.environ _ h i r { r with val := r.val ++ val } hs ?_
      rfl rfl rfl ?_ ?_
    · simp only
      rw [slot_at_update_record]
      simp [hs]
    · intro j hj
      simp only
      rw [slot_at_update_record]
      simp [hj]
    · intro n hn
      exact env_get_set_other _ _ _ _ (by rw [← hm]; exact hn)

theorem unlet_one_hit {σ : Type} (X : Externals σ) (w : State σ) (name : CStr) (i : Nat)
    (r : envvar_t) (hne : name ≠ [])
    (hf : find_record X.case_sensitive w.vars name = some (i, r)) (hr : r.removed = false) :
    unlet_one X w name =
      (0, { w with
            vars := if r.from_parent
                    then update_record (fun r => { r with removed := true }) w.vars i
                    else free_record w.vars i
            environ := env_remove w.environ name }) := by
  simp [unlet_one, hne, hf, hr]

theorem unlet_one_miss {σ : Type} (X : Externals σ) (w : State σ) (name : CStr)
    (h : name = [] ∨ find_record X.case_sensitive w.vars name = none ∨
      ∃ i r, find_record X.case_sensitive w.vars name = some (i, r) ∧ r.removed = true) :
    (unlet_one X w name).1 = 1 ∧ (unlet_one X w name).2.vars = w.vars ∧
    (unlet_one X w name).2.environ = w.environ := by
  by_cases hne : name = []
  · simp [unlet_one, hne, err]
  · rcases h with h | h | ⟨i, r, hf, hr⟩
    · exact absurd h hne
    · simp [unlet_one, hne, h, err]
    · simp [unlet_one, hne, hf, hr, err]

theorem unlet_one_coherent {σ : Type} (X : Externals σ) (hcs : X.case_sensitive = true)
    (env0 : Environ) (w : State σ) (name : CStr) (h : Coherent env0 w.vars w.environ) :
    Coherent env0 (unlet_one X w name).2.vars (unlet_one X w name).2.environ := by
  by_cases hmiss : name = [] ∨ find_record X.case_sensitive w.vars name = none ∨
      ∃ i r, find_record X.case_sensitive w.vars name = some (i, r) ∧ r.removed = true
  · obtain ⟨_, h1, h2⟩ := unlet_one_miss X w name hmiss
    rw [h1, h2]
    exact h
  · have hne : name ≠ [] := fun hc => hmiss (Or.inl hc)
    cases hf : find_record X.case_sensitive w.vars name with
    | none => exact absurd (Or.inr (Or.inl hf)) hmiss
    | some p =>
      obtain ⟨i, r⟩ := p
      have hr : r.removed = false := by
        cases hrr : r.removed with
        | false => rfl
        | true => exact absurd (Or.inr (Or.inr ⟨i, r, hf, hrr⟩)) hmiss
      rw [unlet_one_hit X w name i r hne hf hr]
      rw [hcs] at hf
      obtain ⟨hs, hm, _⟩ := (find_record_some_iff true w.vars name i r).1 hf
      rw [stroscmp_true] at hm
      by_cases hp : r.from_parent = true
      · rw [if_pos hp]
        refine Coherent.update env0 w.vars _ w.environ _ h i r { r with removed := true } hs ?_
          rfl rfl rfl ?_ ?_
        · rw [slot_at_update_record]
          simp [hs]
        · intro j hj
          rw [slot_at_update_record]
          simp [hj]
        · intro n hn
          exact env_get_remove_other _ _ _ (by rw [← hm]; exact hn)
      · rw [if_neg hp]
        refine Coherent.erase env0 w.vars _ w.environ _ h i r hs (by simpa using hp) ?_ ?_ ?_ ?_
        · rw [free_record, slot_at_set_none]
          simp
        · intro j hj
          rw [free_record, slot_at_set_none]
          simp [hj]
        · rw [hm]
          exact env_get_remove_same _ _
        · intro n hn
          exact env_get_remove_other _ _ _ (by rw [← hm]; exact hn)

theorem perform_opt_op_frame {σ : Type} (X : Externals σ) (w : State σ) (name : CStr)
    (vt : VariableType) (vo : VariableOperation) (value : CStr) :
    (perform_opt_op X w name vt vo value).2.vars = w.vars ∧
    (perform_opt_op X w name vt vo value).2.environ = w.environ := by
  unfold perform_opt_op
  dsimp only
  split
  · split <;> exact ⟨rfl, rfl⟩
  · exact ⟨rfl, rfl⟩

/-- An operation on an option leaves the registry and the OS environment
alone. -/
theorem perform_op_option_frame {σ : Type} (X : Externals σ) (w : State σ) (name : CStr)
    (vt : VariableType) (vo : VariableOperation) (value : CStr) (hvt : vt ≠ VT_ENVVAR) :
    (perform_op X w name vt vo value).2.vars = w.vars ∧
    (perform_op X w name vt vo value).2.environ = w.environ := by
  unfold perform_op
  rw [if_neg hvt]
  dsimp only
  have h1 := perform_opt_op_frame X w name vt vo value
  split
  · split
    · next hx =>
      exact h1
    · split
      · have h2 := perform_opt_op_frame X (perform_opt_op X w name vt vo value).2 name
          VT_GLOBAL_OPTION vo value
        split <;> exact ⟨h2.1.trans h1.1, h2.2.trans h1.2⟩
      · exact h1
  · split
    · exact ⟨rfl, rfl⟩
    · split
      · have h2 := perform_opt_op_frame X w name VT_GLOBAL_OPTION vo value
        split <;> exact h2
      · exact ⟨rfl, rfl⟩

theorem perform_op_coherent {σ : Type} (X : Externals σ) (hcs : X.case_sensitive = true)
    (env0 : Environ) (w : State σ) (name : CStr) (vt : VariableType) (vo : VariableOperation)
    (value : CStr) (h : Coherent env0 w.vars w.environ) :
    Coherent env0 (perform_op X w name vt vo value).2.vars
      (perform_op X w name vt vo value).2.environ := by
  by_cases hvt : vt = VT_ENVVAR
  · unfold perform_op
    rw [if_pos hvt, hcs]
    split
    · exact append_envvar_coherent env0 w name value h
    · exact set_envvar_coherent env0 w name value h
  · obtain ⟨h1, h2⟩ := perform_op_option_frame X w name vt vo value hvt
    rw [h1, h2]
    exact h

theorem let_variables_coherent {σ : Type} (X : Externals σ) (hcs : X.case_sensitive = true)
    (env0 : Environ) (w : State σ) (cmd : CStr) (h : Coherent env0 w.vars w.environ) :
    Coherent env0 (let_variables X w cmd).2.vars (let_variables X w cmd).2.environ := by
  unfold let_variables
  split
  · exact h
  · split
    · exact h
    · dsimp only
      split
      · exact h
      · split
        · exact h
        · split
          · exact h
          · exact perform_op_coherent X hcs env0 w _ _ _ _ h

theorem unlet_loop_coherent {σ : Type} (X : Externals σ) (hcs : X.case_sensitive = true)
    (env0 : Environ) (fuel : Nat) (cmd : CStr) (w : State σ) (error : Int)
    (h : Coherent env0 w.vars w.environ) :
    Coherent env0 (unlet_loop X fuel cmd w error).2.vars
      (unlet_loop X fuel cmd w error).2.environ := by
  induction fuel generalizing cmd w error with
  | zero => exact h
  | succ fuel ih =>
    cases cmd with
    | nil => exact h
    | cons c rest =>
      rw [unlet_loop]
      dsimp only
      by_cases ht : trailing_chars
          (copy_name (if decide (c = '$') = true then rest else c :: rest) []).1 = true
      · rw [if_pos ht]
        exact h
      · rw [if_neg ht]
        by_cases he : decide (c = '$') = false
        · rw [if_pos he]
          exact ih _ _ _ h
        · rw [if_neg he]
          exact ih _ _ _ (unlet_one_coherent X hcs env0 w _ h)

theorem exec_coherent {σ : Type} (X : Externals σ) (hcs : X.case_sensitive = true)
    (env0 : Environ) (w : State σ) (s : Stmt) (h : Coherent env0 w.vars w.environ) :
    Coherent env0 (exec X w s).vars (exec X w s).environ := by
  cases s with
  | let_stmt cmd => exact let_variables_coherent X hcs env0 w cmd h
  | unlet_stmt cmd => exact unlet_loop_coherent X hcs env0 _ _ w 0 h

theorem run_coherent {σ : Type} (X : Externals σ) (hcs : X.case_sensitive = true)
    (env0 : Environ) (stmts : List Stmt) (w : State σ) (h : Coherent env0 w.vars w.environ) :
    Coherent env0 (run X w stmts).vars (run X w stmts).environ := by
  induction stmts generalizing w with
  | nil => exact h
  | cons s rest ih => exact ih (exec X w s) (exec_coherent X hcs env0 w s h)

/-! ## Bootstrap -/

theorem env_get_append_of_some (l m : Environ) (n v : CStr) (h : env_get l n = some v) :
    env_get (l ++ m) n = some v := by
  induction l with
  | nil => simp [env_get] at h
  | cons hd tl ih =>
    obtain ⟨k, u⟩ := hd
    by_cases hk : k = n
    · simpa [env_get, hk] using h
    · simp only [List.cons_append, env_get, hk, if_false] at h ⊢
      exact ih h

theorem env_get_append_of_none (l m : Environ) (n : CStr) (h : env_get l n = none) :
    env_get (l ++ m) n = env_get m n := by
  induction l with
  | nil => rfl
  | cons hd tl ih =>
    obtain ⟨k, u⟩ := hd
    by_cases hk : k = n
    · simp [env_get, hk] at h
    · simp only [List.cons_append, env_get, hk, if_false] at h ⊢
      exact ih h

theorem env_get_none_of_not_mem (l : Environ) (n : CStr) (h : n ∉ l.map Prod.fst) :
    env_get l n = none := by
  induction l with
  | nil => rfl
  | cons hd tl ih =>
    obtain ⟨k, u⟩ := hd
    simp only [List.map_cons, List.mem_cons, not_or] at h
    simp only [env_get, Ne.symm h.1, if_false]
    exact ih h.2

/-- One entry of the inherited environment, with a new name that fits the
buffer, keeps the registry coherent with the entries read so far. -/
theorem init_var_coherent (l : Environ) (vars : List Slot) (e : CStr × CStr)
    (h : Coherent l vars l) (hp : ∀ i r, slot_at vars i = some r → r.from_parent = true)
    (hnew : env_get l e.1 = none) (hlen : e.1.length ≤ VAR_NAME_MAX) :
    Coherent (l ++ [e]) (init_var vars e) (l ++ [e]) ∧
    ∀ i r, slot_at (init_var vars e) i = some r → r.from_parent = true := by
  obtain ⟨hu, hini, hno⟩ := h
  have hname : e.1.take VAR_NAME_MAX = e.1 := List.take_of_length_le hlen
  have hfresh : ∀ j r, slot_at vars j = some r → r.name ≠ e.1 := by
    intro j r hs hc
    have := hini j r hs
    rw [hc, hnew, hp j r hs] at this
    simp at this
  have hf : find_record true vars e.1 = none := by
    rw [find_record_none_iff]
    intro j r hs hm
    rw [stroscmp_true] at hm
    exact hfresh j r hs hm
  obtain ⟨h1, h2, h3⟩ := get_record_new vars e.1 hf
  have hslots : ∀ j, slot_at (init_var vars e) j =
      if j = (get_record vars e.1).2
      then some ⟨e.1, e.2, e.2, true, false⟩ else slot_at vars j := by
    intro j
    simp only [init_var, hname]
    rw [slot_at_update_record]
    by_cases hj : j = (get_record vars e.1).2
    · simp [hj, h2, new_record]
    · simp [hj, h3 j hj]
  have hback : ∀ j r, slot_at (init_var vars e) j = some r →
      (j = (get_record vars e.1).2 ∧ r = ⟨e.1, e.2, e.2, true, false⟩) ∨
      (j ≠ (get_record vars e.1).2 ∧ slot_at vars j = some r) := by
    intro j r hs
    rw [hslots j] at hs
    by_cases hj : j = (get_record vars e.1).2
    · simp only [hj, if_true, Option.some.injEq] at hs
      exact Or.inl ⟨hj, hs.symm⟩
    · simp only [hj, if_false] at hs
      exact Or.inr ⟨hj, hs⟩
  have hee : env_get (l ++ [e]) e.1 = some e.2 := by
    rw [env_get_append_of_none l [e] e.1 hnew]
    obtain ⟨n, v⟩ := e
    simp [env_get]
  refine ⟨⟨?_, ?_, ?_⟩, ?_⟩
  · intro a b ra rb ha hb hab
    rcases hback a ra ha with ⟨ha1, ha2⟩ | ⟨ha1, ha2⟩
    · rcases hback b rb hb with ⟨hb1, hb2⟩ | ⟨hb1, hb2⟩
      · rw [ha1, hb1]
      · subst ha2
        exact absurd hab.symm (hfresh b rb hb2)
    · rcases hback b rb hb with ⟨hb1, hb2⟩ | ⟨hb1, hb2⟩
      · subst hb2
        exact absurd hab (hfresh a ra ha2)
      · exact hu a b ra rb ha2 hb2 hab
  · intro j r hs
    rcases hback j r hs with ⟨_, h2⟩ | ⟨_, h2⟩
    · subst h2
      simpa using hee
    · have := hini j r h2
      rw [hp j r h2] at this ⊢
      simp only [if_true] at this ⊢
      exact env_get_append_of_some l [e] _ _ this
  · intro n hnone
    have hne : e.1 ≠ n := by
      have := hnone (get_record vars e.1).2 ⟨e.1, e.2, e.2, true, false⟩ (by simp [hslots])
      exact this
    have hnone0 : ∀ j r, slot_at vars j = some r → r.name ≠ n := by
      intro j r hs
      by_cases hj : j = (get_record vars e.1).2
      · rw [hj, h1] at hs
        cases hs
      · exact hnone j r (by rw [hslots j]; simpa [hj] using hs)
    have : env_get (l ++ [e]) n = none := by
      rw [env_get_append_of_none l [e] n (hno n hnone0).1]
      obtain ⟨k, v⟩ := e
      simp only at hne
      simp [env_get, hne]
    exact ⟨this, this⟩
  · intro j r hs
    rcases hback j r hs with ⟨_, h2⟩ | ⟨_, h2⟩
    · subst h2
      rfl
    · exact hp j r h2

theorem foldl_init_var_coherent (l1 l0 : Environ) (vars : List Slot)
    (h : Coherent l0 vars l0) (hp : ∀ i r, slot_at vars i = some r → r.from_parent = true)
    (hnodup : ((l0 ++ l1).map Prod.fst).Nodup)
    (hlen : ∀ e ∈ l1, e.1.length ≤ VAR_NAME_MAX) :
    Coherent (l0 ++ l1) (l1.foldl init_var vars) (l0 ++ l1) := by
  induction l1 generalizing l0 vars with
  | nil => simpa using h
  | cons e rest ih =>
    have hnew : env_get l0 e.1 = none := by
      apply env_get_none_of_not_mem
      simp only [List.map_append, List.map_cons] at hnodup
      have := (List.nodup_append.1 hnodup).2.2
      intro hmem
      exact this hmem (List.mem_cons_self _ _)
    obtain ⟨hc, hp1⟩ := init_var_coherent l0 vars e h hp hnew (hlen e (List.mem_cons_self _ _))
    have := ih (l0 ++ [e]) (init_var vars e) hc hp1 (by simpa using hnodup)
      (fun e1 he1 => hlen e1 (List.mem_cons_of_mem _ he1))
    simpa using this

/-- After bootstrap from an environment with pairwise different names of at
most `VAR_NAME_MAX` characters the registry is coherent with it. -/
theorem init_variables_coherent {σ : Type} (env0 : Environ) (opts : σ)
    (hnodup : (env0.map Prod.fst).Nodup) (hlen : ∀ e ∈ env0, e.1.length ≤ VAR_NAME_MAX) :
    Coherent env0 (init_variables (start env0 opts)).vars
      (init_variables (start env0 opts)).environ := by
  have := foldl_init_var_coherent env0 [] [] (by
      refine ⟨?_, ?_, ?_⟩
      · intro i j r r1 hs
        simp at hs
      · intro i r hs
        simp at hs
      · intro n _
        exact ⟨rfl, rfl⟩) (by
      intro i r hs
      simp at hs) (by simpa using hnodup) hlen
  simpa [init_variables, start] using this

/-! ## Teardown -/

theorem getElem?_of_slot_at (vars : List Slot) (i : Nat) (r : envvar_t)
    (h : slot_at vars i = some r) : vars[i]? = some (some r) := by
  unfold slot_at at h
  cases hv : vars[i]? with
  | none => simp [hv] at h
  | some s =>
    simp only [hv] at h
    rw [h]

theorem clear_step_of_empty {σ : Type} (w : State σ) (i : Nat) (h : slot_at w.vars i = none) :
    clear_step w i = w := by
  unfold slot_at at h
  unfold clear_step
  cases hv : w.vars[i]? with
  | none => rfl
  | some s =>
    simp only [hv] at h
    subst h
    rfl

theorem clear_step_of_record {σ : Type} (w : State σ) (i : Nat) (r : envvar_t)
    (h : slot_at w.vars i = some r) :
    clear_step w i =
      { (if r.from_parent then set_envvar w r.name r.initial
         else { w with environ := env_remove w.environ r.name }) with
        vars := free_record
          (if r.from_parent then set_envvar w r.name r.initial
           else { w with environ := env_remove w.environ r.name }).vars i } := by
  unfold clear_step
  rw [getElem?_of_slot_at w.vars i r h]

/-- One turn of the loop of `clear_variables` in a registry with pairwise
different names: slot `i` becomes empty, no other slot changes, `nvars`
stays, and the OS environment changes only at the name of the record, to
its `initial` for an inherited record and to no entry otherwise. -/
theorem clear_step_spec {σ : Type} (w : State σ) (i : Nat)
    (hu : ∀ i j r r1, slot_at w.vars i = some r → slot_at w.vars j = some r1 →
      r.name = r1.name → i = j) :
    (clear_step w i).vars.length = w.vars.length ∧
    (∀ j, slot_at (clear_step w i).vars j = if j = i then none else slot_at w.vars j) ∧
    (slot_at w.vars i = none → (clear_step w i).environ = w.environ) ∧
    (∀ r, slot_at w.vars i = some r →
      env_get (clear_step w i).environ r.name = (if r.from_parent then some r.initial else none) ∧
      ∀ n, n ≠ r.name → env_get (clear_step w i).environ n = env_get w.environ n) := by
  cases hs : slot_at w.vars i with
  | none =>
    rw [clear_step_of_empty w i hs]
    refine ⟨rfl, ?_, fun _ => rfl, ?_⟩
    · intro j
      by_cases hj : j = i
      · simp [hj, hs]
      · simp [hj]
    · intro r hr
      cases hr
  | some r =>
    rw [clear_step_of_record w i r hs]
    by_cases hp : r.from_parent = true
    · have hf := find_record_true_of_slot w.vars i r hu hs
      have hslots := set_envvar_found w r.name r.initial i r hf
      rw [if_pos hp]
      refine ⟨?_, ?_, (fun hc => by cases hc), ?_⟩
      · rw [free_record, List.length_set, set_envvar_vars, length_update_record,
          get_record_found w.vars r.name i r hf]
      · intro j
        rw [free_record, slot_at_set_none]
        by_cases hj : j = i
        · simp [hj]
        · simp [hj, hslots j]
      · intro r1 hr1
        cases hr1
        rw [if_pos hp]
        simp only
        rw [set_envvar_environ]
        exact ⟨env_get_set_same _ _ _, fun n hn => env_get_set_other _ _ _ _ hn⟩
    · rw [if_neg hp]
      refine ⟨?_, ?_, (fun hc => by cases hc), ?_⟩
      · rw [free_record, List.length_set]
      · intro j
        rw [free_record, slot_at_set_none]
      · intro r1 hr1
        cases hr1
        rw [if_neg hp]
        exact ⟨env_get_remove_same _ _, fun n hn => env_get_remove_other _ _ _ hn⟩

/-- The loop of `clear_variables` from slot `i` on, started in a state where
the slots below `i` are empty and the names without a record already have
their startup entry, ends with every name at its startup entry. -/
theorem clear_loop_restores {σ : Type} (env0 : Environ) (fuel i : Nat) (w : State σ)
    (hfuel : i + fuel = w.vars.length)
    (hu : ∀ i j r r1, slot_at w.vars i = some r → slot_at w.vars j = some r1 →
      r.name = r1.name → i = j)
    (hini : ∀ j r, slot_at w.vars j = some r →
      env_get env0 r.name = if r.from_parent then some r.initial else none)
    (hlow : ∀ j, j < i → slot_at w.vars j = none)
    (hno : ∀ n, (∀ j r, slot_at w.vars j = some r → r.name ≠ n) →
      env_get w.environ n = env_get env0 n) :
    ∀ n, env_get (clear_loop fuel i w).environ n = env_get env0 n := by
  induction fuel generalizing i w with
  | zero =>
    intro n
    refine hno n ?_
    intro j r hs
    by_cases hj : j < i
    · rw [hlow j hj] at hs
      cases hs
    · rw [slot_at_of_length_le w.vars j (by omega)] at hs
      cases hs
  | succ fuel ih =>
    have hi : i < w.vars.length := by omega
    rw [clear_loop, if_pos hi]
    obtain ⟨hl, hslots, henv0, henv1⟩ := clear_step_spec w i hu
    have hback : ∀ j r, slot_at (clear_step w i).vars j = some r →
        j ≠ i ∧ slot_at w.vars j = some r := by
      intro j r hs
      rw [hslots j] at hs
      by_cases hj : j = i
      · simp [hj] at hs
      · simp only [hj, if_false] at hs
        exact ⟨hj, hs⟩
    refine ih (i + 1) (clear_step w i) (by omega) ?_ ?_ ?_ ?_
    · intro a b ra rb ha hb hab
      exact hu a b ra rb (hback a ra ha).2 (hback b rb hb).2 hab
    · intro j r hs
      exact hini j r (hback j r hs).2
    · intro j hj
      rw [hslots j]
      by_cases hji : j = i
      · simp [hji]
      · simp only [hji, if_false]
        exact hlow j (by omega)
    · intro n hnone
      cases hs : slot_at w.vars i with
      | none =>
        rw [henv0 hs]
        refine hno n ?_
        intro j r hr
        by_cases hj : j = i
        · rw [hj, hs] at hr
          cases hr
        · exact hnone j r (by rw [hslots j]; simpa [hj] using hr)
      | some r =>
        obtain ⟨he1, he2⟩ := henv1 r hs
        by_cases hn : n = r.name
        · rw [hn, he1, hini i r hs]
        · rw [he2 n hn]
          refine hno n ?_
          intro j r1 hr
          by_cases hj : j = i
          · rw [hj, hs] at hr
            cases hr
            exact fun hc => hn hc.symm
          · exact hnone j r1 (by rw [hslots j]; simpa [hj] using hr)

/-- Teardown of a coherent state gives back the startup environment and an
empty registry. -/
theorem clear_variables_restores {σ : Type} (env0 : Environ) (w : State σ)
    (h : Coherent env0 w.vars w.environ) :
    (clear_variables w).vars = [] ∧
    ∀ n, env_get (clear_variables w).environ n = env_get env0 n := by
  obtain ⟨hu, hini, hno⟩ := h
  refine ⟨rfl, ?_⟩
  intro n
  have := clear_loop_restores env0 w.vars.length 0 w (by omega) hu hini
    (fun j hj => by omega) (fun n hn => by rw [(hno n hn).1, (hno n hn).2]) n
  simpa [clear_variables] using this

/-- C2, as stated, fails: with two inherited names that agree in their
first `VAR_NAME_MAX` characters the shorter one is not restored to its
startup value by teardown, even when no statement ran. -/
theorem teardown_clobbers_truncated_name :
    env_get [(List.replicate 64 'A', "1".toList), (List.replicate 64 'A' ++ ['B'], "2".toList)]
      (List.replicate 64 'A') = some "1".toList ∧
    env_get (clear_variables (run sample (init_variables (start
      [(List.replicate 64 'A', "1".toList), (List.replicate 64 'A' ++ ['B'], "2".toList)] []))
      [])).environ (List.replicate 64 'A') = some "2".toList := by
  decide

/-- C2, amended: on a case-sensitive platform, for every startup
environment whose names are pairwise different and at most `VAR_NAME_MAX`
characters long and every sequence of `let` and `unlet` statements run after
bootstrap, teardown leaves the registry empty and the OS environment with,
for every name, the entry the startup environment had: the startup value
for an inherited name, no entry for any other name. -/
theorem teardown_restores_environment {σ : Type} (X : Externals σ) (env0 : Environ) (opts : σ)
    (stmts : List Stmt) (hcs : X.case_sensitive = true)
    (hnodup : (env0.map Prod.fst).Nodup) (hlen : ∀ e ∈ env0, e.1.length ≤ VAR_NAME_MAX) :
    (clear_variables (run X (init_variables (start env0 opts)) stmts)).vars = [] ∧
    ∀ n, env_get (clear_variables (run X (init_variables (start env0 opts)) stmts)).environ n =
      env_get env0 n :=
  clear_variables_restores env0 _
    (run_coherent X hcs env0 stmts _ (init_variables_coherent env0 opts hnodup hlen))

theorem teardown_restores_environment_witness :
    env_get (clear_variables (run sample
      (init_variables (start [("PATH".toList, "/bin".toList)] []))
      [Stmt.unlet_stmt "$PATH".toList, Stmt.let_stmt "$NEW = 1".toList,
       Stmt.let_stmt "$PATH = x".toList])).environ "PATH".toList = some "/bin".toList ∧
    env_get (clear_variables (run sample
      (init_variables (start [("PATH".toList, "/bin".toList)] []))
      [Stmt.unlet_stmt "$PATH".toList, Stmt.let_stmt "$NEW = 1".toList,
       Stmt.let_stmt "$PATH = x".toList])).environ "NEW".toList = none :=
  have h := teardown_restores_environment sample [("PATH".toList, "/bin".toList)] []
    [Stmt.unlet_stmt "$PATH".toList, Stmt.let_stmt "$NEW = 1".toList,
     Stmt.let_stmt "$PATH = x".toList] rfl (by decide) (by decide)
  ⟨h.2 "PATH".toList, h.2 "NEW".toList⟩

/-! ## Names in `:let` statements -/

/-- The loop of `parse_name` takes a run of name characters that fits the
buffer and stops at the first character that is not one. -/
theorem parse_name_do_run (other : List Char) (tail : CStr) (n : Nat) (c : Char)
    (rest buf : CStr) (htail : ∀ d ∈ tail, char_is_one_of other d = true)
    (hn : tail.length + 2 ≤ n)
    (hstop : ∀ d rest1, rest = d :: rest1 → char_is_one_of other d = false) :
    parse_name_do other n c (tail ++ rest) buf = (rest, buf ++ c :: tail) := by
  induction tail generalizing n c buf with
  | nil =>
    obtain ⟨m, rfl⟩ : ∃ m, n = m + 1 := ⟨n - 1, by simp at hn; omega⟩
    cases rest with
    | nil => simp [parse_name_do]
    | cons d rest1 => simp [parse_name_do, hstop d rest1 rfl]
  | cons d tail ih =>
    obtain ⟨m, rfl⟩ : ∃ m, n = m + 1 := ⟨n - 1, by omega⟩
    have hd : char_is_one_of other d = true := htail d (List.mem_cons_self _ _)
    have hm : m > 1 := by
      simp only [List.length_cons] at hn
      omega
    simp only [List.cons_append, parse_name_do, hm, hd, and_self, if_true]
    rw [ih m d (buf ++ [c]) (fun e he => htail e (List.mem_cons_of_mem _ he))
      (by simp only [List.length_cons] at hn; omega)]
    simp

theorem isspace_not_name_char (d : Char) (h : isspace d = true) :
    char_is_one_of ENV_VAR_NAME_CHARS d = false := by
  have hall : ∀ e ∈ ENV_VAR_NAME_CHARS, isspace e = false := by decide
  cases hc : char_is_one_of ENV_VAR_NAME_CHARS d with
  | false => rfl
  | true =>
    have hmem : d ∈ ENV_VAR_NAME_CHARS := by
      simpa [char_is_one_of] using hc
    rw [hall d hmem] at h
    cases h

theorem skip_whitespace_run (ws rest : CStr) (c : Char) (hws : ∀ s ∈ ws, isspace s = true)
    (hc : isspace c = false) : skip_whitespace (ws ++ c :: rest) = c :: rest := by
  induction ws with
  | nil => simp [skip_whitespace, hc]
  | cons s ws ih =>
    simp only [List.cons_append, skip_whitespace, hws s (List.mem_cons_self _ _), if_true]
    exact ih (fun t ht => hws t (List.mem_cons_of_mem _ ht))

/-- What `extract_name` gives on `$NAME` followed by whitespace and an
operator character. -/
theorem extract_name_envvar {σ : Type} (X : Externals σ) (c : Char) (tail ws : CStr)
    (sign : Char) (rest : CStr)
    (hc : char_is_one_of ENV_VAR_NAME_FIRST_CHAR c = true)
    (htail : ∀ d ∈ tail, char_is_one_of ENV_VAR_NAME_CHARS d = true)
    (hlen : tail.length < VAR_NAME_MAX) (hws : ∀ s ∈ ws, isspace s = true)
    (hsign : char_is_one_of ENV_VAR_NAME_CHARS sign = false) :
    extract_name X ('$' :: c :: tail ++ ws ++ sign :: rest) (VAR_NAME_MAX + 1) =
      NameResult.ok (ws ++ sign :: rest) VT_ENVVAR (c :: tail) := by
  have hrun := parse_name_do_run ENV_VAR_NAME_CHARS tail (VAR_NAME_MAX + 1) c
    (ws ++ sign :: rest) [] htail (by omega) (by
      intro d rest1 hd
      cases ws with
      | nil =>
        simp only [List.nil_append, List.cons.injEq] at hd
        rw [← hd.1]
        exact hsign
      | cons s ws1 =>
        simp only [List.cons_append, List.cons.injEq] at hd
        rw [← hd.1]
        exact isspace_not_name_char s (hws s (List.mem_cons_self _ _)))
  simp only [extract_name, List.cons_append, List.append_assoc, parse_name, hc]
  simp only [List.append_assoc, List.nil_append, show VAR_NAME_MAX + 1 = 65 from rfl] at hrun
  simp [hrun, extract_name_finish, VAR_NAME_MAX]

theorem let_envvar_add_sub {σ : Type} (X : Externals σ) (w : State σ) (cmd rest name rest1 : CStr)
    (vo : VariableOperation)
    (hn : extract_name X cmd (VAR_NAME_MAX + 1) = NameResult.ok rest VT_ENVVAR name)
    (ho : extract_op (skip_whitespace rest) = OpResult.ok rest1 vo)
    (hvo : vo = VO_ADD ∨ vo = VO_SUB) :
    (let_variables X w cmd).1 = -1 ∧ (let_variables X w cmd).2.vars = w.vars ∧
    (let_variables X w cmd).2.environ = w.environ := by
  have hv : is_valid_op X w.opts name VT_ENVVAR vo = false := by
    rcases hvo with h | h <;> simp [is_valid_op, h]
  unfold let_variables
  rw [hn]
  dsimp only
  rw [ho]
  dsimp only
  split
  · exact ⟨rfl, rfl, rfl⟩
  · split
    · exact ⟨rfl, rfl, rfl⟩
    · exact ⟨rfl, rfl, rfl⟩

/-- C8: for an environment variable `is_valid_op` is true exactly for `=`
and `.=`.  Consequently a `:let` statement whose target is an environment
variable and whose operator is `+=` or `-=` returns -1 and leaves the
registry and the OS environment unchanged: this holds whenever the parser
reads the statement so, and in particular for every text `$NAME`, optional
whitespace, `+=` or `-=`, and any expression, with `NAME` a letter or
underscore followed by at most 63 letters, digits and underscores. -/
theorem envvar_add_sub_rejected {σ : Type} (X : Externals σ) (w : State σ) :
    (∀ name vo, is_valid_op X w.opts name VT_ENVVAR vo = true ↔ vo = VO_ASSIGN ∨ vo = VO_APPEND) ∧
    (∀ cmd rest name rest1 vo,
      extract_name X cmd (VAR_NAME_MAX + 1) = NameResult.ok rest VT_ENVVAR name →
      extract_op (skip_whitespace rest) = OpResult.ok rest1 vo →
      vo = VO_ADD ∨ vo = VO_SUB →
      (let_variables X w cmd).1 = -1 ∧ (let_variables X w cmd).2.vars = w.vars ∧
      (let_variables X w cmd).2.environ = w.environ) ∧
    (∀ (c : Char) (tail ws : CStr) (sign : Char) (expr : CStr),
      char_is_one_of ENV_VAR_NAME_FIRST_CHAR c = true →
      (∀ d ∈ tail, char_is_one_of ENV_VAR_NAME_CHARS d = true) →
      tail.length < VAR_NAME_MAX →
      (∀ s ∈ ws, isspace s = true) →
      sign = '+' ∨ sign = '-' →
      (let_variables X w ('$' :: c :: tail ++ ws ++ sign :: '=' :: expr)).1 = -1 ∧
      (let_variables X w ('$' :: c :: tail ++ ws ++ sign :: '=' :: expr)).2.vars = w.vars ∧
      (let_variables X w ('$' :: c :: tail ++ ws ++ sign :: '=' :: expr)).2.environ =
        w.environ) := by
  refine ⟨?_, ?_, ?_⟩
  · intro name vo
    simp [is_valid_op]
  · intro cmd rest name rest1 vo hn ho hvo
    exact let_envvar_add_sub X w cmd rest name rest1 vo hn ho hvo
  · intro c tail ws sign expr hc htail hlen hws hsign
    have hsp : isspace sign = false := by
      rcases hsign with h | h <;> subst h <;> decide
    have hnc : char_is_one_of ENV_VAR_NAME_CHARS sign = false := by
      rcases hsign with h | h <;> subst h <;> decide
    have hn := extract_name_envvar X c tail ws sign ('=' :: expr) hc htail hlen hws hnc
    have hsk := skip_whitespace_run ws ('=' :: expr) sign hws hsp
    rcases hsign with h | h
    · subst h
      exact let_envvar_add_sub X w _ _ _ expr VO_ADD hn (by rw [hsk]; rfl) (Or.inl rfl)
    · subst h
      exact let_envvar_add_sub X w _ _ _ expr VO_SUB hn (by rw [hsk]; rfl) (Or.inr rfl)

theorem envvar_add_sub_rejected_witness :
    (let_variables sample (start [] []) "$FOO += 1".toList).1 = -1 ∧
    (let_variables sample (start [] []) "$FOO += 1".toList).2.vars = [] ∧
    (let_variables sample (start [] []) "$FOO += 1".toList).2.environ = [] :=
  (envvar_add_sub_rejected sample (start [] [])).2.2 'F' "OO".toList " ".toList '+' " 1".toList
    (by decide) (by decide) (by decide) (by decide) (by decide)

/-! ## Which slot `get_record` takes -/

theorem get_record_loop_all_occupied (name : CStr) (vars : List Slot) (k : Nat) (p : Option Nat)
    (hno : ∀ j r, slot_at vars j = some r → r.name ≠ name)
    (hocc : ∀ j, j < vars.length → slot_at vars j ≠ none) :
    get_record_loop name vars k p = Sum.inr p := by
  induction vars generalizing k p with
  | nil => rfl
  | cons s rest ih =>
    cases s with
    | none => exact absurd (by simp) (hocc 0 (by simp))
    | some r0 =>
      have h0 : ¬ strcmp r0.name name = 0 := by
        rw [strcmp_eq_zero]
        exact hno 0 r0 (by simp)
      simp only [get_record_loop, h0, if_false]
      exact ih (k + 1) p (fun j r hs => hno (j + 1) r (by simpa using hs))
        (fun j hj => by simpa using hocc (j + 1) (by simpa using hj))

theorem get_record_loop_last_empty (name : CStr) (vars : List Slot) (k : Nat) (p0 : Option Nat)
    (p : Nat) (hno : ∀ j r, slot_at vars j = some r → r.name ≠ name)
    (hp : p < vars.length) (hempty : slot_at vars p = none)
    (hlast : ∀ j, p < j → j < vars.length → slot_at vars j ≠ none) :
    get_record_loop name vars k p0 = Sum.inr (some (p + k)) := by
  induction vars generalizing k p0 p with
  | nil => simp at hp
  | cons s rest ih =>
    have hno1 : ∀ j r, slot_at rest j = some r → r.name ≠ name :=
      fun j r hs => hno (j + 1) r (by simpa using hs)
    cases p with
    | zero =>
      cases s with
      | some r0 => simp at hempty
      | none =>
        simp only [get_record_loop]
        rw [get_record_loop_all_occupied name rest (k + 1) (some k) hno1
          (fun j hj => by simpa using hlast (j + 1) (by omega) (by simpa using hj))]
        simp
    | succ p =>
      have hrec := fun q => ih (k + 1) q p hno1 (by simpa using hp) (by simpa using hempty)
        (fun j hj hjl => by simpa using hlast (j + 1) (by omega) (by simpa using hjl))
      cases s with
      | none =>
        simp only [get_record_loop]
        rw [hrec (some k)]
        congr 2
        omega
      | some r0 =>
        have h0 : ¬ strcmp r0.name name = 0 := by
          rw [strcmp_eq_zero]
          exact hno 0 r0 (by simp)
        simp only [get_record_loop, h0, if_false]
        rw [hrec p0]
        congr 2
        omega

/-- C16, as stated, fails: with the slots 0 and 2 empty, `get_record` puts
the new record into slot 2, the empty slot it saw last, not into slot 0. -/
theorem get_record_takes_last_empty_slot :
    get_record [none, some ⟨"A".toList, [], [], false, false⟩, none] "B".toList =
      ([none, some ⟨"A".toList, [], [], false, false⟩, some ⟨"B".toList, [], [], false, false⟩],
        2) ∧
    (get_record [none, some ⟨"A".toList, [], [], false, false⟩, none] "B".toList).2 ≠ 0 := by
  decide

/-- C16, amended: `get_record` returns the first occupied slot that holds
the name and leaves the registry unchanged; when no occupied slot holds the
name, the new record goes into the last (highest-index) empty slot of the
registry, or becomes a new last slot when no slot is empty; the new record
has the name, empty `val` and `initial`, `from_parent` and `removed` unset,
and every other slot is unchanged. -/
theorem get_record_spec (vars : List Slot) (name : CStr) :
    (∀ i r, slot_at vars i = some r → r.name = name →
      (∀ j r1, j < i → slot_at vars j = some r1 → r1.name ≠ name) →
      get_record vars name = (vars, i)) ∧
    ((∀ j r, slot_at vars j = some r → r.name ≠ name) →
      (∀ p, p < vars.length → slot_at vars p = none →
        (∀ j, p < j → j < vars.length → slot_at vars j ≠ none) →
        get_record vars name = (vars.set p (some ⟨name, [], [], false, false⟩), p)) ∧
      ((∀ j, j < vars.length → slot_at vars j ≠ none) →
        get_record vars name = (vars ++ [some ⟨name, [], [], false, false⟩], vars.length))) := by
  refine ⟨?_, ?_⟩
  · intro i r hs hn hfirst
    refine get_record_found vars name i r ((find_record_some_iff true vars name i r).2 ⟨hs, ?_, ?_⟩)
    · rw [stroscmp_true]
      exact hn
    · intro j r1 hj hs1 hm
      rw [stroscmp_true] at hm
      exact hfirst j r1 hj hs1 hm
  · intro hno
    refine ⟨?_, ?_⟩
    · intro p hp hempty hlast
      unfold get_record
      rw [get_record_loop_last_empty name vars 0 none p hno hp hempty hlast]
      rfl
    · intro hocc
      unfold get_record
      rw [get_record_loop_all_occupied name vars 0 none hno hocc]
      rfl

theorem get_record_spec_witness :
    get_record [some ⟨"A".toList, [], [], false, false⟩, none] "A".toList =
      ([some ⟨"A".toList, [], [], false, false⟩, none], 0) :=
  (get_record_spec [some ⟨"A".toList, [], [], false, false⟩, none] "A".toList).1 0
    ⟨"A".toList, [], [], false, false⟩ rfl rfl (by intro j r1 hj; omega)

/-! ## Invariants of the registry -/

theorem registry_ok_nil : registry_ok [] := by
  refine ⟨?_, ?_⟩
  · intro i j r r1 hs
    simp at hs
  · intro i r hs
    simp at hs

/-- A registry whose records each come from a record of the same name in
the same slot of an invariant registry, or sit in slot `p` under a name the
old registry did not have, and whose tombstones are inherited, satisfies
the invariants. -/
theorem registry_ok_of_derived (vars vars1 : List Slot) (p : Nat) (h : registry_ok vars)
    (hd : ∀ j r1, slot_at vars1 j = some r1 →
      (r1.removed = true → r1.from_parent = true) ∧
      ((∃ r, slot_at vars j = some r ∧ r.name = r1.name) ∨
        (j = p ∧ ∀ k r, slot_at vars k = some r → r.name ≠ r1.name))) :
    registry_ok vars1 := by
  refine ⟨?_, fun i r hs => (hd i r hs).1⟩
  intro a b ra rb ha hb hab
  rcases (hd a ra ha).2 with ⟨ra0, ha0, hna⟩ | ⟨hap, hfa⟩
  · rcases (hd b rb hb).2 with ⟨rb0, hb0, hnb⟩ | ⟨hbp, hfb⟩
    · exact h.1 a b ra0 rb0 ha0 hb0 (by rw [hna, hnb, hab])
    · exact absurd (by rw [hna, hab]) (hfb a ra0 ha0)
  · rcases (hd b rb hb).2 with ⟨rb0, hb0, hnb⟩ | ⟨hbp, hfb⟩
    · exact absurd (by rw [hnb, hab]) (hfa b rb0 hb0)
    · rw [hap, hbp]

/-- Writing to the record of one slot keeps the invariants when the name
stays and the flags stay sound. -/
theorem registry_ok_update (f : envvar_t → envvar_t) (vars : List Slot) (i : Nat)
    (h : registry_ok vars)
    (hf : ∀ r, slot_at vars i = some r →
      (f r).name = r.name ∧ ((f r).removed = true → (f r).from_parent = true)) :
    registry_ok (update_record f vars i) := by
  refine registry_ok_of_derived vars _ 0 h ?_
  intro j r1 hs
  rw [slot_at_update_record] at hs
  by_cases hj : j = i
  · subst hj
    simp only [if_true, Option.map_eq_some'] at hs
    obtain ⟨r, hr, rfl⟩ := hs
    exact ⟨(hf r hr).2, Or.inl ⟨r, hr, (hf r hr).1.symm⟩⟩
  · simp only [hj, if_false] at hs
    exact ⟨h.2 j r1 hs, Or.inl ⟨r1, hs, rfl⟩⟩

theorem registry_ok_free (vars : List Slot) (i : Nat) (h : registry_ok vars) :
    registry_ok (free_record vars i) := by
  refine registry_ok_of_derived vars _ 0 h ?_
  intro j r1 hs
  rw [free_record, slot_at_set_none] at hs
  by_cases hj : j = i
  · simp [hj] at hs
  · simp only [hj, if_false] at hs
    exact ⟨h.2 j r1 hs, Or.inl ⟨r1, hs, rfl⟩⟩

theorem registry_ok_get_record (vars : List Slot) (name : CStr) (h : registry_ok vars) :
    registry_ok (get_record vars name).1 := by
  cases hf : find_record true vars name with
  | some q =>
    obtain ⟨i, r⟩ := q
    rw [get_record_found vars name i r hf]
    exact h
  | none =>
    obtain ⟨h1, h2, h3⟩ := get_record_new vars name hf
    rw [find_record_none_iff] at hf
    refine registry_ok_of_derived vars _ (get_record vars name).2 h ?_
    intro j r1 hs
    by_cases hj : j = (get_record vars name).2
    · rw [hj, h2] at hs
      cases hs
      refine ⟨by simp [new_record], Or.inr ⟨hj, ?_⟩⟩
      intro k r hk hc
      exact hf k r hk (by rw [stroscmp_true]; exact hc)
    · rw [h3 j hj] at hs
      exact ⟨h.2 j r1 hs, Or.inl ⟨r1, hs, rfl⟩⟩

theorem set_envvar_registry_ok {σ : Type} (w : State σ) (name val : CStr)
    (h : registry_ok w.vars) : registry_ok (set_envvar w name val).vars := by
  rw [set_envvar_vars]
  refine registry_ok_update _ _ _ (registry_ok_get_record w.vars name h) ?_
  intro r hr
  exact ⟨rfl, (registry_ok_get_record w.vars name h).2 _ r hr⟩

theorem append_envvar_registry_ok {σ : Type} (cs : Bool) (w : State σ) (name val : CStr)
    (h : registry_ok w.vars) : registry_ok (append_envvar cs w name val).vars := by
  cases hf : find_record cs w.vars name with
  | none =>
    rw [append_envvar_not_found _ _ _ _ hf]
    exact set_envvar_registry_ok w name val h
  | some q =>
    obtain ⟨i, r⟩ := q
    rw [append_envvar_found _ _ _ _ i r hf]
    refine registry_ok_update _ _ _ h ?_
    intro r1 hr1
    exact ⟨rfl, h.2 i r1 hr1⟩

theorem init_var_registry_ok (vars : List Slot) (e : CStr × CStr) (h : registry_ok vars) :
    registry_ok (init_var vars e) := by
  unfold init_var
  refine registry_ok_update _ _ _ (registry_ok_get_record vars _ h) ?_
  intro r hr
  exact ⟨rfl, fun _ => rfl⟩

theorem foldl_init_var_registry_ok (l : Environ) (vars : List Slot) (h : registry_ok vars) :
    registry_ok (l.foldl init_var vars) := by
  induction l generalizing vars with
  | nil => exact h
  | cons e rest ih => exact ih (init_var vars e) (init_var_registry_ok vars e h)

theorem init_variables_registry_ok {σ : Type} (w : State σ) :
    registry_ok (init_variables w).vars := by
  unfold init_variables
  by_cases hl : w.vars.length > 0
  · simp only [hl, if_true]
    exact foldl_init_var_registry_ok _ _ registry_ok_nil
  · simp only [hl, if_false]
    have : w.vars = [] := List.length_eq_zero.1 (by omega)
    rw [this]
    exact foldl_init_var_registry_ok _ _ registry_ok_nil

theorem unlet_one_registry_ok {σ : Type} (X : Externals σ) (w : State σ) (name : CStr)
    (h : registry_ok w.vars) : registry_ok (unlet_one X w name).2.vars := by
  by_cases hmiss : name = [] ∨ find_record X.case_sensitive w.vars name = none ∨
      ∃ i r, find_record X.case_sensitive w.vars name = some (i, r) ∧ r.removed = true
  · rw [(unlet_one_miss X w name hmiss).2.1]
    exact h
  · have hne : name ≠ [] := fun hc => hmiss (Or.inl hc)
    cases hf : find_record X.case_sensitive w.vars name with
    | none => exact absurd (Or.inr (Or.inl hf)) hmiss
    | some q =>
      obtain ⟨i, r⟩ := q
      have hr : r.removed = false := by
        cases hrr : r.removed with
        | false => rfl
        | true => exact absurd (Or.inr (Or.inr ⟨i, r, hf, hrr⟩)) hmiss
      rw [unlet_one_hit X w name i r hne hf hr]
      have hs := ((find_record_some_iff _ w.vars name i r).1 hf).1
      by_cases hp : r.from_parent = true
      · rw [if_pos hp]
        refine registry_ok_update _ _ _ h ?_
        intro r1 hr1
        rw [hs] at hr1
        cases hr1
        exact ⟨rfl, fun _ => hp⟩
      · rw [if_neg hp]
        exact registry_ok_free _ _ h

theorem perform_op_registry_ok {σ : Type} (X : Externals σ) (w : State σ) (name : CStr)
    (vt : VariableType) (vo : VariableOperation) (value : CStr) (h : registry_ok w.vars) :
    registry_ok (perform_op X w name vt vo value).2.vars := by
  by_cases hvt : vt = VT_ENVVAR
  · unfold perform_op
    rw [if_pos hvt]
    split
    · exact append_envvar_registry_ok _ w name value h
    · exact set_envvar_registry_ok w name value h
  · rw [(perform_op_option_frame X w name vt vo value hvt).1]
    exact h

theorem let_variables_registry_ok {σ : Type} (X : Externals σ) (w : State σ) (cmd : CStr)
    (h : registry_ok w.vars) : registry_ok (let_variables X w cmd).2.vars := by
  unfold let_variables
  split
  · exact h
  · split
    · exact h
    · dsimp only
      split
      · exact h
      · split
        · exact h
        · split
          · exact h
          · exact perform_op_registry_ok X w _ _ _ _ h

theorem unlet_loop_registry_ok {σ : Type} (X : Externals σ) (fuel : Nat) (cmd : CStr)
    (w : State σ) (error : Int) (h : registry_ok w.vars) :
    registry_ok (unlet_loop X fuel cmd w error).2.vars := by
  induction fuel generalizing cmd w error with
  | zero => exact h
  | succ fuel ih =>
    cases cmd with
    | nil => exact h
    | cons c rest =>
      rw [unlet_loop]
      dsimp only
      by_cases ht : trailing_chars
          (copy_name (if decide (c = '$') = true then rest else c :: rest) []).1 = true
      · rw [if_pos ht]
        exact h
      · rw [if_neg ht]
        by_cases he : decide (c = '$') = false
        · rw [if_pos he]
          exact ih _ _ _ h
        · rw [if_neg he]
          exact ih _ _ _ (unlet_one_registry_ok X w _ h)

theorem exec_registry_ok {σ : Type} (X : Externals σ) (w : State σ) (s : Stmt)
    (h : registry_ok w.vars) : registry_ok (exec X w s).vars := by
  cases s with
  | let_stmt cmd => exact let_variables_registry_ok X w cmd h
  | unlet_stmt cmd => exact unlet_loop_registry_ok X _ _ w 0 h

theorem act_registry_ok {σ : Type} (X : Externals σ) (w : State σ) (a : Action)
    (h : registry_ok w.vars) : registry_ok (act X w a).vars := by
  cases a with
  | statement s => exact exec_registry_ok X w s h
  | teardown => exact registry_ok_nil

/-- C17: in every state reached from bootstrap by `let` statements,
`unlet` statements and teardowns, on either kind of platform, no two
occupied slots hold the same name. -/
theorem reachable_names_unique {σ : Type} (X : Externals σ) (w : State σ)
    (actions : List Action) :
    names_unique (run_actions X (init_variables w) actions).vars := by
  have key : ∀ (l : List Action) (w1 : State σ), registry_ok w1.vars →
      registry_ok (run_actions X w1 l).vars := by
    intro l
    induction l with
    | nil => exact fun _ h => h
    | cons a rest ih => exact fun w1 h => ih (act X w1 a) (act_registry_ok X w1 a h)
  exact (key actions _ (init_variables_registry_ok w)).1

/-- C18: in every state reached from bootstrap by `let` and `unlet`
statements every record with `removed` set has `from_parent` set. -/
theorem reachable_tombstones_inherited {σ : Type} (X : Externals σ) (w : State σ)
    (stmts : List Stmt) :
    tombstones_inherited (run X (init_variables w) stmts).vars := by
  have key : ∀ (l : List Stmt) (w1 : State σ), registry_ok w1.vars →
      registry_ok (run X w1 l).vars := by
    intro l
    induction l with
    | nil => exact fun _ h => h
    | cons s rest ih => exact fun w1 h => ih (exec X w1 s) (exec_registry_ok X w1 s h)
  exact (key stmts _ (init_variables_registry_ok w)).2

/-! ## What `parse_name` takes -/

theorem take_takeWhile_eq (p : Char → Bool) (l : CStr) (n : Nat) :
    l.take (min n (l.takeWhile p).length) = (l.takeWhile p).take n := by
  induction l generalizing n with
  | nil => simp
  | cons d rest ih =>
    by_cases hd : p d = true
    · cases n with
      | zero => simp
      | succ n =>
        simp only [List.takeWhile_cons, hd, if_true, List.length_cons, List.take_succ_cons,
          Nat.add_min_add_right]
        rw [ih n]
    · simp [List.takeWhile_cons, hd]

/-- The loop of `parse_name` takes the character at hand and then name
characters while there are any and the buffer has room. -/
theorem parse_name_do_eq (other : List Char) (n : Nat) (c : Char) (rest buf : CStr)
    (hn : 1 ≤ n) :
    parse_name_do other n c rest buf =
      (rest.drop (min (n - 2) (rest.takeWhile (char_is_one_of other)).length),
       buf ++ c :: rest.take (min (n - 2) (rest.takeWhile (char_is_one_of other)).length)) := by
  induction rest generalizing n c buf with
  | nil =>
    obtain ⟨m, rfl⟩ : ∃ m, n = m + 1 := ⟨n - 1, by omega⟩
    simp [parse_name_do]
  | cons d rest1 ih =>
    obtain ⟨m, rfl⟩ : ∃ m, n = m + 1 := ⟨n - 1, by omega⟩
    by_cases hd : char_is_one_of other d = true
    · by_cases hm : m > 1
      · simp only [parse_name_do, hm, hd, and_self, if_true]
        rw [ih m d (buf ++ [c]) (by omega)]
        have hk : min (m + 1 - 2) ((d :: rest1).takeWhile (char_is_one_of other)).length =
            min (m - 2) (rest1.takeWhile (char_is_one_of other)).length + 1 := by
          simp only [List.takeWhile_cons, hd, if_true, List.length_cons]
          omega
        rw [hk]
        simp
      · have hm0 : m + 1 - 2 = 0 := by omega
        simp [parse_name_do, hm, hm0]
    · simp [parse_name_do, hd, List.takeWhile_cons]

theorem first_char_is_name_char (c : Char)
    (h : char_is_one_of ENV_VAR_NAME_FIRST_CHAR c = true) :
    char_is_one_of ENV_VAR_NAME_CHARS c = true := by
  have hall : ∀ e ∈ ENV_VAR_NAME_FIRST_CHAR, char_is_one_of ENV_VAR_NAME_CHARS e = true := by
    decide
  exact hall c (by simpa [char_is_one_of] using h)

theorem upper_is_first_char (n : Nat) (h1 : 65 ≤ n) (h2 : n ≤ 90) :
    char_is_one_of ENV_VAR_NAME_FIRST_CHAR (Char.ofNat n) = true := by
  interval_cases n <;> decide

theorem lower_is_first_char (n : Nat) (h1 : 97 ≤ n) (h2 : n ≤ 122) :
    char_is_one_of ENV_VAR_NAME_FIRST_CHAR (Char.ofNat n) = true := by
  interval_cases n <;> decide

theorem digit_is_name_char (n : Nat) (h1 : 48 ≤ n) (h2 : n ≤ 57) :
    char_is_one_of ENV_VAR_NAME_CHARS (Char.ofNat n) = true := by
  interval_cases n <;> decide

/-- The first-character alphabet is the ASCII letters and the underscore. -/
theorem first_char_iff (c : Char) :
    char_is_one_of ENV_VAR_NAME_FIRST_CHAR c = true ↔ (c.isAlpha = true ∨ c = '_') := by
  constructor
  · intro h
    have hall : ∀ e ∈ ENV_VAR_NAME_FIRST_CHAR, (e.isAlpha = true ∨ e = '_') := by decide
    exact hall c (by simpa [char_is_one_of] using h)
  · intro h
    rcases h with h | h
    · have hc : Char.ofNat c.toNat = c := Char.ofNat_toNat c
      simp only [Char.isAlpha, Char.isUpper, Char.isLower, Bool.or_eq_true, Bool.and_eq_true,
        decide_eq_true_eq, UInt32.le_def, ge_iff_le] at h
      rw [← hc]
      rcases h with ⟨h1, h2⟩ | ⟨h1, h2⟩
      · exact upper_is_first_char c.toNat h1 h2
      · exact lower_is_first_char c.toNat h1 h2
    · subst h
      decide

/-- The name alphabet is the ASCII letters, the digits and the underscore. -/
theorem name_char_iff (c : Char) :
    char_is_one_of ENV_VAR_NAME_CHARS c = true ↔ (c.isAlphanum = true ∨ c = '_') := by
  constructor
  · intro h
    have hall : ∀ e ∈ ENV_VAR_NAME_CHARS, (e.isAlphanum = true ∨ e = '_') := by decide
    exact hall c (by simpa [char_is_one_of] using h)
  · intro h
    rcases h with h | h
    · simp only [Char.isAlphanum, Bool.or_eq_true] at h
      rcases h with h | h
      · exact first_char_is_name_char c ((first_char_iff c).2 (Or.inl h))
      · have hc : Char.ofNat c.toNat = c := Char.ofNat_toNat c
        simp only [Char.isDigit, Bool.and_eq_true, decide_eq_true_eq, UInt32.le_def,
          ge_iff_le] at h
        rw [← hc]
        exact digit_is_name_char c.toNat h.1 h.2
    · subst h
      decide

/-- C20: on `$` followed by `R`, `extract_name` succeeds exactly when `R`
begins with a letter or an underscore; it then gives the kind `VT_ENVVAR`,
the name that is the longest prefix of `R` made of letters, digits and
underscores cut to `VAR_NAME_MAX` characters, and the input position right
after the sigil and that name; a longer run is cut without an error. -/
theorem extract_name_envvar_spec {σ : Type} (X : Externals σ) (R : CStr) :
    ((∃ c rest, R = c :: rest ∧ (c.isAlpha = true ∨ c = '_')) →
      extract_name X ('$' :: R) (VAR_NAME_MAX + 1) =
        NameResult.ok
          (R.drop ((R.takeWhile (char_is_one_of ENV_VAR_NAME_CHARS)).take VAR_NAME_MAX).length)
          VT_ENVVAR ((R.takeWhile (char_is_one_of ENV_VAR_NAME_CHARS)).take VAR_NAME_MAX)) ∧
    ((¬ ∃ c rest, R = c :: rest ∧ (c.isAlpha = true ∨ c = '_')) →
      extract_name X ('$' :: R) (VAR_NAME_MAX + 1) =
        NameResult.fail R "Incorrect variable name".toList) ∧
    (∀ c, char_is_one_of ENV_VAR_NAME_CHARS c = true ↔ (c.isAlphanum = true ∨ c = '_')) := by
  refine ⟨?_, ?_, name_char_iff⟩
  · rintro ⟨c, rest, rfl, hc⟩
    have hfirst := (first_char_iff c).2 hc
    have hname := first_char_is_name_char c hfirst
    have hdo := parse_name_do_eq ENV_VAR_NAME_CHARS 65 c rest [] (by omega)
    have htake := take_takeWhile_eq (char_is_one_of ENV_VAR_NAME_CHARS) rest 63
    have hlen : (rest.take (min 63 (rest.takeWhile
        (char_is_one_of ENV_VAR_NAME_CHARS)).length)).length =
        min 63 (rest.takeWhile (char_is_one_of ENV_VAR_NAME_CHARS)).length := by
      rw [List.length_take]
      have hpre : rest.takeWhile (char_is_one_of ENV_VAR_NAME_CHARS) <+: rest :=
        List.takeWhile_prefix _
      have := hpre.length_le
      omega
    simp only [extract_name, parse_name, hfirst, show VAR_NAME_MAX + 1 = 65 from rfl,
      show VAR_NAME_MAX = 64 from rfl]
    simp only [hdo, List.nil_append, List.takeWhile_cons, hname, if_true, List.take_succ_cons,
      List.length_cons, List.drop_succ_cons]
    rw [← htake, hlen]
    simp [extract_name_finish]
  · intro hnot
    cases R with
    | nil => simp [extract_name, parse_name, extract_name_finish]
    | cons c rest =>
      have hfirst : char_is_one_of ENV_VAR_NAME_FIRST_CHAR c = false := by
        cases hc : char_is_one_of ENV_VAR_NAME_FIRST_CHAR c with
        | false => rfl
        | true => exact absurd ⟨c, rest, rfl, (first_char_iff c).1 hc⟩ hnot
      simp [extract_name, parse_name, hfirst, extract_name_finish]

theorem extract_name_envvar_spec_witness :
    extract_name sample "$FOO=1".toList (VAR_NAME_MAX + 1) =
      NameResult.ok "=1".toList VT_ENVVAR "FOO".toList :=
  (extract_name_envvar_spec sample "FOO=1".toList).1 ⟨'F', "OO=1".toList, rfl, by decide⟩

/-! ## Completion -/

theorem complete_matches_eq (cs : Bool) (pre : CStr) (vars : List Slot) :
    complete_matches cs pre vars =
      ((vars.filterMap id).filter
        (fun r => !r.removed && starts_like cs pre r)).map envvar_t.name := by
  induction vars with
  | nil => rfl
  | cons s rest ih =>
    cases s with
    | none => simpa [complete_matches] using ih
    | some r =>
      by_cases hr : r.removed = true
      · simp [complete_matches, hr, ih]
      · by_cases hm : strnoscmp cs r.name pre pre.length = 0
        · simp [complete_matches, hr, hm, ih, starts_like]
        · simp [complete_matches, hr, hm, ih, starts_like]

theorem strnoscmp_true_iff (name pre : CStr) :
    strnoscmp true name pre pre.length = 0 ↔ pre <+: name := by
  rw [strnoscmp, stroscmp_true, List.take_length, List.prefix_iff_eq_take]
  exact eq_comm

theorem strnoscmp_false_iff (name pre : CStr) :
    strnoscmp false name pre pre.length = 0 ↔
      pre.map Char.toLower <+: name.map Char.toLower := by
  simp only [strnoscmp, stroscmp, strcasecmp, Bool.false_eq_true, if_false, strcmp_eq_zero,
    List.take_length, List.prefix_iff_eq_take, List.length_map, List.map_take]
  exact eq_comm

/-- C19: on `$` followed by a prefix, the candidates `complete_variables`
adds before it finishes the group are the names of the occupied slots that
are not tombstoned and whose name starts with the prefix under the
platform's rule, one per such slot, in slot order; on a case-sensitive
platform the rule is that the prefix is a prefix of the name, on the others
the same after lowering the case. -/
theorem complete_variables_group (cs : Bool) (vars : List Slot) (pre : CStr) :
    (complete_variables cs vars ('$' :: pre)).added =
      ((vars.filterMap id).filter
        (fun r => !r.removed && starts_like cs pre r)).map envvar_t.name ∧
    (complete_variables cs vars ('$' :: pre)).finished = true ∧
    (∀ r, starts_like true pre r = true ↔ pre <+: r.name) ∧
    (∀ r, starts_like false pre r = true ↔
      pre.map Char.toLower <+: r.name.map Char.toLower) := by
  refine ⟨complete_matches_eq cs pre vars, rfl, ?_, ?_⟩
  · intro r
    simp [starts_like, strnoscmp_true_iff]
  · intro r
    simp [starts_like, strnoscmp_false_iff]

/-! ## `let` on an environment variable -/

/-- A `:let` statement the parser reads as `=` or `.=` on an environment
variable and that returns 0 has done exactly `perform_op` with the value
the evaluator gave. -/
theorem let_envvar_success {σ : Type} (X : Externals σ) (w : State σ)
    (cmd rest name rest1 : CStr) (vo : VariableOperation)
    (hn : extract_name X cmd (VAR_NAME_MAX + 1) = NameResult.ok rest VT_ENVVAR name)
    (ho : extract_op (skip_whitespace rest) = OpResult.ok rest1 vo)
    (h0 : (let_variables X w cmd).1 = 0) :
    (let_variables X w cmd).2 =
      (perform_op X w name VT_ENVVAR vo
        (X.parse w.opts (local_getenv X.case_sensitive w.vars) (skip_whitespace rest1)).value).2 := by
  unfold let_variables at h0 ⊢
  rw [hn] at h0 ⊢
  dsimp only at h0 ⊢
  rw [ho] at h0 ⊢
  dsimp only at h0 ⊢
  split at h0
  · simp at h0
  · split at h0
    · simp at h0
    · split at h0
      · simp at h0
      · rename_i h1 h2 h3
        rw [if_neg h1, if_neg h2, if_neg h3]

/-- C14, as stated, fails: after `let $FOO=1` and `let $FOOBAR=2` from an
empty registry the candidates for `$F` are `FOO`, `FOOBAR` and, as the last
match, `F`, the text after the sigil, not `$F`. -/
theorem complete_fallback_drops_sigil :
    candidates (complete_variables true
      (run sample (init_variables (start [] []))
        [Stmt.let_stmt "$FOO=1".toList, Stmt.let_stmt "$FOOBAR=2".toList]).vars "$F".toList) =
      ["FOO".toList, "FOOBAR".toList, "F".toList] ∧
    candidates (complete_variables true
      (run sample (init_variables (start [] []))
        [Stmt.let_stmt "$FOO=1".toList, Stmt.let_stmt "$FOOBAR=2".toList]).vars "$F".toList) ≠
      ["FOO".toList, "FOOBAR".toList, "$F".toList] := by
  decide

/-- C14, amended: starting from an empty registry, when `let $FOO=1` and
then `let $FOOBAR=2` succeed, `complete_variables` on `$F` sets the start of
the completed text right after the sigil and produces the candidates `FOO`,
`FOOBAR` (the group, in creation order) and then `F`, the text after the
sigil, as the last match; this holds for every evaluator and on either
platform. -/
theorem complete_after_two_lets {σ : Type} (X : Externals σ) (w : State σ)
    (hvars : w.vars = [])
    (h1 : (let_variables X w "$FOO=1".toList).1 = 0)
    (h2 : (let_variables X (let_variables X w "$FOO=1".toList).2 "$FOOBAR=2".toList).1 = 0) :
    complete_variables X.case_sensitive
      (let_variables X (let_variables X w "$FOO=1".toList).2 "$FOOBAR=2".toList).2.vars
      "$F".toList =
      { start := "F".toList, added := ["FOO".toList, "FOOBAR".toList], finished := true,
        last := some "F".toList } := by
  have e1 := let_envvar_success X w "$FOO=1".toList "=1".toList "FOO".toList "1".toList
    VO_ASSIGN rfl rfl h1
  have e2 := let_envvar_success X (let_variables X w "$FOO=1".toList).2 "$FOOBAR=2".toList
    "=2".toList "FOOBAR".toList "2".toList VO_ASSIGN rfl rfl h2
  rw [e2, e1]
  have hcmp : strcmp "FOO".toList "FOOBAR".toList ≠ 0 := by decide
  have hm1 : strnoscmp X.case_sensitive ['F', 'O', 'O'] ['F'] (0 + 1) = 0 := by
    cases X.case_sensitive <;> decide
  have hm2 : strnoscmp X.case_sensitive ['F', 'O', 'O', 'B', 'A', 'R'] ['F'] (0 + 1) = 0 := by
    cases X.case_sensitive <;> decide
  simp only [perform_op, if_true, show (VO_ASSIGN = VO_APPEND) = False by simp, if_false,
    set_envvar, hvars, get_record, get_record_loop, List.nil_append, update_record,
    Option.map_some', new_record, List.length_nil, hcmp, List.length_cons, List.cons_append,
    complete_variables, String.toList, complete_matches, Bool.false_eq_true]
  rw [if_pos hm1, if_pos hm2]

theorem complete_after_two_lets_witness :
    complete_variables true
      (let_variables sample (let_variables sample (start [] []) "$FOO=1".toList).2
        "$FOOBAR=2".toList).2.vars "$F".toList =
      { start := "F".toList, added := ["FOO".toList, "FOOBAR".toList], finished := true,
        last := some "F".toList } :=
  complete_after_two_lets sample (start [] []) rfl (by decide) (by decide)

/-- C15, the failing input: on a platform that ignores case in names,
`let $foo = 1` followed by `let $FOO = 2` leaves two records, `foo` and
`FOO`, although the platform rule takes the two names for equal, and the
read of `FOO` returns the value of `foo`. -/
theorem let_creates_second_spelling :
    stroscmp false "foo".toList "FOO".toList = 0 ∧
    (run sample_nocase (init_variables (start [] []))
      [Stmt.let_stmt "$foo = 1".toList, Stmt.let_stmt "$FOO = 2".toList]).vars =
      [some ⟨"foo".toList, "1".toList, [], false, false⟩,
       some ⟨"FOO".toList, "2".toList, [], false, false⟩] ∧
    local_getenv false (run sample_nocase (init_variables (start [] []))
      [Stmt.let_stmt "$foo = 1".toList, Stmt.let_stmt "$FOO = 2".toList]).vars "FOO".toList =
      "1".toList := by
  decide

/-! ## Statements of `unlet` -/

theorem copy_name_run (name acc tail : CStr)
    (h : ∀ c ∈ name, char_is_one_of ENV_VAR_NAME_CHARS c = true)
    (hl : acc.length + name.length ≤ VAR_NAME_MAX)
    (hstop : ∀ d rest, tail = d :: rest →
      char_is_one_of ENV_VAR_NAME_CHARS d = false ∨ acc.length + name.length = VAR_NAME_MAX) :
    copy_name (name ++ tail) acc = (tail, acc ++ name) := by
  induction name generalizing acc with
  | nil =>
    cases tail with
    | nil => simp [copy_name]
    | cons d rest =>
      rcases hstop d rest rfl with hd | hfull
      · simp [copy_name, hd]
      · have : ¬ acc.length < VAR_NAME_MAX := by
          simp only [List.length_nil, Nat.add_zero] at hfull
          omega
        simp [copy_name, this]
  | cons c rest ih =>
    have hc : char_is_one_of ENV_VAR_NAME_CHARS c = true := h c (List.mem_cons_self _ _)
    have hlt : acc.length < VAR_NAME_MAX := by
      simp only [List.length_cons] at hl
      omega
    rw [List.cons_append, copy_name, if_pos ⟨hc, hlt⟩]
    rw [ih (acc ++ [c]) (fun d hd => h d (List.mem_cons_of_mem _ hd))
      (by simp only [List.length_append, List.length_cons, List.length_nil] at hl ⊢; omega)
      (by
        intro d r hd
        rcases hstop d r hd with h1 | h1
        · exact Or.inl h1
        · refine Or.inr ?_
          simp only [List.length_append, List.length_cons, List.length_nil] at h1 ⊢
          omega)]
    simp

theorem skip_whitespace_all (ws : CStr) (hws : ∀ s ∈ ws, isspace s = true) :
    skip_whitespace ws = [] := by
  induction ws with
  | nil => rfl
  | cons s ws ih =>
    simp only [skip_whitespace, hws s (List.mem_cons_self _ _), if_true]
    exact ih (fun t ht => hws t (List.mem_cons_of_mem _ ht))

/-- Whitespace in front of a text that is empty or begins with another
character is all that `skip_whitespace` skips. -/
theorem skip_whitespace_before (ws tail : CStr) (hws : ∀ s ∈ ws, isspace s = true)
    (htail : ∀ d rest, tail = d :: rest → isspace d = false) :
    skip_whitespace (ws ++ tail) = tail := by
  cases tail with
  | nil => simpa using skip_whitespace_all ws hws
  | cons d rest => exact skip_whitespace_run ws rest d hws (htail d rest rfl)

/-- One turn of the loop of `unlet_variables` on a well-formed token
`$NAME` with the whitespace after it. -/
theorem unlet_loop_token {σ : Type} (X : Externals σ) (fuel : Nat) (name ws tail : CStr)
    (w : State σ) (error : Int)
    (hname : ∀ c ∈ name, char_is_one_of ENV_VAR_NAME_CHARS c = true)
    (hlen : name.length ≤ VAR_NAME_MAX) (hws : ∀ s ∈ ws, isspace s = true)
    (hsep : ws ≠ [] ∨ tail = [])
    (htail : ∀ d rest, tail = d :: rest → isspace d = false) :
    unlet_loop X (fuel + 1) ('$' :: name ++ ws ++ tail) w error =
      unlet_loop X fuel tail (unlet_one X w name).2 (error + (unlet_one X w name).1) := by
  have hcopy : copy_name (name ++ (ws ++ tail)) [] = (ws ++ tail, name) := by
    have := copy_name_run name [] (ws ++ tail) hname (by simpa using hlen) (by
      intro d rest hd
      left
      cases ws with
      | nil =>
        rcases hsep with h | h
        · exact absurd rfl h
        · subst h
          simp at hd
      | cons s ws1 =>
        simp only [List.cons_append, List.cons.injEq] at hd
        rw [← hd.1]
        exact isspace_not_name_char s (hws s (List.mem_cons_self _ _)))
    simpa using this
  have htr : trailing_chars (ws ++ tail) = false := by
    cases ws with
    | nil =>
      rcases hsep with h | h
      · exact absurd rfl h
      · subst h
        rfl
    | cons s ws1 => simp [trailing_chars, hws s (List.mem_cons_self _ _)]
  simp only [List.cons_append, List.append_assoc]
  rw [unlet_loop]
  simp only [decide_True, if_true, hcopy, htr, Bool.false_eq_true, if_false,
    skip_whitespace_before ws tail hws htail]
  rw [if_neg (by decide)]

theorem tokens_ok_cons (t : CStr × CStr) (rest : List (CStr × CStr))
    (h : tokens_ok (t :: rest) = true) :
    (∀ c ∈ t.1, char_is_one_of ENV_VAR_NAME_CHARS c = true) ∧ t.1.length ≤ VAR_NAME_MAX ∧
    (∀ s ∈ t.2, isspace s = true) ∧ (rest ≠ [] → t.2 ≠ []) ∧ tokens_ok rest = true := by
  simp only [tokens_ok, Bool.and_eq_true, List.all_eq_true, decide_eq_true_eq, Bool.or_eq_true,
    List.isEmpty_iff, Bool.not_eq_true', List.isEmpty_eq_false] at h
  obtain ⟨⟨⟨⟨h1, h2⟩, h3⟩, h4⟩, h5⟩ := h
  refine ⟨h1, h2, h3, ?_, h5⟩
  intro hne
  rcases h4 with h4 | h4
  · exact absurd h4 hne
  · exact h4

theorem render_tokens_head (toks : List (CStr × CStr)) (tail : CStr)
    (htail : ∀ d rest, tail = d :: rest → isspace d = false) :
    ∀ d rest, render_tokens toks ++ tail = d :: rest → isspace d = false := by
  intro d rest hd
  cases toks with
  | nil => exact htail d rest (by simpa [render_tokens] using hd)
  | cons t toks1 =>
    simp only [render_tokens, List.cons_append, List.cons.injEq] at hd
    rw [← hd.1]
    decide

/-- The loop of `unlet_variables` on well-formed tokens followed by `tail`
takes one turn per token, does `unlet_one` on every name, and goes on with
`tail`. -/
theorem unlet_loop_tokens {σ : Type} (X : Externals σ) (toks : List (CStr × CStr))
    (tail : CStr) (fuel : Nat) (w : State σ) (error : Int) (hok : tokens_ok toks = true)
    (hsep : tail ≠ [] → ∀ t ∈ toks, t.2 ≠ [])
    (htail : ∀ d rest, tail = d :: rest → isspace d = false) :
    unlet_loop X (toks.length + fuel) (render_tokens toks ++ tail) w error =
      unlet_loop X fuel tail (unlet_each X (toks.map Prod.fst) w error).2
        (unlet_each X (toks.map Prod.fst) w error).1 := by
  induction toks generalizing w error with
  | nil => simp [render_tokens, unlet_each]
  | cons t rest ih =>
    obtain ⟨hname, hlen, hws, hnext, hrest⟩ := tokens_ok_cons t rest hok
    have hstep := unlet_loop_token X (rest.length + fuel) t.1 t.2 (render_tokens rest ++ tail)
      w error hname hlen hws (by
        by_cases hws0 : t.2 = []
        · right
          have hr : rest = [] := by
            by_contra hne
            exact hnext hne hws0
          have ht : tail = [] := by
            by_contra hne
            exact hsep hne t (List.mem_cons_self _ _) hws0
          subst hr
          subst ht
          rfl
        · exact Or.inl hws0) (render_tokens_head rest tail htail)
    have hl : (t :: rest).length + fuel = rest.length + fuel + 1 := by
      simp only [List.length_cons]
      omega
    rw [hl]
    simp only [render_tokens, List.append_assoc, List.cons_append] at hstep ⊢
    rw [hstep, ih _ _ hrest (fun hne t1 ht1 => hsep hne t1 (List.mem_cons_of_mem _ ht1))]
    simp [unlet_each]

theorem unlet_loop_nil {σ : Type} (X : Externals σ) (fuel : Nat) (w : State σ) (error : Int) :
    unlet_loop X fuel [] w error = (error, w) := by
  cases fuel <;> rfl

theorem render_tokens_length (toks : List (CStr × CStr)) :
    toks.length ≤ (render_tokens toks).length := by
  induction toks with
  | nil => simp
  | cons t rest ih =>
    simp only [render_tokens, List.length_cons, List.cons_append, List.length_append]
    omega

theorem unlet_one_opts {σ : Type} (X : Externals σ) (w : State σ) (name : CStr) :
    (unlet_one X w name).2.opts = w.opts := by
  unfold unlet_one
  split
  · rfl
  · split
    · rfl
    · split <;> rfl

theorem token_fails_iff (cs : Bool) (vars : List Slot) (name : CStr) :
    token_fails cs vars name = true ↔
      (name = [] ∨ find_record cs vars name = none ∨
        ∃ i r, find_record cs vars name = some (i, r) ∧ r.removed = true) := by
  unfold token_fails
  by_cases hne : name = []
  · simp [hne]
  · cases hf : find_record cs vars name with
    | none => simp [hne]
    | some q =>
      obtain ⟨i, r⟩ := q
      simp only [hne, decide_False, Bool.false_or, false_or, Option.some.injEq, Prod.mk.injEq,
        reduceCtorEq]
      constructor
      · intro h
        exact ⟨i, r, ⟨rfl, rfl⟩, h⟩
      · rintro ⟨_, _, ⟨rfl, rfl⟩, h⟩
        exact h

/-- The turns of the loop on well-formed tokens do what the spec says of
the tokens. -/
theorem unlet_each_spec {σ : Type} (X : Externals σ) (names : List CStr) (w : State σ)
    (error : Int) :
    (unlet_each X names w error).1 =
      error + ((unlet_tokens_spec X.case_sensitive names w.vars w.environ).1.length : Int) ∧
    (unlet_each X names w error).2.vars =
      (unlet_tokens_spec X.case_sensitive names w.vars w.environ).2.1 ∧
    (unlet_each X names w error).2.environ =
      (unlet_tokens_spec X.case_sensitive names w.vars w.environ).2.2 ∧
    (unlet_each X names w error).2.opts = w.opts := by
  induction names generalizing w error with
  | nil => simp [unlet_each, unlet_tokens_spec]
  | cons name rest ih =>
    obtain ⟨ih1, ih2, ih3, ih4⟩ := ih (unlet_one X w name).2 (error + (unlet_one X w name).1)
    simp only [unlet_each]
    rw [ih1, ih2, ih3, ih4, unlet_one_opts]
    by_cases hfail : token_fails X.case_sensitive w.vars name = true
    · obtain ⟨h1, h2, h3⟩ := unlet_one_miss X w name ((token_fails_iff _ _ _).1 hfail)
      rw [h1, h2, h3]
      simp only [unlet_tokens_spec, hfail, if_true, List.length_cons, Nat.cast_add, Nat.cast_one]
      exact ⟨by omega, by trivial, by trivial, by trivial⟩
    · have hmiss := fun h => hfail ((token_fails_iff _ _ _).2 h)
      have hne : name ≠ [] := fun hc => hmiss (Or.inl hc)
      cases hf : find_record X.case_sensitive w.vars name with
      | none => exact absurd (Or.inr (Or.inl hf)) hmiss
      | some q =>
        obtain ⟨i, r⟩ := q
        have hr : r.removed = false := by
          cases hrr : r.removed with
          | false => rfl
          | true => exact absurd (Or.inr (Or.inr ⟨i, r, hf, hrr⟩)) hmiss
        rw [unlet_one_hit X w name i r hne hf hr]
        simp only [unlet_tokens_spec, hfail, Bool.false_eq_true, if_false, hf, free_record]
        exact ⟨by omega, by trivial, by trivial, by trivial⟩

/-- C13: for an unlet statement made only of `$NAME` tokens separated by
whitespace, the result of `unlet_variables` is the number of the tokens
that, when their turn comes, have an empty name or name no record or a
tombstone; these tokens change neither the registry nor the OS environment
and the tokens after them are still processed; every other token is unset
(tombstoned when inherited, erased otherwise, and removed from the OS
environment); the result is 0 exactly when no token was counted. -/
theorem unlet_tokens_result {σ : Type} (X : Externals σ) (w : State σ)
    (toks : List (CStr × CStr)) (hok : tokens_ok toks = true) :
    (unlet_variables X w (render_tokens toks)).1 =
      ((unlet_tokens_spec X.case_sensitive (toks.map Prod.fst) w.vars w.environ).1.length : Int) ∧
    (unlet_variables X w (render_tokens toks)).2.vars =
      (unlet_tokens_spec X.case_sensitive (toks.map Prod.fst) w.vars w.environ).2.1 ∧
    (unlet_variables X w (render_tokens toks)).2.environ =
      (unlet_tokens_spec X.case_sensitive (toks.map Prod.fst) w.vars w.environ).2.2 ∧
    (unlet_variables X w (render_tokens toks)).2.opts = w.opts ∧
    ((unlet_variables X w (render_tokens toks)).1 = 0 ↔
      (unlet_tokens_spec X.case_sensitive (toks.map Prod.fst) w.vars w.environ).1 = []) := by
  have hlen := render_tokens_length toks
  have hfuel : (render_tokens toks).length + 1 =
      toks.length + ((render_tokens toks).length + 1 - toks.length) := by omega
  have hrun := unlet_loop_tokens X toks [] ((render_tokens toks).length + 1 - toks.length) w 0
    hok (fun h => absurd rfl h) (fun d rest h => by cases h)
  rw [List.append_nil, ← hfuel, unlet_loop_nil] at hrun
  obtain ⟨h1, h2, h3, h4⟩ := unlet_each_spec X (toks.map Prod.fst) w 0
  unfold unlet_variables
  rw [hrun]
  refine ⟨by simpa using h1, h2, h3, h4, ?_⟩
  simp only at h1 ⊢
  rw [h1]
  constructor
  · intro h
    have : (unlet_tokens_spec X.case_sensitive (toks.map Prod.fst) w.vars w.environ).1.length = 0 := by
      omega
    exact List.length_eq_zero.1 this
  · intro h
    rw [h]
    rfl

theorem unlet_tokens_result_witness :
    (unlet_variables sample
      (init_variables (start [("PATH".toList, "/bin".toList), ("HOME".toList, "/".toList)] []))
      "$PATH $NOPE  $HOME".toList).1 = 1 ∧
    (unlet_variables sample
      (init_variables (start [("PATH".toList, "/bin".toList), ("HOME".toList, "/".toList)] []))
      "$PATH $NOPE  $HOME".toList).2.environ = [] :=
  have h := unlet_tokens_result sample
    (init_variables (start [("PATH".toList, "/bin".toList), ("HOME".toList, "/".toList)] []))
    [("PATH".toList, " ".toList), ("NOPE".toList, "  ".toList), ("HOME".toList, [])]
    (by decide)
  ⟨h.1, h.2.2.1⟩

/-- C12: when the name of a `$`-token is followed at once by a character
that is not whitespace (a character outside the alphabet, or any character
once the name has `VAR_NAME_MAX` characters), `unlet_variables` stops there:
the result is one more than the count of the tokens before, so it is not 0,
and the registry and the OS environment are what the tokens before left;
neither this token nor anything after it is processed. -/
theorem unlet_stops_at_trailing {σ : Type} (X : Externals σ) (w : State σ)
    (pre : List (CStr × CStr)) (name : CStr) (c : Char) (rest : CStr)
    (hok : tokens_ok pre = true) (hsep : ∀ t ∈ pre, t.2 ≠ [])
    (hname : ∀ d ∈ name, char_is_one_of ENV_VAR_NAME_CHARS d = true)
    (hlen : name.length ≤ VAR_NAME_MAX) (hc : isspace c = false)
    (hstop : char_is_one_of ENV_VAR_NAME_CHARS c = false ∨ name.length = VAR_NAME_MAX) :
    (unlet_variables X w (render_tokens pre ++ '$' :: name ++ c :: rest)).1 =
      ((unlet_tokens_spec X.case_sensitive (pre.map Prod.fst) w.vars w.environ).1.length : Int)
        + 1 ∧
    (unlet_variables X w (render_tokens pre ++ '$' :: name ++ c :: rest)).1 ≠ 0 ∧
    (unlet_variables X w (render_tokens pre ++ '$' :: name ++ c :: rest)).2.vars =
      (unlet_tokens_spec X.case_sensitive (pre.map Prod.fst) w.vars w.environ).2.1 ∧
    (unlet_variables X w (render_tokens pre ++ '$' :: name ++ c :: rest)).2.environ =
      (unlet_tokens_spec X.case_sensitive (pre.map Prod.fst) w.vars w.environ).2.2 := by
  have hlenp := render_tokens_length pre
  obtain ⟨f, hf⟩ : ∃ f, (render_tokens pre ++ '$' :: name ++ c :: rest).length + 1 =
      pre.length + (f + 1) := by
    refine ⟨(render_tokens pre ++ '$' :: name ++ c :: rest).length - pre.length, ?_⟩
    simp only [List.length_append, List.length_cons]
    omega
  have hrun := unlet_loop_tokens X pre ('$' :: name ++ c :: rest) (f + 1) w 0 hok
    (fun _ => hsep) (by
      intro d r hd
      simp only [List.cons_append, List.cons.injEq] at hd
      rw [← hd.1]
      decide)
  have hcopy : copy_name (name ++ c :: rest) [] = (c :: rest, name) := by
    have := copy_name_run name [] (c :: rest) hname (by simpa using hlen) (by
      intro d r hd
      simp only [List.cons.injEq] at hd
      rw [← hd.1]
      rcases hstop with h | h
      · exact Or.inl h
      · exact Or.inr (by simpa using h))
    simpa using this
  have hturn : ∀ (w1 : State σ) (e : Int),
      unlet_loop X (f + 1) ('$' :: name ++ c :: rest) w1 e =
        (e + 1, err w1 ["Trailing characters".toList]) := by
    intro w1 e
    simp only [List.cons_append]
    rw [unlet_loop]
    simp [hcopy, trailing_chars, hc]
  obtain ⟨h1, h2, h3, _⟩ := unlet_each_spec X (pre.map Prod.fst) w 0
  unfold unlet_variables
  rw [hf]
  have happ : render_tokens pre ++ '$' :: name ++ c :: rest =
      render_tokens pre ++ ('$' :: name ++ c :: rest) := by simp
  rw [happ, hrun, hturn]
  simp only [err]
  rw [h1, h2, h3]
  refine ⟨by omega, by omega, rfl, rfl⟩

theorem unlet_stops_at_trailing_witness :
    (unlet_variables sample
      (init_variables (start [("PATH".toList, "/bin".toList), ("HOME".toList, "/".toList)] []))
      "$PATH $HOME-x $PATH".toList).1 = 1 ∧
    (unlet_variables sample
      (init_variables (start [("PATH".toList, "/bin".toList), ("HOME".toList, "/".toList)] []))
      "$PATH $HOME-x $PATH".toList).2.environ = [("HOME".toList, "/".toList)] :=
  have h := unlet_stops_at_trailing sample
    (init_variables (start [("PATH".toList, "/bin".toList), ("HOME".toList, "/".toList)] []))
    [("PATH".toList, " ".toList)] "HOME".toList '-' "x $PATH".toList
    (by decide) (by decide) (by decide) (by decide) (by decide) (by decide)
  ⟨h.1, h.2.2.2⟩

/-- C11, the failing input: with `BAR` live, `unlet foo $BAR` returns 1 and
leaves `BAR` set in the registry and in the OS environment, while
`unlet $BAR` alone returns 0 and unsets it: after the token `foo` the loop
has already moved to `$BAR` when it calls `skip_non_whitespace`, which then
skips `$BAR`. -/
theorem unlet_skips_token_after_unsupported :
    (unlet_variables sample (init_variables (start [("BAR".toList, "1".toList)] []))
      "foo $BAR".toList).1 = 1 ∧
    local_getenv true (unlet_variables sample
      (init_variables (start [("BAR".toList, "1".toList)] []))
      "foo $BAR".toList).2.vars "BAR".toList = "1".toList ∧
    env_get (unlet_variables sample (init_variables (start [("BAR".toList, "1".toList)] []))
      "foo $BAR".toList).2.environ "BAR".toList = some "1".toList ∧
    (unlet_variables sample (init_variables (start [("BAR".toList, "1".toList)] []))
      "$BAR".toList).1 = 0 ∧
    env_get (unlet_variables sample (init_variables (start [("BAR".toList, "1".toList)] []))
      "$BAR".toList).2.environ "BAR".toList = none := by
  decide

/-! ## Classification of the target and of the operator -/

/-- What `parse_name` gives with the buffer of `let_variables`: nothing
unless the input begins with a first character, and otherwise that
character with the name characters after it, up to `VAR_NAME_MAX` in all. -/
theorem parse_name_eq (first other : List Char) (c : Char) (r : CStr) :
    parse_name first other (VAR_NAME_MAX + 1) (c :: r) =
      if char_is_one_of first c = true then
        some (r.drop (min 63 (r.takeWhile (char_is_one_of other)).length),
          c :: r.take (min 63 (r.takeWhile (char_is_one_of other)).length))
      else none := by
  by_cases hc : char_is_one_of first c = true
  · have := parse_name_do_eq other 65 c r [] (by omega)
    simp only [parse_name, hc, show VAR_NAME_MAX + 1 = 65 from rfl]
    simpa using this
  · simp [parse_name, hc]

theorem extract_name_finish_parse (first other : List Char) (type : VariableType) (c : Char)
    (r : CStr) (hc : char_is_one_of first c = true) :
    extract_name_finish (c :: r) type (parse_name first other (VAR_NAME_MAX + 1) (c :: r)) =
      NameResult.ok (r.drop (min 63 (r.takeWhile (char_is_one_of other)).length)) type
        (c :: r.take (min 63 (r.takeWhile (char_is_one_of other)).length)) := by
  rw [parse_name_eq, if_pos hc]
  simp [extract_name_finish]

/-- C21: `extract_name` classifies the target by its leading characters.
After `&g:` the kind is `VT_GLOBAL_OPTION` and after `&l:` it is
`VT_LOCAL_OPTION`, the name being read after the two characters of the
prefix; any other text after `&` that begins a name gives `VT_ANY_OPTION`
with the name read right after the `&`; an input that begins with neither
`$` nor `&` fails with the input position where it was. -/
theorem extract_name_classifies {σ : Type} (X : Externals σ) :
    (∀ c r, char_is_one_of X.OPT_NAME_FIRST_CHAR c = true →
      extract_name X ('&' :: 'g' :: ':' :: c :: r) (VAR_NAME_MAX + 1) =
        NameResult.ok
          (r.drop (min 63 (r.takeWhile (char_is_one_of X.OPT_NAME_CHARS)).length))
          VT_GLOBAL_OPTION
          (c :: r.take (min 63 (r.takeWhile (char_is_one_of X.OPT_NAME_CHARS)).length))) ∧
    (∀ c r, char_is_one_of X.OPT_NAME_FIRST_CHAR c = true →
      extract_name X ('&' :: 'l' :: ':' :: c :: r) (VAR_NAME_MAX + 1) =
        NameResult.ok
          (r.drop (min 63 (r.takeWhile (char_is_one_of X.OPT_NAME_CHARS)).length))
          VT_LOCAL_OPTION
          (c :: r.take (min 63 (r.takeWhile (char_is_one_of X.OPT_NAME_CHARS)).length))) ∧
    (∀ c r, char_is_one_of X.OPT_NAME_FIRST_CHAR c = true →
      ¬ ['l', ':'] <+: c :: r → ¬ ['g', ':'] <+: c :: r →
      extract_name X ('&' :: c :: r) (VAR_NAME_MAX + 1) =
        NameResult.ok
          (r.drop (min 63 (r.takeWhile (char_is_one_of X.OPT_NAME_CHARS)).length))
          VT_ANY_OPTION
          (c :: r.take (min 63 (r.takeWhile (char_is_one_of X.OPT_NAME_CHARS)).length))) ∧
    (∀ inp, ¬ ['$'] <+: inp → ¬ ['&'] <+: inp →
      extract_name X inp (VAR_NAME_MAX + 1) =
        NameResult.fail inp "Incorrect variable type".toList) := by
  refine ⟨?_, ?_, ?_, ?_⟩
  · intro c r hc
    simp only [extract_name]
    exact extract_name_finish_parse _ _ _ c r hc
  · intro c r hc
    simp only [extract_name]
    exact extract_name_finish_parse _ _ _ c r hc
  · intro c r hc hl hg
    have key := extract_name_finish_parse X.OPT_NAME_FIRST_CHAR X.OPT_NAME_CHARS VT_ANY_OPTION
      c r hc
    unfold extract_name
    split
    · rename_i h
      cases h
    · rename_i rest h
      cases h
      split
      · rename_i rest1 h1
        cases h1
        exact absurd ⟨rest1, rfl⟩ hl
      · rename_i rest1 h1
        cases h1
        exact absurd ⟨rest1, rfl⟩ hg
      · exact key
    · rename_i h1 h2
      exact absurd rfl (h2 _)
  · intro inp h1 h2
    unfold extract_name
    split
    · rename_i rest
      exact absurd ⟨rest, rfl⟩ h1
    · rename_i rest
      exact absurd ⟨rest, rfl⟩ h2
    · rfl

theorem extract_name_classifies_witness :
    extract_name sample "&lines = 1".toList (VAR_NAME_MAX + 1) =
      NameResult.ok " = 1".toList VT_ANY_OPTION "lines".toList ∧
    extract_name sample "&l:n = 1".toList (VAR_NAME_MAX + 1) =
      NameResult.ok " = 1".toList VT_LOCAL_OPTION "n".toList :=
  ⟨(extract_name_classifies sample).2.2.1 'l' "ines = 1".toList (by decide) (by decide)
      (by decide),
   (extract_name_classifies sample).2.1 'n' " = 1".toList (by decide)⟩

/-- C22: `extract_op` succeeds exactly on an input that begins with `=`,
`.=`, `+=` or `-=`; it gives `VO_ASSIGN`, `VO_APPEND`, `VO_ADD` or `VO_SUB`
and the input position right after the one or two characters of the
operator; on every other input it fails. -/
theorem extract_op_spec (inp : CStr) :
    (['='] <+: inp → extract_op inp = OpResult.ok (inp.drop 1) VO_ASSIGN) ∧
    (['.', '='] <+: inp → extract_op inp = OpResult.ok (inp.drop 2) VO_APPEND) ∧
    (['+', '='] <+: inp → extract_op inp = OpResult.ok (inp.drop 2) VO_ADD) ∧
    (['-', '='] <+: inp → extract_op inp = OpResult.ok (inp.drop 2) VO_SUB) ∧
    (¬ ['='] <+: inp → ¬ ['.', '='] <+: inp → ¬ ['+', '='] <+: inp → ¬ ['-', '='] <+: inp →
      ∃ r line, extract_op inp = OpResult.fail r line) := by
  refine ⟨?_, ?_, ?_, ?_, ?_⟩
  · rintro ⟨rest, rfl⟩
    rfl
  · rintro ⟨rest, rfl⟩
    rfl
  · rintro ⟨rest, rfl⟩
    rfl
  · rintro ⟨rest, rfl⟩
    rfl
  · intro h1 h2 h3 h4
    have hfail : ∀ (s : CStr) (vo : VariableOperation), ¬ ['='] <+: s →
        ∃ r line, extract_op_eq s vo = OpResult.fail r line := by
      intro s vo hs
      unfold extract_op_eq
      split
      · rename_i rest
        exact absurd ⟨rest, rfl⟩ hs
      · exact ⟨_, _, rfl⟩
    unfold extract_op
    split
    · exact hfail _ _ (fun ⟨rest, hc⟩ => h2 ⟨rest, by simpa using hc⟩)
    · exact hfail _ _ (fun ⟨rest, hc⟩ => h3 ⟨rest, by simpa using hc⟩)
    · exact hfail _ _ (fun ⟨rest, hc⟩ => h4 ⟨rest, by simpa using hc⟩)
    · exact hfail _ _ h1

theorem extract_op_spec_witness :
    extract_op ".= b".toList = OpResult.ok " b".toList VO_APPEND ∧
    ∃ r line, extract_op ". = b".toList = OpResult.fail r line :=
  ⟨(extract_op_spec ".= b".toList).2.1 (by decide),
   (extract_op_spec ". = b".toList).2.2.2.2 (by decide) (by decide) (by decide) (by decide)⟩

/-! ## Options without a global definition -/

/-- A `:let` statement that the parser and the evaluator accept and whose
operation is valid does `perform_op`. -/
theorem let_variables_reaches_perform_op {σ : Type} (X : Externals σ) (w : State σ)
    (cmd rest name rest1 : CStr) (vt : VariableType) (vo : VariableOperation)
    (hn : extract_name X cmd (VAR_NAME_MAX + 1) = NameResult.ok rest vt name)
    (ho : extract_op (skip_whitespace rest) = OpResult.ok rest1 vo)
    (he : (X.parse w.opts (local_getenv X.case_sensitive w.vars)
      (skip_whitespace rest1)).error = PE_NO_ERROR)
    (hp : (X.parse w.opts (local_getenv X.case_sensitive w.vars)
        (skip_whitespace rest1)).last_position = none ∨
      (X.parse w.opts (local_getenv X.case_sensitive w.vars)
        (skip_whitespace rest1)).last_position = some [])
    (hv : is_valid_op X w.opts name vt vo = true) :
    let_variables X w cmd =
      perform_op X w name vt vo
        (X.parse w.opts (local_getenv X.case_sensitive w.vars) (skip_whitespace rest1)).value := by
  unfold let_variables
  rw [hn]
  dsimp only
  rw [ho]
  dsimp only
  rw [if_neg (by simp [he]), if_neg (by
    intro hc
    rcases hp with h | h
    · exact hc.1 h
    · exact hc.2 h), if_neg (by simp [hv])]

/-- C23: for an option name with no global-scope definition `is_valid_op`
is true for every operator and every option kind; a statement on such a
name that the parser and the evaluator accept therefore goes on to
`perform_op`, and it is `perform_op` that reports the unknown global option
for the kind `VT_GLOBAL_OPTION`. -/
theorem undefined_option_passes_validation {σ : Type} (X : Externals σ) (w : State σ)
    (name : CStr) (hg : X.find_option w.opts name OPT_GLOBAL = none) :
    (∀ vt vo, vt ≠ VT_ENVVAR → is_valid_op X w.opts name vt vo = true) ∧
    (∀ cmd rest rest1 vt vo, vt ≠ VT_ENVVAR →
      extract_name X cmd (VAR_NAME_MAX + 1) = NameResult.ok rest vt name →
      extract_op (skip_whitespace rest) = OpResult.ok rest1 vo →
      (X.parse w.opts (local_getenv X.case_sensitive w.vars)
        (skip_whitespace rest1)).error = PE_NO_ERROR →
      (X.parse w.opts (local_getenv X.case_sensitive w.vars)
        (skip_whitespace rest1)).last_position = some [] →
      let_variables X w cmd =
        perform_op X w name vt vo
          (X.parse w.opts (local_getenv X.case_sensitive w.vars)
            (skip_whitespace rest1)).value) ∧
    (∀ vo value, perform_op X w name VT_GLOBAL_OPTION vo value =
      (1, err w [unknown_option_line OPT_GLOBAL name])) := by
  have hv : ∀ vt vo, vt ≠ VT_ENVVAR → is_valid_op X w.opts name vt vo = true := by
    intro vt vo hvt
    simp [is_valid_op, hvt, hg]
  refine ⟨hv, ?_, ?_⟩
  · intro cmd rest rest1 vt vo hvt hn ho he hp
    exact let_variables_reaches_perform_op X w cmd rest name rest1 vt vo hn ho he (Or.inr hp)
      (hv vt vo hvt)
  · intro vo value
    simp [perform_op, perform_opt_op, hg, err]

theorem undefined_option_passes_validation_witness :
    sample.find_option [] "zz".toList OPT_GLOBAL = none ∧
    is_valid_op sample [] "zz".toList VT_LOCAL_OPTION VO_APPEND = true ∧
    let_variables sample (start [] []) "&g:zz = 3".toList =
      (1, err (start [] []) [unknown_option_line OPT_GLOBAL "zz".toList]) :=
  have h := undefined_option_passes_validation sample (start [] []) "zz".toList rfl
  ⟨rfl, h.1 VT_LOCAL_OPTION VO_APPEND (by decide),
   (h.2.1 "&g:zz = 3".toList " = 3".toList " 3".toList VT_GLOBAL_OPTION VO_ASSIGN (by decide)
      (by decide) (by decide) rfl rfl).trans (h.2.2 VO_ASSIGN "3".toList)⟩

/-- C24, as stated, fails: the name `l` has a local-scope definition and no
global-scope one, and when the operation on the local option fails,
`perform_op` returns 1 for that failure alone; the missing global
definition is not looked up and not reported. -/
theorem any_option_local_failure_returns_at_once :
    sample.find_option [] "l".toList OPT_LOCAL = some ⟨"l".toList, OPT_LOCAL, OPT_STR⟩ ∧
    sample.find_option [] "l".toList OPT_GLOBAL = none ∧
    perform_op sample (start [] []) "l".toList VT_ANY_OPTION VO_SUB [] =
      (1, { vars := [], environ := [], vle_err := ["Invalid argument".toList], opts := [] }) :=
  ⟨rfl, rfl, rfl⟩

/-- C24, amended: an `AnyOption` operation is not atomic.  For an option
name with a local-scope definition and no global-scope one, `perform_op`
first applies the operation to the local option; when that succeeds the
store keeps the result and `perform_op` then returns 1 with the
unknown-global-option line; when it fails `perform_op` returns 1 at once,
with what the failed operation left. -/
theorem any_option_not_atomic {σ : Type} (X : Externals σ) (w : State σ) (name : CStr)
    (vo : VariableOperation) (value : CStr) (lopt : opt_t)
    (hl : X.find_option w.opts name OPT_LOCAL = some lopt)
    (hg : X.find_option (opt_primitive X vo w.opts lopt value).store name OPT_GLOBAL = none) :
    ((opt_primitive X vo w.opts lopt value).code = 0 →
      perform_op X w name VT_ANY_OPTION vo value =
        (1, { w with
              opts := (opt_primitive X vo w.opts lopt value).store
              vle_err := w.vle_err ++ (opt_primitive X vo w.opts lopt value).lines
                ++ [unknown_option_line OPT_GLOBAL name] })) ∧
    ((opt_primitive X vo w.opts lopt value).code ≠ 0 →
      perform_op X w name VT_ANY_OPTION vo value =
        (1, { w with
              opts := (opt_primitive X vo w.opts lopt value).store
              vle_err := w.vle_err ++ (opt_primitive X vo w.opts lopt value).lines })) := by
  constructor
  · intro hc
    simp [perform_op, perform_opt_op, hl, hg, hc]
  · intro hc
    simp [perform_op, perform_opt_op, hl, hc]

theorem any_option_not_atomic_witness :
    perform_op sample (start [] []) "l".toList VT_ANY_OPTION VO_ASSIGN "3".toList =
      (1, { vars := [], environ := [],
            vle_err := [unknown_option_line OPT_GLOBAL "l".toList],
            opts := [('=', ⟨"l".toList, OPT_LOCAL, OPT_STR⟩, "3".toList)] }) :=
  (any_option_not_atomic sample (start [] []) "l".toList VO_ASSIGN "3".toList
    ⟨"l".toList, OPT_LOCAL, OPT_STR⟩ rfl rfl).1 rfl

/-! ## Names longer than the buffer -/

theorem name_char_not_operator (d : Char) (h : char_is_one_of ENV_VAR_NAME_CHARS d = true) :
    d ≠ '.' ∧ d ≠ '+' ∧ d ≠ '-' ∧ d ≠ '=' ∧ isspace d = false := by
  have hall : ∀ e ∈ ENV_VAR_NAME_CHARS,
      e ≠ '.' ∧ e ≠ '+' ∧ e ≠ '-' ∧ e ≠ '=' ∧ isspace e = false := by decide
  exact hall d (by simpa [char_is_one_of] using h)

theorem length_le_takeWhile_append (p : Char → Bool) (run rest : CStr)
    (h : ∀ c ∈ run, p c = true) : run.length ≤ ((run ++ rest).takeWhile p).length := by
  induction run with
  | nil => simp
  | cons c tail ih =>
    have hc : p c = true := h c (List.mem_cons_self _ _)
    simp only [List.cons_append, List.takeWhile_cons, hc, if_true, List.length_cons]
    have := ih (fun d hd => h d (List.mem_cons_of_mem _ hd))
    omega

/-- A text that begins with a name character is not an operator:
`extract_op` fails on it, after whitespace skipping left it alone. -/
theorem extract_op_name_char (d : Char) (t : CStr)
    (h : char_is_one_of ENV_VAR_NAME_CHARS d = true) :
    extract_op (skip_whitespace (d :: t)) =
      OpResult.fail (d :: t) ("Incorrect :let statement: '=' expected at ".toList ++ d :: t) := by
  obtain ⟨h1, h2, h3, h4, h5⟩ := name_char_not_operator d h
  have hs : skip_whitespace (d :: t) = d :: t := by simp [skip_whitespace, h5]
  rw [hs]
  unfold extract_op
  split
  · rename_i rest heq
    cases heq
    exact absurd rfl h1
  · rename_i rest heq
    cases heq
    exact absurd rfl h2
  · rename_i rest heq
    cases heq
    exact absurd rfl h3
  · unfold extract_op_eq
    split
    · rename_i rest heq
      cases heq
      exact absurd rfl h4
    · rfl

/-- What is left of a run of more than `n` characters after its first `n`
begins with a character of the run. -/
theorem drop_of_long_run (run : CStr) (n : Nat) (h : n < run.length) :
    ∃ d t, run.drop n = d :: t ∧ d ∈ run := by
  cases hd : run.drop n with
  | nil =>
    have := congrArg List.length hd
    simp only [List.length_drop, List.length_nil] at this
    omega
  | cons d t =>
    refine ⟨d, t, rfl, ?_⟩
    have hmem : d ∈ run.drop n := by
      rw [hd]
      exact List.mem_cons_self _ _
    exact List.mem_of_mem_drop hmem

/-- C25, as stated, fails: on `$` followed by 65 digits `let_variables`
fails already at name extraction, with the return value 1 and the line of
`extract_name`, not at operator extraction. -/
theorem let_long_digit_run_fails_at_name :
    let_variables sample (start [] []) ('$' :: List.replicate 65 '1' ++ " = x".toList) =
      (1, err (start [] []) ["Incorrect variable name".toList]) :=
  rfl

/-- C25, amended: a name of more than `VAR_NAME_MAX` characters can never be
assigned or unset.  On `$` followed by a run of more than 64 letters, digits
and underscores and anything after it, `let_variables` returns -1 from
operator extraction when the run begins with a letter or an underscore (and
1 from name extraction when it begins with a digit), `unlet_variables`
returns 1 with the trailing-characters error, and in each case nothing but
the error stream changes. -/
theorem long_name_never_set {σ : Type} (X : Externals σ) (w : State σ) (run rest : CStr)
    (hrun : ∀ c ∈ run, char_is_one_of ENV_VAR_NAME_CHARS c = true)
    (hlen : VAR_NAME_MAX < run.length) :
    ((∃ c tail, run = c :: tail ∧ char_is_one_of ENV_VAR_NAME_FIRST_CHAR c = true) →
      let_variables X w ('$' :: run ++ rest) =
        (-1, err w ["Incorrect :let statement: '=' expected at ".toList ++
          (run.drop VAR_NAME_MAX ++ rest)])) ∧
    ((∃ c tail, run = c :: tail ∧ char_is_one_of ENV_VAR_NAME_FIRST_CHAR c = false) →
      let_variables X w ('$' :: run ++ rest) =
        (1, err w ["Incorrect variable name".toList])) ∧
    unlet_variables X w ('$' :: run ++ rest) = (1, err w ["Trailing characters".toList]) := by
  have h64 : VAR_NAME_MAX = 64 := rfl
  refine ⟨?_, ?_, ?_⟩
  · rintro ⟨c, tail, rfl, hc⟩
    have htail : ∀ d ∈ tail, char_is_one_of ENV_VAR_NAME_CHARS d = true :=
      fun d hd => hrun d (List.mem_cons_of_mem _ hd)
    have hl : 63 < tail.length := by
      simp only [List.length_cons, h64] at hlen
      omega
    have htw := length_le_takeWhile_append (char_is_one_of ENV_VAR_NAME_CHARS) tail rest htail
    have hk : min 63 ((tail ++ rest).takeWhile (char_is_one_of ENV_VAR_NAME_CHARS)).length = 63 := by
      omega
    obtain ⟨d, t, hdt, hdmem⟩ := drop_of_long_run tail 63 hl
    have hdrop : (tail ++ rest).drop 63 = d :: (t ++ rest) := by
      rw [List.drop_append_of_le_length (by omega), hdt]
      rfl
    have hn : extract_name X ('$' :: (c :: tail) ++ rest) (VAR_NAME_MAX + 1) =
        NameResult.ok (d :: (t ++ rest)) VT_ENVVAR (c :: (tail ++ rest).take 63) := by
      have := extract_name_finish_parse ENV_VAR_NAME_FIRST_CHAR ENV_VAR_NAME_CHARS VT_ENVVAR c
        (tail ++ rest) hc
      rw [hk, hdrop] at this
      simpa [extract_name] using this
    have ho := extract_op_name_char d (t ++ rest) (htail d hdmem)
    have hmsg : (c :: tail).drop VAR_NAME_MAX ++ rest = d :: (t ++ rest) := by
      rw [h64]
      show tail.drop 63 ++ rest = _
      rw [hdt]
      rfl
    unfold let_variables
    rw [hn]
    dsimp only
    rw [ho, hmsg]
  · rintro ⟨c, tail, rfl, hc⟩
    simp [let_variables, extract_name, parse_name, hc, extract_name_finish]
  · obtain ⟨d, t, hdt, hdmem⟩ := drop_of_long_run run 64 (by rw [← h64]; exact hlen)
    have hsplit : run ++ rest = run.take 64 ++ (d :: (t ++ rest)) := by
      conv_lhs => rw [← List.take_append_drop 64 run, hdt]
      simp
    have hcopy : copy_name (run ++ rest) [] = (d :: (t ++ rest), run.take 64) := by
      rw [hsplit]
      have := copy_name_run (run.take 64) [] (d :: (t ++ rest))
        (fun c hc => hrun c (List.mem_of_mem_take hc))
        (by
          simp only [List.length_nil, List.length_take, h64]
          omega)
        (by
          intro e r he
          right
          simp only [List.length_nil, List.length_take, h64]
          rw [h64] at hlen
          omega)
      simpa using this
    have hsp := (name_char_not_operator d (hrun d hdmem)).2.2.2.2
    unfold unlet_variables
    simp only [List.cons_append, List.length_cons]
    rw [unlet_loop]
    simp [hcopy, trailing_chars, hsp]

theorem long_name_never_set_witness :
    unlet_variables sample (start [] []) ('$' :: List.replicate 65 'A' ++ " ".toList) =
      (1, err (start [] []) ["Trailing characters".toList]) :=
  (long_name_never_set sample (start [] []) (List.replicate 65 'A') " ".toList
    (by decide) (by decide)).2.2

/-! ## Registry and OS environment -/

/-- A change of the registry and of the environment that concerns one name
keeps the mirror: the live records of that name have the new entry, the
others are live records of before with their name and value. -/
theorem Mirrored.step (vars vars1 : List Slot) (environ environ1 : Environ) (n : CStr)
    (h : Mirrored vars environ)
    (hs : ∀ j r1, slot_at vars1 j = some r1 → r1.removed = false →
      (r1.name = n ∧ env_get environ1 n = some r1.val) ∨
      (r1.name ≠ n ∧ ∃ r0, slot_at vars j = some r0 ∧ r0.removed = false ∧
        r0.name = r1.name ∧ r0.val = r1.val))
    (he : ∀ m, m ≠ n → env_get environ1 m = env_get environ m) :
    Mirrored vars1 environ1 := by
  intro j r1 hs1 hr
  rcases hs j r1 hs1 hr with ⟨hn, hv⟩ | ⟨hn, r0, h0, hr0, hn0, hv0⟩
  · rw [hn]
    exact hv
  · rw [he _ hn, ← hn0, ← hv0]
    exact h j r0 h0 hr0

theorem set_envvar_mirrored {σ : Type} (w : State σ) (name val : CStr)
    (hu : names_unique w.vars) (h : Mirrored w.vars w.environ) :
    Mirrored (set_envvar w name val).vars (set_envvar w name val).environ := by
  rw [set_envvar_environ]
  refine Mirrored.step w.vars _ w.environ _ name h ?_
    (fun m hm => env_get_set_other _ _ _ _ hm)
  cases hf : find_record true w.vars name with
  | none =>
    obtain ⟨p, hp, hslots⟩ := set_envvar_new w name val hf
    rw [find_record_none_iff] at hf
    intro j r1 hs1 hr
    rw [hslots j] at hs1
    by_cases hj : j = p
    · simp only [hj, if_true, Option.some.injEq] at hs1
      subst hs1
      exact Or.inl ⟨rfl, env_get_set_same _ _ _⟩
    · simp only [hj, if_false] at hs1
      refine Or.inr ⟨?_, r1, hs1, hr, rfl, rfl⟩
      intro hc
      exact hf j r1 hs1 (by rw [stroscmp_true]; exact hc)
  | some q =>
    obtain ⟨i, r⟩ := q
    obtain ⟨hs, hm, _⟩ := (find_record_some_iff true w.vars name i r).1 hf
    rw [stroscmp_true] at hm
    intro j r1 hs1 hr
    rw [set_envvar_found w name val i r hf j] at hs1
    by_cases hj : j = i
    · simp only [hj, if_true, Option.some.injEq] at hs1
      subst hs1
      exact Or.inl ⟨hm, env_get_set_same _ _ _⟩
    · simp only [hj, if_false] at hs1
      refine Or.inr ⟨?_, r1, hs1, hr, rfl, rfl⟩
      intro hc
      exact hj (hu j i r1 r hs1 hs (by rw [hc, hm]))

theorem append_envvar_mirrored {σ : Type} (w : State σ) (name val : CStr)
    (hu : names_unique w.vars) (h : Mirrored w.vars w.environ) :
    Mirrored (append_envvar true w name val).vars (append_envvar true w name val).environ := by
  cases hf : find_record true w.vars name with
  | none =>
    rw [append_envvar_not_found _ _ _ _ hf]
    exact set_envvar_mirrored w name val hu h
  | some q =>
    obtain ⟨i, r⟩ := q
    obtain ⟨hs, hm, _⟩ := (find_record_some_iff true w.vars name i r).1 hf
    rw [stroscmp_true] at hm
    rw [append_envvar_found _ _ _ _ i r hf]
    refine Mirrored.step w.vars _ w.environ _ name h ?_
      (fun m hm1 => env_get_set_other _ _ _ _ hm1)
    intro j r1 hs1 hr
    simp only at hs1
    rw [slot_at_update_record] at hs1
    by_cases hj : j = i
    · simp only [hj, if_true, hs, Option.map_some', Option.some.injEq] at hs1
      subst hs1
      exact Or.inl ⟨hm, env_get_set_same _ _ _⟩
    · simp only [hj, if_false] at hs1
      refine Or.inr ⟨?_, r1, hs1, hr, rfl, rfl⟩
      intro hc
      exact hj (hu j i r1 r hs1 hs (by rw [hc, hm]))

theorem unlet_one_mirrored {σ : Type} (X : Externals σ) (hcs : X.case_sensitive = true)
    (w : State σ) (name : CStr) (hu : names_unique w.vars) (h : Mirrored w.vars w.environ) :
    Mirrored (unlet_one X w name).2.vars (unlet_one X w name).2.environ := by
  by_cases hmiss : name = [] ∨ find_record X.case_sensitive w.vars name = none ∨
      ∃ i r, find_record X.case_sensitive w.vars name = some (i, r) ∧ r.removed = true
  · obtain ⟨_, h1, h2⟩ := unlet_one_miss X w name hmiss
    rw [h1, h2]
    exact h
  · have hne : name ≠ [] := fun hc => hmiss (Or.inl hc)
    cases hf : find_record X.case_sensitive w.vars name with
    | none => exact absurd (Or.inr (Or.inl hf)) hmiss
    | some q =>
      obtain ⟨i, r⟩ := q
      have hr : r.removed = false := by
        cases hrr : r.removed with
        | false => rfl
        | true => exact absurd (Or.inr (Or.inr ⟨i, r, hf, hrr⟩)) hmiss
      rw [unlet_one_hit X w name i r hne hf hr]
      rw [hcs] at hf
      obtain ⟨hs, hm, _⟩ := (find_record_some_iff true w.vars name i r).1 hf
      rw [stroscmp_true] at hm
      refine Mirrored.step w.vars _ w.environ _ name h ?_
        (fun m hm1 => env_get_remove_other _ _ _ hm1)
      intro j r1 hs1 hr1
      simp only at hs1
      have hother : j ≠ i → slot_at w.vars j = some r1 := by
        intro hj
        by_cases hp : r.from_parent = true
        · rw [if_pos hp, slot_at_update_record] at hs1
          simpa [hj] using hs1
        · rw [if_neg hp, free_record, slot_at_set_none] at hs1
          simpa [hj] using hs1
      by_cases hj : j = i
      · exfalso
        by_cases hp : r.from_parent = true
        · rw [if_pos hp, slot_at_update_record] at hs1
          simp only [hj, if_true, hs, Option.map_some', Option.some.injEq] at hs1
          subst hs1
          simp at hr1
        · rw [if_neg hp, free_record, slot_at_set_none] at hs1
          simp [hj] at hs1
      · have h0 := hother hj
        refine Or.inr ⟨?_, r1, h0, hr1, rfl, rfl⟩
        intro hc
        exact hj (hu j i r1 r h0 hs (by rw [hc, hm]))

theorem perform_op_mirrored {σ : Type} (X : Externals σ) (hcs : X.case_sensitive = true)
    (w : State σ) (name : CStr) (vt : VariableType) (vo : VariableOperation) (value : CStr)
    (hu : names_unique w.vars) (h : Mirrored w.vars w.environ) :
    Mirrored (perform_op X w name vt vo value).2.vars
      (perform_op X w name vt vo value).2.environ := by
  by_cases hvt : vt = VT_ENVVAR
  · unfold perform_op
    rw [if_pos hvt, hcs]
    split
    · exact append_envvar_mirrored w name value hu h
    · exact set_envvar_mirrored w name value hu h
  · obtain ⟨h1, h2⟩ := perform_op_option_frame X w name vt vo value hvt
    rw [h1, h2]
    exact h

theorem let_variables_mirrored {σ : Type} (X : Externals σ) (hcs : X.case_sensitive = true)
    (w : State σ) (cmd : CStr) (hu : names_unique w.vars) (h : Mirrored w.vars w.environ) :
    Mirrored (let_variables X w cmd).2.vars (let_variables X w cmd).2.environ := by
  unfold let_variables
  split
  · exact h
  · split
    · exact h
    · dsimp only
      split
      · exact h
      · split
        · exact h
        · split
          · exact h
          · exact perform_op_mirrored X hcs w _ _ _ _ hu h

theorem unlet_loop_mirrored {σ : Type} (X : Externals σ) (hcs : X.case_sensitive = true)
    (fuel : Nat) (cmd : CStr) (w : State σ) (error : Int)
    (hok : registry_ok w.vars) (h : Mirrored w.vars w.environ) :
    Mirrored (unlet_loop X fuel cmd w error).2.vars
      (unlet_loop X fuel cmd w error).2.environ := by
  induction fuel generalizing cmd w error with
  | zero => exact h
  | succ fuel ih =>
    cases cmd with
    | nil => exact h
    | cons c rest =>
      rw [unlet_loop]
      dsimp only
      by_cases ht : trailing_chars
          (copy_name (if decide (c = '$') = true then rest else c :: rest) []).1 = true
      · rw [if_pos ht]
        exact h
      · rw [if_neg ht]
        by_cases he : decide (c = '$') = false
        · rw [if_pos he]
          exact ih _ _ _ hok h
        · rw [if_neg he]
          exact ih _ _ _ (unlet_one_registry_ok X w _ hok)
            (unlet_one_mirrored X hcs w _ hok.1 h)

theorem exec_mirrored {σ : Type} (X : Externals σ) (hcs : X.case_sensitive = true)
    (w : State σ) (s : Stmt) (hok : registry_ok w.vars) (h : Mirrored w.vars w.environ) :
    Mirrored (exec X w s).vars (exec X w s).environ := by
  cases s with
  | let_stmt cmd => exact let_variables_mirrored X hcs w cmd hok.1 h
  | unlet_stmt cmd => exact unlet_loop_mirrored X hcs _ _ w 0 hok h

theorem run_mirrored {σ : Type} (X : Externals σ) (hcs : X.case_sensitive = true)
    (stmts : List Stmt) (w : State σ) (hok : registry_ok w.vars)
    (h : Mirrored w.vars w.environ) :
    registry_ok (run X w stmts).vars ∧ Mirrored (run X w stmts).vars (run X w stmts).environ := by
  induction stmts generalizing w with
  | nil => exact ⟨hok, h⟩
  | cons s rest ih =>
    exact ih (exec X w s) (exec_registry_ok X w s hok) (exec_mirrored X hcs w s hok h)

/-- At bootstrap every record is inherited and starts with its initial
value. -/
theorem init_var_fresh (vars : List Slot) (e : CStr × CStr)
    (h : ∀ j r, slot_at vars j = some r → r.from_parent = true ∧ r.val = r.initial) :
    ∀ j r, slot_at (init_var vars e) j = some r → r.from_parent = true ∧ r.val = r.initial := by
  intro j r hs
  unfold init_var at hs
  simp only at hs
  rw [slot_at_update_record] at hs
  by_cases hj : j = (get_record vars (e.1.take VAR_NAME_MAX)).2
  · simp only [hj, if_true, Option.map_eq_some'] at hs
    obtain ⟨r0, _, rfl⟩ := hs
    exact ⟨rfl, rfl⟩
  · simp only [hj, if_false] at hs
    cases hf : find_record true vars (e.1.take VAR_NAME_MAX) with
    | none =>
      rw [(get_record_new vars _ hf).2.2 j hj] at hs
      exact h j r hs
    | some q =>
      obtain ⟨i, r0⟩ := q
      rw [get_record_found vars _ i r0 hf] at hs
      exact h j r hs

theorem foldl_init_var_fresh (l : Environ) (vars : List Slot)
    (h : ∀ j r, slot_at vars j = some r → r.from_parent = true ∧ r.val = r.initial) :
    ∀ j r, slot_at (l.foldl init_var vars) j = some r →
      r.from_parent = true ∧ r.val = r.initial := by
  induction l generalizing vars with
  | nil => exact h
  | cons e rest ih => exact ih (init_var vars e) (init_var_fresh vars e h)

/-- On a case-sensitive platform, after bootstrap from an environment with
pairwise different names of at most `VAR_NAME_MAX` characters and any
sequence of `let` and `unlet` statements, every occupied slot that is not a
tombstone has an OS environment entry of its name with its value, which is
also what `local_getenv` returns for the name. -/
theorem values_mirrored_case_sensitive {σ : Type} (X : Externals σ) (env0 : Environ) (opts : σ)
    (stmts : List Stmt) (hcs : X.case_sensitive = true)
    (hnodup : (env0.map Prod.fst).Nodup) (hlen : ∀ e ∈ env0, e.1.length ≤ VAR_NAME_MAX) :
    ∀ i r, slot_at (run X (init_variables (start env0 opts)) stmts).vars i = some r →
      r.removed = false →
      env_get (run X (init_variables (start env0 opts)) stmts).environ r.name = some r.val ∧
      local_getenv true (run X (init_variables (start env0 opts)) stmts).vars r.name = r.val := by
  have hc := init_variables_coherent env0 opts hnodup hlen
  have hfresh : ∀ j r, slot_at (init_variables (start env0 opts)).vars j = some r →
      r.from_parent = true ∧ r.val = r.initial := by
    have := foldl_init_var_fresh env0 [] (by
      intro j r hs
      simp at hs)
    simpa [init_variables, start] using this
  have hm0 : Mirrored (init_variables (start env0 opts)).vars
      (init_variables (start env0 opts)).environ := by
    intro j r hs _
    obtain ⟨hp, hv⟩ := hfresh j r hs
    have henv : (init_variables (start env0 opts)).environ = env0 := by
      simp [init_variables, start]
    have := hc.2.1 j r hs
    rw [hp] at this
    rw [henv, hv]
    simpa using this
  obtain ⟨hok, hm⟩ := run_mirrored X hcs stmts _ (init_variables_registry_ok _) hm0
  intro i r hs hr
  refine ⟨hm i r hs hr, ?_⟩
  have hf := find_record_true_of_slot _ i r hok.1 hs
  simp [local_getenv, hf, hr]

/-- C26, the failing input: on a platform that ignores case in names, after
`let $foo = 1`, `let $FOO = 2` and `let $FOO .= x` the record `FOO` is
occupied and not a tombstone with the value `2`, while the OS environment
entry of `FOO` is `1x`: the append found the record `foo`, which
`get_record` had not taken for `FOO` when it created a second record. -/
theorem append_reaches_other_spelling :
    (run sample_nocase (init_variables (start [] []))
      [Stmt.let_stmt "$foo = 1".toList, Stmt.let_stmt "$FOO = 2".toList,
       Stmt.let_stmt "$FOO .= x".toList]).vars =
      [some ⟨"foo".toList, "1x".toList, [], false, false⟩,
       some ⟨"FOO".toList, "2".toList, [], false, false⟩] ∧
    env_get (run sample_nocase (init_variables (start [] []))
      [Stmt.let_stmt "$foo = 1".toList, Stmt.let_stmt "$FOO = 2".toList,
       Stmt.let_stmt "$FOO .= x".toList]).environ "FOO".toList = some "1x".toList := by
  decide

end Vifm
